import Mathlib

/-
Verification of the emmalloc allocator (system/lib/emmalloc.cpp, the
16-byte-header design; the incomplete "mini"-header variant in the same
file is explicitly non-authoritative).

Modelling conventions for the shallow embedding:

* `size_t` values (sizes, addresses) are modelled as `Nat`.  The allocator
  targets a 32-bit address space; the system break can never be moved past
  `ADDRESS_SPACE = 2^32`, which is enforced in the `sbrk` model.  The one
  `size_t` subtraction that can genuinely underflow in a reachable state
  (`alignUp(size) - reusable` in `extendLastRegion`, reachable after a
  region is leaked from the free lists by a failed `sbrk`) is modelled with
  the explicit wrapping subtraction `subWrap`; `calloc`'s 32-bit product
  `nmemb * size` is modelled with an explicit `% 2^32`.
* The intrusive region structure (regions laid out back to back in memory,
  each holding `_totalSize`, `_usedPayload` and a `_prev` back pointer) is
  modelled as the address-ordered association list
  `regions : List (Nat × Reg)`.  `next()` (`this + getTotalSize()` unless
  `this == lastRegion`) and the `_prev` back pointer (asserted by
  `emmalloc_validate_region` to equal the positional predecessor) are the
  positional neighbours in this list.  `firstRegion`/`lastRegion` are the
  first/last entries.
* Each intrusive doubly-linked free list (head pointers in `freeLists[]`,
  links overlaid on the payload of free regions) is modelled as the list of
  the addresses of its member regions, in head-to-tail order.  LIFO
  insertion at the head is `List.cons`; unlinking a node is `List.erase`.
* `sbrk` is modelled inside the state: an oracle `sbrkOk : Nat → Bool`
  (indexed by the number of `sbrk` calls made so far) decides whether a
  growth request is granted; a request is also refused when it would move
  the break past `ADDRESS_SPACE`.  `sbrk(0)` (a pure query) always
  succeeds.  A successful `sbrk(n)` returns the previous break and
  advances it by `n`.
* Payload memory contents are modelled by `bytes : Nat → Nat`; `memset`
  (in `calloc`) and `memcpy` (in `realloc`) update it.  The overlaying of
  free-list nodes on free payloads is not reflected in `bytes` (free
  payload contents are unobservable through the public interface).
* C `assert`s are kept as comments.  Public operations applied to invalid
  arguments (freeing a pointer that is not a currently allocated payload)
  are undefined behaviour in C; the step relation `ValidOp` restricts
  sequences of public operations to valid API usage.
-/

namespace Emmalloc

/-! ## Constants (emmalloc.cpp lines 78-90, 217-218, 574) -/

def ALIGNMENT : Nat := 16

def ALLOC_UNIT : Nat := ALIGNMENT

def METADATA_SIZE : Nat := ALLOC_UNIT

def MIN_REGION_SIZE : Nat := METADATA_SIZE + ALLOC_UNIT

def MIN_FREELIST_INDEX : Nat := 4

def MAX_FREELIST_INDEX : Nat := 32

def SPECULATIVE_FREELIST_TRIES : Nat := 32

/-- The size of the 32-bit address space; the break cannot move past it. -/
def ADDRESS_SPACE : Nat := 2 ^ 32

/-! ## Math utilities (emmalloc.cpp lines 65-101) -/

/-- `alignUp(ptr) = (ptr + ALIGNMENT - 1) & -ALIGNMENT`: round up to a
multiple of 16 (the bitmask clears the low four bits). -/
def alignUp (x : Nat) : Nat := (x + (ALIGNMENT - 1)) / ALIGNMENT * ALIGNMENT

/-- Wrapping 32-bit (`size_t`) subtraction. -/
def subWrap (a b : Nat) : Nat := if b ≤ a then a - b else a + ADDRESS_SPACE - b

/-- Fuel-driven population count; `popcountAux n n` is `__builtin_popcount n`
for `n < 2^32` (fuel `n` suffices since halving reaches 0 within `n` steps). -/
def popcountAux : Nat → Nat → Nat
  | 0, _ => 0
  | fuel + 1, n => if n = 0 then 0 else n % 2 + popcountAux fuel (n / 2)

def popcount (n : Nat) : Nat := popcountAux n n

/-- `isPowerOf2(x) = __builtin_popcount(x) == 1`. -/
def isPowerOf2 (x : Nat) : Bool := popcount x == 1

/-- Fuel-driven binary logarithm; `log2Aux n n = Nat.log2 n`. -/
def log2Aux : Nat → Nat → Nat
  | 0, _ => 0
  | fuel + 1, n => if n < 2 then 0 else log2Aux fuel (n / 2) + 1

/-- `lowerBoundPowerOf2(x)`: `1` for `x = 0`, else `31 - __builtin_clz(x)`,
which is the floor binary logarithm of a 32-bit `x`. -/
def lowerBoundPowerOf2 (x : Nat) : Nat := if x = 0 then 1 else log2Aux x x

/-! ### Bridges from the fuel-driven functions to the library ones -/

theorem popcountAux_fuel {fuel n : Nat} (h : n ≤ fuel) :
    popcountAux fuel n = popcount n := by
  have main : ∀ fuel₁ fuel₂ n : Nat, n ≤ fuel₁ → n ≤ fuel₂ →
      popcountAux fuel₁ n = popcountAux fuel₂ n := by
    intro fuel₁
    induction fuel₁ with
    | zero =>
      intro fuel₂ n h1 _
      interval_cases n
      cases fuel₂ <;> simp [popcountAux]
    | succ f ih =>
      intro fuel₂ n h1 h2
      cases fuel₂ with
      | zero =>
        interval_cases n
        simp [popcountAux]
      | succ f₂ =>
        simp only [popcountAux]
        rcases Nat.eq_zero_or_pos n with rfl | hn
        · simp
        · have hlt : n / 2 < n := Nat.div_lt_self hn (by omega)
          rw [if_neg (by omega), if_neg (by omega),
            ih f₂ (n / 2) (by omega) (by omega)]
  exact main fuel n n h le_rfl

theorem popcount_succ {n : Nat} (h : n ≠ 0) :
    popcount n = n % 2 + popcount (n / 2) := by
  cases n with
  | zero => omega
  | succ m =>
    show popcountAux (m + 1) (m + 1) = _
    simp only [popcountAux, if_neg (Nat.succ_ne_zero m)]
    congr 1
    exact popcountAux_fuel (by omega)

theorem popcount_eq_zero {n : Nat} : popcount n = 0 ↔ n = 0 := by
  constructor
  · intro h
    induction n using Nat.strong_induction_on with
    | _ n ih =>
      by_contra hn
      rw [popcount_succ hn] at h
      have h2 : n % 2 = 0 := by omega
      have h3 : popcount (n / 2) = 0 := by omega
      have := ih (n / 2) (Nat.div_lt_self (by omega) (by omega)) h3
      omega
  · rintro rfl
    rfl

theorem popcount_two_pow (k : Nat) : popcount (2 ^ k) = 1 := by
  induction k with
  | zero => rfl
  | succ m ih =>
    rw [popcount_succ (pow_pos (show (0 : Nat) < 2 by omega) (m + 1)).ne']
    have h2 : 2 ^ (m + 1) % 2 = 0 := by
      simp [Nat.pow_succ, Nat.mul_mod_left]
    have h3 : 2 ^ (m + 1) / 2 = 2 ^ m := by
      rw [Nat.pow_succ, Nat.mul_div_cancel]
      omega
    rw [h2, h3, ih]

theorem isPowerOf2_iff {x : Nat} : isPowerOf2 x = true ↔ ∃ k, x = 2 ^ k := by
  constructor
  · intro h
    have h1 : popcount x = 1 := by
      simpa [isPowerOf2] using h
    clear h
    induction x using Nat.strong_induction_on with
    | _ n ih =>
      have hn : n ≠ 0 := by
        intro h
        rw [h] at h1
        simp [popcount, popcountAux] at h1
      rw [popcount_succ hn] at h1
      rcases Nat.mod_two_eq_zero_or_one n with h2 | h2
      · have h3 : popcount (n / 2) = 1 := by omega
        obtain ⟨k, hk⟩ := ih (n / 2) (Nat.div_lt_self (by omega) (by omega)) h3
        exact ⟨k + 1, by omega⟩
      · have h3 : popcount (n / 2) = 0 := by omega
        have h4 : n / 2 = 0 := popcount_eq_zero.mp h3
        exact ⟨0, by omega⟩
  · rintro ⟨k, rfl⟩
    simp [isPowerOf2, popcount_two_pow]

theorem log2Aux_fuel {fuel n : Nat} (h : n ≤ fuel) : log2Aux fuel n = Nat.log2 n := by
  induction fuel generalizing n with
  | zero =>
    interval_cases n
    rw [Nat.log2]
    simp [log2Aux]
  | succ f ih =>
    rw [log2Aux, Nat.log2]
    rcases Nat.lt_or_ge n 2 with hn | hn
    · rw [if_pos hn, if_neg (by omega)]
    · rw [if_neg (by omega), if_pos hn, ih (by omega)]

theorem lowerBoundPowerOf2_eq {x : Nat} (h : x ≠ 0) :
    lowerBoundPowerOf2 x = Nat.log2 x := by
  rw [lowerBoundPowerOf2, if_neg h, log2Aux_fuel le_rfl]

/-! ## Free-list index math (emmalloc.cpp lines 232-269) -/

/-- `getFreeListIndex(size)`: clamp `size` up to `ALLOC_UNIT`, then take the
floor binary logarithm.  (The code asserts `size > 0` and that the result
lies in `[MIN_FREELIST_INDEX, MAX_FREELIST_INDEX)`.) -/
def getFreeListIndex (size : Nat) : Nat :=
  lowerBoundPowerOf2 (if size < ALLOC_UNIT then ALLOC_UNIT else size)

/-- `getBigEnoughFreeListIndex(size)`: `getFreeListIndex(size)`, plus one if
`size` is not a power of two. -/
def getBigEnoughFreeListIndex (size : Nat) : Nat :=
  let index := getFreeListIndex size
  if !isPowerOf2 size then index + 1 else index

/-- `getMinSizeForFreeListIndex(index) = 1 << index`.  The shift is a wasm
`i32.shl`, which takes the shift count modulo 32 (reached with
`index = MAX_FREELIST_INDEX` from `tryFromFreeList`). -/
def getMinSizeForFreeListIndex (index : Nat) : Nat := 2 ^ (index % 32)

theorem getFreeListIndex_eq_log2 {size : Nat} (h : ALLOC_UNIT ≤ size) :
    getFreeListIndex size = Nat.log2 size := by
  rw [getFreeListIndex, if_neg (by omega), lowerBoundPowerOf2_eq (by
    simp only [ALLOC_UNIT, ALIGNMENT] at h
    omega)]

theorem getFreeListIndex_small {size : Nat} (h : size < ALLOC_UNIT) :
    getFreeListIndex size = 4 := by
  rw [getFreeListIndex, if_pos h]
  decide

theorem getFreeListIndex_le_iff {size k : Nat} (h : ALLOC_UNIT ≤ size) :
    getFreeListIndex size < k ↔ size < 2 ^ k := by
  rw [getFreeListIndex_eq_log2 h]
  exact Nat.log2_lt (by simp only [ALLOC_UNIT, ALIGNMENT] at h; omega)

theorem getFreeListIndex_ge_min {size : Nat} : MIN_FREELIST_INDEX ≤ getFreeListIndex size := by
  rcases Nat.lt_or_ge size ALLOC_UNIT with h | h
  · rw [getFreeListIndex_small h]
    decide
  · have h1 : ¬ getFreeListIndex size < 4 := by
      rw [getFreeListIndex_le_iff h]
      simp only [ALLOC_UNIT, ALIGNMENT] at h
      norm_num
      omega
    simp only [MIN_FREELIST_INDEX]
    omega

theorem two_pow_getFreeListIndex_le {size : Nat} (h : ALLOC_UNIT ≤ size) :
    2 ^ getFreeListIndex size ≤ size := by
  rw [getFreeListIndex_eq_log2 h]
  exact Nat.log2_self_le (by simp only [ALLOC_UNIT, ALIGNMENT] at h; omega)

theorem lt_two_pow_getFreeListIndex {size : Nat} (h : ALLOC_UNIT ≤ size) :
    size < 2 ^ (getFreeListIndex size + 1) := by
  rw [getFreeListIndex_eq_log2 h]
  exact Nat.lt_log2_self

/-- Any positive request is at most `2 ^ getBigEnoughFreeListIndex size`:
regions filed at or above the big-enough index are large enough. -/
theorem le_two_pow_getBigEnoughFreeListIndex {size : Nat} :
    size ≤ 2 ^ getBigEnoughFreeListIndex size := by
  rw [getBigEnoughFreeListIndex]
  rcases Nat.lt_or_ge size ALLOC_UNIT with h | h
  · have h4 : getFreeListIndex size = 4 := getFreeListIndex_small h
    simp only [ALLOC_UNIT, ALIGNMENT] at h
    cases hp : isPowerOf2 size with
    | false =>
      simp only [hp, Bool.not_false, if_pos, h4]
      calc size ≤ 16 := by omega
        _ ≤ 2 ^ (4 + 1) := by norm_num
    | true =>
      simp only [hp, Bool.not_true, Bool.false_eq_true, if_false, h4]
      calc size ≤ 16 := by omega
        _ ≤ 2 ^ 4 := by norm_num
  · cases hp : isPowerOf2 size with
    | false =>
      simp only [hp, Bool.not_false, if_pos]
      exact le_of_lt (lt_two_pow_getFreeListIndex h)
    | true =>
      obtain ⟨k, rfl⟩ := isPowerOf2_iff.mp hp
      simp only [hp, Bool.not_true, Bool.false_eq_true, if_false]
      rw [getFreeListIndex_eq_log2 h, Nat.log2_eq_log_two, Nat.log_pow (by omega)]

/-! ## Data model (emmalloc.cpp lines 107-225) -/

/-- The mutable metadata of one region (struct `Region`): `_totalSize` is
metadata plus payload; `_usedPayload` is zero exactly when the region is
free.  (The `_prev` back pointer and the overlaid `FreeInfo` links are
represented positionally: see the header comment.) -/
structure Reg where
  totalSize : Nat
  usedPayload : Nat
  deriving Repr, DecidableEq

/-- `getMaxPayload(region) = region->getTotalSize() - METADATA_SIZE`. -/
def getMaxPayload (r : Reg) : Nat := r.totalSize - METADATA_SIZE

/-- The global state of the allocator: the address-ordered region list
(`firstRegion`/`lastRegion` are its first/last entries), the 32 segregated
free lists (as lists of member-region addresses, head first), the current
break, the `sbrk` call counter and success oracle, and payload memory. -/
structure Heap where
  regions : List (Nat × Reg)
  freeLists : List (List Nat)
  brk : Nat
  sbrkCalls : Nat
  sbrkOk : Nat → Bool
  bytes : Nat → Nat

/-- Look up the region whose base address is `a`. -/
def findReg (a : Nat) : List (Nat × Reg) → Option Reg
  | [] => none
  | (a₁, r₁) :: t => if a₁ = a then some r₁ else findReg a t

def Heap.find (h : Heap) (a : Nat) : Option Reg := findReg a h.regions

/-- The positional predecessor of the region at `a` (the region whose
stored `_prev` pointer the code reads, kept equal to the positional
predecessor per `emmalloc_validate_region`). -/
def prevEntry (a : Nat) : List (Nat × Reg) → Option (Nat × Reg)
  | (a₁, r₁) :: (a₂, r₂) :: t =>
    if a₂ = a then some (a₁, r₁) else prevEntry a ((a₂, r₂) :: t)
  | _ => none

/-- The positional successor of the region at `a` (`Region::next()`:
`this + getTotalSize()` unless `this == lastRegion`). -/
def nextEntry (a : Nat) : List (Nat × Reg) → Option (Nat × Reg)
  | (a₁, _) :: e₂ :: t =>
    if a₁ = a then some e₂ else nextEntry a (e₂ :: t)
  | _ => none

/-- Update the region stored at address `a` in place. -/
def updateReg (a : Nat) (f : Reg → Reg) : List (Nat × Reg) → List (Nat × Reg)
  | [] => []
  | (a₁, r₁) :: t =>
    if a₁ = a then (a₁, f r₁) :: t else (a₁, r₁) :: updateReg a f t

/-- The region at `a` absorbs its positional successor:
`prev->incTotalSize(region->getTotalSize())` together with dropping the
absorbed region from the region list (its metadata becomes plain payload
bytes of the absorber) and redirecting the successor's `_prev` /
`lastRegion` (both positional here). -/
def absorbNextIn (a : Nat) : List (Nat × Reg) → List (Nat × Reg)
  | (a₁, r₁) :: (a₂, r₂) :: t =>
    if a₁ = a then (a₁, { r₁ with totalSize := r₁.totalSize + r₂.totalSize }) :: t
    else (a₁, r₁) :: absorbNextIn a ((a₂, r₂) :: t)
  | l => l

/-- Replace the region at `a` by the shrunk parent `pr` followed by the
carved-off tail region `(ta, tr)` (the split of `possiblySplitRemainder`,
including stitching the tail into the region list). -/
def splitIn (a : Nat) (pr : Reg) (ta : Nat) (tr : Reg) :
    List (Nat × Reg) → List (Nat × Reg)
  | [] => []
  | (a₁, r₁) :: t =>
    if a₁ = a then (a₁, pr) :: (ta, tr) :: t
    else (a₁, r₁) :: splitIn a pr ta tr t

/-- End address of the region list started at `a0` (used to state that the
regions tile `[firstRegion, brk)`). -/
def listEnd (a0 : Nat) : List (Nat × Reg) → Nat
  | [] => a0
  | (a, r) :: t => listEnd (a + r.totalSize) t

/-! ## sbrk model (see header comment) -/

/-- The system break primitive.  Returns the previous break on success and
`none` (the `(void*)-1` sentinel) on failure.  A query (`n = 0`) always
succeeds; a growth request succeeds when the oracle grants this call and
the break stays within the 32-bit address space. -/
def sbrk (h : Heap) (n : Nat) : Heap × Option Nat :=
  let ok := (n = 0 || h.sbrkOk h.sbrkCalls) && h.brk + n ≤ ADDRESS_SPACE
  let h₁ := { h with sbrkCalls := h.sbrkCalls + 1 }
  if ok then ({ h₁ with brk := h.brk + n }, some h.brk) else (h₁, none)

/-! ## Free-list insert/remove (emmalloc.cpp lines 271-304) -/

/-- `removeFromFreeList(region)`: unlink the region's `FreeInfo` node from
the doubly-linked list it is on — the list at `getFreeListIndex(maxPayload)`
(the code asserts `!region->getUsedPayload()`; the head pointer fix-up plus
neighbour relinking amount to erasing the node). -/
def removeFromFreeList (h : Heap) (a : Nat) : Heap :=
  match h.find a with
  | none => h
  | some r =>
    let index := getFreeListIndex (getMaxPayload r)
    { h with freeLists := h.freeLists.set index ((h.freeLists.getD index []).erase a) }

/-- `addToFreeList(region)`: push the region's `FreeInfo` node at the head
of the list at `getFreeListIndex(maxPayload)` (the code asserts
`!region->getUsedPayload()` and `getAfter(region) <= sbrk(0)`). -/
def addToFreeList (h : Heap) (a : Nat) : Heap :=
  match h.find a with
  | none => h
  | some r =>
    let index := getFreeListIndex (getMaxPayload r)
    { h with freeLists := h.freeLists.set index (a :: h.freeLists.getD index []) }

/-! ## Coalescing (emmalloc.cpp lines 306-370) -/

/-- The second branch of `mergeIntoExistingFreeRegion`: if the successor
exists and is free, remove it from its free list, absorb it into the region
at `a`, fix the pointers (positional here), and re-insert the grown region. -/
def mergeIntoNext (h : Heap) (a : Nat) : Heap × Bool :=
  match nextEntry a h.regions with
  | some (n, nr) =>
    if nr.usedPayload = 0 then
      let h₁ := removeFromFreeList h n
      let h₂ := { h₁ with regions := absorbNextIn a h₁.regions }
      (addToFreeList h₂ a, true)
    else (h, false)
  | none => (h, false)

/-- `mergeIntoExistingFreeRegion(region)`: region `a` has just become free
(and is not on a free list).  If its predecessor is free, the predecessor
absorbs it (after being pulled off its free list), then also absorbs the
original successor if that is free too, and is re-filed; otherwise, if the
successor is free, the region absorbs it and is filed.  Returns whether a
merge happened.  (The code asserts `getAfter(region) <= sbrk(0)`.) -/
def mergeIntoExistingFreeRegion (h : Heap) (a : Nat) : Heap × Bool :=
  let next? := nextEntry a h.regions
  match prevEntry a h.regions with
  | some (p, pr) =>
    if pr.usedPayload = 0 then
      let h₁ := removeFromFreeList h p
      let h₂ := { h₁ with regions := absorbNextIn p h₁.regions }
      let h₃ :=
        match next? with
        | some (n, nr) =>
          if nr.usedPayload = 0 then
            let hA := removeFromFreeList h₂ n
            { hA with regions := absorbNextIn p hA.regions }
          else h₂
        | none => h₂
      (addToFreeList h₃ p, true)
    else mergeIntoNext h a
  | none => mergeIntoNext h a

/-- `stopUsing(region)`: set `usedPayload` to 0; if no neighbour merge
absorbed the region, insert it into its free list as-is. -/
def stopUsing (h : Heap) (a : Nat) : Heap :=
  let h₀ := { h with regions := updateReg a (fun r => { r with usedPayload := 0 }) h.regions }
  match mergeIntoExistingFreeRegion h₀ a with
  | (h₁, true) => h₁
  | (h₁, false) => addToFreeList h₁ a

/-! ## Splitting (emmalloc.cpp lines 372-425) -/

/-- `possiblySplitRemainder(region, size)`: if at least `MIN_REGION_SIZE`
payload bytes beyond `size` remain (the code asserts `payloadSize >= size`),
carve them into a tail region starting at `alignUp(payload + size)`, stitch
it into the region list, and release it through `stopUsing`. -/
def possiblySplitRemainder (h : Heap) (a : Nat) (size : Nat) : Heap :=
  match h.find a with
  | none => h
  | some r =>
    let payloadSize := getMaxPayload r
    let extra := subWrap payloadSize size
    if MIN_REGION_SIZE ≤ extra then
      let after := a + r.totalSize
      let split := alignUp (a + METADATA_SIZE + size)
      -- assert(totalSplitSize >= MIN_REGION_SIZE)
      let totalSplitSize := after - split
      let h₁ := { h with
        regions := splitIn a { r with totalSize := split - a } split
          { totalSize := totalSplitSize, usedPayload := 0 } h.regions }
      stopUsing h₁ split
    else h

/-- `useRegion(region, size)`: set the used payload, then split off any
large-enough remainder. -/
def useRegion (h : Heap) (a : Nat) (size : Nat) : Heap :=
  let h₁ := { h with regions := updateReg a (fun r => { r with usedPayload := size }) h.regions }
  possiblySplitRemainder h₁ a size

/-- `useFreeInfo(freeInfo, size)`: take the region off its free list and
start using it.  (The region address is returned by the caller.) -/
def useFreeInfo (h : Heap) (a : Nat) (size : Nat) : Heap :=
  useRegion (removeFromFreeList h a) a size

/-! ## Allocation search (emmalloc.cpp lines 550-629) -/

/-- The near-fit probe loop of `tryFromFreeList`: walk at most
`SPECULATIVE_FREELIST_TRIES` head-most nodes of a free list, returning the
first member whose max payload is at least `size`. -/
def probeList (regs : List (Nat × Reg)) (size : Nat) : List Nat → Nat → Option Nat
  | [], _ => none
  | a :: t, tries =>
    if tries < SPECULATIVE_FREELIST_TRIES then
      match findReg a regs with
      | some r =>
        if size ≤ getMaxPayload r then some a else probeList regs size t (tries + 1)
      | none => none
    else none

/-- The segregated sweep of `tryFromFreeList`: scan classes `index`,
`index + 1`, … below `MAX_FREELIST_INDEX` and use the head of the first
non-empty list.  `fuel` is `MAX_FREELIST_INDEX - index` at the call site. -/
def sweepFrom (h : Heap) (size : Nat) : Nat → Nat → Heap × Option Nat
  | 0, _ => (h, none)
  | fuel + 1, index =>
    if index < MAX_FREELIST_INDEX then
      match h.freeLists.getD index [] with
      | a :: _ => (useFreeInfo h a size, some a)
      | [] => sweepFrom h size fuel (index + 1)
    else (h, none)

/-- `tryFromFreeList(size)`: near-fit probe of the class one below the
big-enough class (when that class may legitimately hold a fit), then the
segregated sweep from the big-enough class upward. -/
def tryFromFreeList (h : Heap) (size : Nat) : Heap × Option Nat :=
  let index := getBigEnoughFreeListIndex size
  let probeHit :=
    if MIN_FREELIST_INDEX < index ∧ size < getMinSizeForFreeListIndex index then
      probeList h.regions size (h.freeLists.getD (index - 1) []) 0
    else none
  match probeHit with
  | some a => (useFreeInfo h a size, some a)
  | none => sweepFrom h size (MAX_FREELIST_INDEX - index) index

/-! ## Break-pointer growth (emmalloc.cpp lines 631-762) -/

/-- `extendLastRegion(size)`: grow the last region so its max payload
reaches `alignUp(size)`, requesting `alignUp(size) - reusable` bytes from
`sbrk` (a wrapping `size_t` subtraction), and mark it used with payload
`size`.  Returns `true` on success (the C function returns 0) and fails
without mutating the region on `sbrk` failure.  (The code asserts
`size > usedPayload`, `size > maxPayload` and `ptr == getAfter(lastRegion)`;
the `none` arm is unreachable, callers establish `lastRegion != NULL`.) -/
def extendLastRegion (h : Heap) (size : Nat) : Heap × Bool :=
  match h.regions.getLast? with
  | none => (h, false)
  | some (la, lr) =>
    let reusable := getMaxPayload lr
    let sbrkSize := subWrap (alignUp size) reusable
    match sbrk h sbrkSize with
    | (h₁, none) => (h₁, false)
    | (h₁, some _) =>
      let h₂ := { h₁ with
        regions := updateReg la
          (fun r => { r with totalSize := r.totalSize + sbrkSize, usedPayload := size })
          h₁.regions }
      (h₂, true)

/-- The common tail of `newAllocation`: place a fresh region of total size
`sbrkSize` at `base`, link it as the new last region, and start using it. -/
def newAllocationPlace (h : Heap) (base sbrkSize size : Nat) : Heap × Option Nat :=
  let h₁ := { h with regions := h.regions ++ [(base, { totalSize := sbrkSize, usedPayload := 0 })] }
  (useRegion h₁ base size, some base)

/-- The brand-new-space strategy of `newAllocation`: request
`METADATA_SIZE + alignUp(size)` from `sbrk`; on an unaligned result (only
possible before the first region exists) request the alignment fix-up
padding too, leaking the padding bytes. -/
def newAllocationFresh (h : Heap) (size : Nat) : Heap × Option Nat :=
  let sbrkSize := METADATA_SIZE + alignUp size
  match sbrk h sbrkSize with
  | (h₁, none) => (h₁, none)
  | (h₁, some ptr) =>
    let fixedPtr := alignUp ptr
    if ptr ≠ fixedPtr then
      match sbrk h₁ (fixedPtr - ptr) with
      | (h₂, none) => (h₂, none)
      | (h₂, some _) =>
        -- assert(extraPtr == ptr + sbrkSize); assert(!lastRegion)
        newAllocationPlace h₂ fixedPtr sbrkSize size
    else newAllocationPlace h₁ fixedPtr sbrkSize size

/-- `newAllocation(size)`: (1) if the last region is free, pull it off its
free list and extend it (on `sbrk` failure the region stays leaked off the
free lists); (2) if the last region is used but has usable aligned slack at
its end, request the difference and place the new region over the slack;
(3) otherwise request brand-new space.  (The code asserts `size > 0` and
`usable >= ALLOC_UNIT` in strategy 2.) -/
def newAllocation (h : Heap) (size : Nat) : Heap × Option Nat :=
  match h.regions.getLast? with
  | some (la, lr) =>
    if lr.usedPayload = 0 then
      let h₁ := removeFromFreeList h la
      match extendLastRegion h₁ size with
      | (h₂, true) => (h₂, some la)
      | (h₂, false) => (h₂, none)
    else
      let alignedUsed := alignUp lr.usedPayload
      let usable := subWrap (getMaxPayload lr) alignedUsed
      if 0 < usable then
        let sbrkSize := subWrap (METADATA_SIZE + alignUp size) usable
        match sbrk h sbrkSize with
        | (h₁, none) => (h₁, none)
        | (h₁, some ptr) =>
          -- assert(ptr == getAfter(lastRegion))
          let base := ptr - usable
          let h₂ := { h₁ with
            regions := updateReg la (fun r => { r with totalSize := r.totalSize - usable })
              h₁.regions }
          let h₃ := { h₂ with
            regions := h₂.regions ++ [(base, { totalSize := sbrkSize + usable, usedPayload := size })] }
          (h₃, some base)
      else newAllocationFresh h size
  | none => newAllocationFresh h size

/-! ## Byte memory -/

/-- `memset(p, v, n)` on the byte memory. -/
def memsetBytes (h : Heap) (p v n : Nat) : Heap :=
  { h with bytes := fun x => if p ≤ x ∧ x < p + n then v else h.bytes x }

/-- `memcpy(dst, src, n)` on the byte memory. -/
def memcpyBytes (h : Heap) (dst src n : Nat) : Heap :=
  { h with bytes := fun x => if dst ≤ x ∧ x < dst + n then h.bytes (src + (x - dst)) else h.bytes x }

/-! ## Internal mirror of the public API (emmalloc.cpp lines 764-895) -/

/-- `emmalloc_malloc(size)`: `malloc(0)` is NULL; otherwise try the free
lists, then new allocation; the returned payload is `region + METADATA_SIZE`
(`getPayload`, which asserts `usedPayload != 0`). -/
def emmalloc_malloc (h : Heap) (size : Nat) : Heap × Option Nat :=
  if size = 0 then (h, none)
  else
    match tryFromFreeList h size with
    | (h₁, some a) => (h₁, some (a + METADATA_SIZE))
    | (h₁, none) =>
      match newAllocation h₁ size with
      | (h₂, some a) => (h₂, some (a + METADATA_SIZE))
      | (h₂, none) => (h₂, none)

/-- `emmalloc_free(ptr)`: no-op on NULL, else `stopUsing(fromPayload(ptr))`.
(Freeing a pointer that is not a current payload is undefined behaviour in
C; the model leaves the heap unchanged and `ValidOp` excludes it.) -/
def emmalloc_free (h : Heap) (ptr : Nat) : Heap :=
  if ptr = 0 then h
  else
    match h.find (ptr - METADATA_SIZE) with
    | some _ => stopUsing h (ptr - METADATA_SIZE)
    | none => h

/-- `emmalloc_calloc(nmemb, size)`: allocate the 32-bit product
`nmemb * size` (no overflow check), then `memset` that many bytes to 0. -/
def emmalloc_calloc (h : Heap) (nmemb size : Nat) : Heap × Option Nat :=
  let wanted := nmemb * size % ADDRESS_SPACE
  match emmalloc_malloc h wanted with
  | (h₁, none) => (h₁, none)
  | (h₁, some p) => (memsetBytes h₁ p 0 wanted, some p)

/-- The move path at the end of `emmalloc_realloc`: copy
`min(size, oldUsedPayload)` payload bytes into the new region, release the
old region, return the new payload. -/
def reallocCopyFinish (h : Heap) (a na size : Nat) : Heap × Option Nat :=
  let oldUsed := ((h.find a).map Reg.usedPayload).getD 0
  let h₁ := memcpyBytes h (na + METADATA_SIZE) (a + METADATA_SIZE) (min size oldUsed)
  (stopUsing h₁ a, some (na + METADATA_SIZE))

/-- `emmalloc_realloc(ptr, size)`: NULL behaves as malloc; `size = 0`
frees; a fitting size shrinks in place (possibly splitting a tail); else a
free successor is absorbed and the fit re-tested; else a free-list region
is sought, and only if none is found and the region is the last one is a
break extension attempted (returning `ptr` on success); otherwise the
payload moves to a free-list or brand-new region.  (The dead
`if (newRegion) stopUsing(newRegion)` inside the successful-extension arm
is unreachable — that arm requires `newRegion == NULL` — and is omitted.) -/
def emmalloc_realloc (h : Heap) (ptr size : Nat) : Heap × Option Nat :=
  if ptr = 0 then emmalloc_malloc h size
  else if size = 0 then (emmalloc_free h ptr, none)
  else
    let a := ptr - METADATA_SIZE
    match h.find a with
    | none => (h, none)
    | some r =>
      if size ≤ getMaxPayload r then
        let h₁ := { h with regions := updateReg a (fun r₀ => { r₀ with usedPayload := size }) h.regions }
        (possiblySplitRemainder h₁ a size, some ptr)
      else
        let h₂ :=
          match nextEntry a h.regions with
          | some (n, nr) =>
            if nr.usedPayload = 0 then
              let hA := removeFromFreeList h n
              { hA with regions := absorbNextIn a hA.regions }
            else h
          | none => h
        match h₂.find a with
        | none => (h₂, none)
        | some r₂ =>
          if size ≤ getMaxPayload r₂ then
            let h₃ := { h₂ with regions := updateReg a (fun r₀ => { r₀ with usedPayload := size }) h₂.regions }
            (possiblySplitRemainder h₃ a size, some ptr)
          else
            match tryFromFreeList h₂ size with
            | (h₃, some na) => reallocCopyFinish h₃ a na size
            | (h₃, none) =>
              if h₃.regions.getLast?.map Prod.fst = some a then
                match extendLastRegion h₃ size with
                | (h₄, true) => (h₄, some ptr)
                | (h₄, false) =>
                  match newAllocation h₄ size with
                  | (h₅, some na) => reallocCopyFinish h₅ a na size
                  | (h₅, none) => (h₅, none)
              else
                match newAllocation h₃ size with
                | (h₅, some na) => reallocCopyFinish h₅ a na size
                | (h₅, none) => (h₅, none)

/-- The `struct mallinfo` record. -/
structure Mallinfo where
  arena : Nat
  ordblks : Nat
  smblks : Nat
  hblks : Nat
  hblkhd : Nat
  usmblks : Nat
  fsmblks : Nat
  uordblks : Nat
  fordblks : Nat
  keepcost : Nat
  deriving Repr, DecidableEq

/-- The region walk of `emmalloc_mallinfo`: used regions accumulate
`usedPayload` into `uordblks`; free regions accumulate `maxPayload` into
`fordblks` and are counted in `ordblks`. -/
def mallinfoWalk : List (Nat × Reg) → Mallinfo → Mallinfo
  | [], info => info
  | (_, r) :: t, info =>
    if r.usedPayload ≠ 0 then
      mallinfoWalk t { info with uordblks := info.uordblks + r.usedPayload }
    else
      mallinfoWalk t
        { info with fordblks := info.fordblks + getMaxPayload r, ordblks := info.ordblks + 1 }

/-- `emmalloc_mallinfo()`.  The local `struct mallinfo info` is stack
memory: the code initializes `arena`, `smblks`, `hblks`, `hblkhd`,
`usmblks`, `fsmblks`, `uordblks`, `keepcost` to 0 and assigns
`info.ordblks = 0` twice, so `info.fordblks` is never initialized before
being accumulated into; its indeterminate initial value is the parameter
`fordblksInit`.  If the heap is non-empty, `arena` is `sbrk(0)` minus
`firstRegion` and the region list is walked once. -/
def emmalloc_mallinfo (h : Heap) (fordblksInit : Nat) : Mallinfo :=
  let info : Mallinfo :=
    { arena := 0, ordblks := 0, smblks := 0, hblks := 0, hblkhd := 0,
      usmblks := 0, fsmblks := 0, uordblks := 0, fordblks := fordblksInit, keepcost := 0 }
  match h.regions.head? with
  | none => info
  | some (fa, _) => mallinfoWalk h.regions { info with arena := h.brk - fa }

/-! ## Public operation sequences -/

/-- One public allocator operation. -/
inductive Op where
  | alloc (size : Nat)
  | release (ptr : Nat)
  | zeroAllocate (nmemb size : Nat)
  | reallocate (ptr size : Nat)

/-- Apply one public operation, returning the new heap and the returned
pointer (if the operation returns one). -/
def applyOp (h : Heap) : Op → Heap × Option Nat
  | .alloc size => emmalloc_malloc h size
  | .release ptr => (emmalloc_free h ptr, none)
  | .zeroAllocate nmemb size => emmalloc_calloc h nmemb size
  | .reallocate ptr size => emmalloc_realloc h ptr size

/-- Valid API usage: `release`/`reallocate` may only be given NULL or the
payload pointer of a currently allocated (used) region — anything else is
undefined behaviour in C. -/
def ValidOp (h : Heap) : Op → Prop
  | .release ptr => ptr = 0 ∨ ∃ a r, h.find a = some r ∧ r.usedPayload ≠ 0 ∧ ptr = a + METADATA_SIZE
  | .reallocate ptr _ => ptr = 0 ∨ ∃ a r, h.find a = some r ∧ r.usedPayload ≠ 0 ∧ ptr = a + METADATA_SIZE
  | _ => True

/-- The empty heap: no regions, all 32 free lists empty, an arbitrary
initial break, an arbitrary `sbrk` oracle and arbitrary memory contents. -/
def initHeap (brk0 : Nat) (orc : Nat → Bool) (mem0 : Nat → Nat) : Heap :=
  { regions := [], freeLists := List.replicate MAX_FREELIST_INDEX [],
    brk := brk0, sbrkCalls := 0, sbrkOk := orc, bytes := mem0 }

/-- Heaps reachable from the empty heap by valid public operations. -/
inductive Reachable : Heap → Prop where
  | init : ∀ brk0 orc mem0, Reachable (initHeap brk0 orc mem0)
  | step : ∀ {h : Heap} {op : Op}, Reachable h → ValidOp h op → Reachable (applyOp h op).1

/-- Apply a list of operations in order (used for concrete scenarios). -/
def applyOps (h : Heap) : List Op → Heap
  | [] => h
  | op :: t => applyOps (applyOp h op).1 t

/-! ## The heap invariant (spec section 3; asserted by `emmalloc_validate_all`) -/

/-- Invariant 1: the region list tiles the arena contiguously
(`getAfter(prev) == curr`, the `_prev` back pointers being positional). -/
def contiguous (l : List (Nat × Reg)) : Prop :=
  l.Chain' fun e₁ e₂ => e₂.1 = e₁.1 + e₁.2.totalSize

/-- Invariant 5: no two neighbouring regions are both free. -/
def noAdjFree (l : List (Nat × Reg)) : Prop :=
  l.Chain' fun e₁ e₂ => ¬(e₁.2.usedPayload = 0 ∧ e₂.2.usedPayload = 0)

/-- Invariant 4 together with the layout facts the code maintains: every
region has at least the minimal size, a 16-multiple total size, and a used
payload that fits. -/
def sizeOK (r : Reg) : Prop :=
  MIN_REGION_SIZE ≤ r.totalSize ∧ r.totalSize % ALIGNMENT = 0 ∧
    r.usedPayload ≤ getMaxPayload r

/-- Free-list soundness at one slot: the address stored in free list `i`
belongs to a region that is free and classified at `i`. -/
def freeSlotB (regs : List (Nat × Reg)) (i a : Nat) : Bool :=
  match findReg a regs with
  | some r => r.usedPayload == 0 && getFreeListIndex (getMaxPayload r) == i
  | none => false

/-- Shorthand for free list number `i`. -/
def flGet (h : Heap) (i : Nat) : List Nat := h.freeLists.getD i []

/-- Invariants 6 and 7 (one direction): every free-list member is a free
region filed in its correct size class. -/
def flSound (h : Heap) : Prop :=
  ∀ i < MAX_FREELIST_INDEX, ∀ a ∈ flGet h i, freeSlotB h.regions i a = true

/-- Invariant 7 (other direction): every free region is on the free list of
its size class. -/
def flComplete (h : Heap) : Prop :=
  ∀ e ∈ h.regions, e.2.usedPayload = 0 →
    e.1 ∈ flGet h (getFreeListIndex (getMaxPayload e.2))

/-- Each free list holds each region at most once. -/
def flNodup (h : Heap) : Prop := ∀ i < MAX_FREELIST_INDEX, (flGet h i).Nodup

/-- The full heap invariant, holding between every public entry and return:
the region list is contiguous and 16-aligned starting from an aligned first
region, it tiles exactly `[firstRegion, brk)` within the 32-bit space,
all regions are well-sized, no two free regions are adjacent, and the free
lists are sound and duplicate-free.  (Invariants 2 and 3 of the
spec are the `endOK`/`brkOK` fields together with the derived
`firstRegion`/`lastRegion` views.) -/
structure WF (h : Heap) : Prop where
  flLen : h.freeLists.length = MAX_FREELIST_INDEX
  contig : contiguous h.regions
  headAligned : ∀ e ∈ h.regions.head?, e.1 % ALIGNMENT = 0
  endOK : h.regions ≠ [] → listEnd 0 h.regions = h.brk
  brkOK : h.regions ≠ [] → h.brk ≤ ADDRESS_SPACE
  sizes : ∀ e ∈ h.regions, sizeOK e.2
  noAdj : noAdjFree h.regions
  sound : flSound h
  nodup : flNodup h

/-! ### Basic facts about the list primitives -/

theorem findReg_eq_none {b : Nat} {l : List (Nat × Reg)} (h : b ∉ l.map Prod.fst) :
    findReg b l = none := by
  induction l with
  | nil => rfl
  | cons e t ih =>
    obtain ⟨a₁, r₁⟩ := e
    simp only [List.map_cons, List.mem_cons] at h
    push_neg at h
    simp [findReg, Ne.symm h.1, ih h.2]

theorem findReg_decomp {b : Nat} {r : Reg} {pre post : List (Nat × Reg)}
    (h : b ∉ pre.map Prod.fst) :
    findReg b (pre ++ (b, r) :: post) = some r := by
  induction pre with
  | nil => simp [findReg]
  | cons e t ih =>
    obtain ⟨a₁, r₁⟩ := e
    simp only [List.map_cons, List.mem_cons] at h
    push_neg at h
    simp only [List.cons_append, findReg, if_neg (Ne.symm h.1)]
    exact ih h.2

theorem findReg_mem {a : Nat} {r : Reg} {l : List (Nat × Reg)}
    (h : findReg a l = some r) : (a, r) ∈ l := by
  induction l with
  | nil => simp [findReg] at h
  | cons e t ih =>
    obtain ⟨a₁, r₁⟩ := e
    rcases eq_or_ne a₁ a with rfl | hne
    · simp only [findReg, eq_self_iff_true, if_true, Option.some.injEq] at h
      exact h ▸ List.mem_cons_self _ _
    · simp only [findReg, if_neg hne] at h
      exact List.mem_cons_of_mem _ (ih h)

/-- Locate the first occurrence of address `a` in the region list. -/
theorem findReg_split {a : Nat} {r : Reg} {l : List (Nat × Reg)}
    (h : findReg a l = some r) :
    ∃ pre post, l = pre ++ (a, r) :: post ∧ a ∉ pre.map Prod.fst := by
  induction l with
  | nil => simp [findReg] at h
  | cons e t ih =>
    obtain ⟨a₁, r₁⟩ := e
    rcases eq_or_ne a₁ a with rfl | hne
    · simp only [findReg, eq_self_iff_true, if_true, Option.some.injEq] at h
      exact ⟨[], t, by simp [h], by simp⟩
    · simp only [findReg, if_neg hne] at h
      obtain ⟨pre, post, rfl, hnp⟩ := ih h
      exact ⟨(a₁, r₁) :: pre, post, rfl, by simp [hnp, Ne.symm hne]⟩

theorem updateReg_eq_of_not_mem {a : Nat} {f : Reg → Reg} {l : List (Nat × Reg)}
    (h : a ∉ l.map Prod.fst) : updateReg a f l = l := by
  induction l with
  | nil => rfl
  | cons e t ih =>
    obtain ⟨a₁, r₁⟩ := e
    simp only [List.map_cons, List.mem_cons] at h
    push_neg at h
    simp [updateReg, Ne.symm h.1, ih h.2]

theorem updateReg_decomp {a : Nat} {f : Reg → Reg} {r : Reg} {pre post : List (Nat × Reg)}
    (h : a ∉ pre.map Prod.fst) :
    updateReg a f (pre ++ (a, r) :: post) = pre ++ (a, f r) :: post := by
  induction pre with
  | nil => simp [updateReg]
  | cons e t ih =>
    obtain ⟨a₁, r₁⟩ := e
    simp only [List.map_cons, List.mem_cons] at h
    push_neg at h
    simp only [List.cons_append, updateReg, if_neg (Ne.symm h.1), List.append_eq]
    rw [ih h.2]

theorem splitIn_decomp {a ta : Nat} {pr tr r : Reg} {pre post : List (Nat × Reg)}
    (h : a ∉ pre.map Prod.fst) :
    splitIn a pr ta tr (pre ++ (a, r) :: post) = pre ++ (a, pr) :: (ta, tr) :: post := by
  induction pre with
  | nil => simp [splitIn]
  | cons e t ih =>
    obtain ⟨a₁, r₁⟩ := e
    simp only [List.map_cons, List.mem_cons] at h
    push_neg at h
    simp only [List.cons_append, splitIn, if_neg (Ne.symm h.1), List.append_eq]
    rw [ih h.2]

theorem absorbNextIn_decomp {a b : Nat} {r₁ r₂ : Reg} {pre post : List (Nat × Reg)}
    (h : a ∉ pre.map Prod.fst) :
    absorbNextIn a (pre ++ (a, r₁) :: (b, r₂) :: post) =
      pre ++ (a, { r₁ with totalSize := r₁.totalSize + r₂.totalSize }) :: post := by
  induction pre with
  | nil => simp [absorbNextIn]
  | cons e t ih =>
    obtain ⟨a₁, rr⟩ := e
    simp only [List.map_cons, List.mem_cons] at h
    push_neg at h
    have hmain := ih h.2
    cases hp : t ++ (a, r₁) :: (b, r₂) :: post with
    | nil => exact absurd hp (by simp)
    | cons e₂ t₂ =>
      rw [List.cons_append, hp, absorbNextIn.eq_def]
      simp only [if_neg (Ne.symm h.1)]
      rw [← hp, hmain, List.cons_append]

theorem prevEntry_eq_none {a : Nat} {l : List (Nat × Reg)} (h : a ∉ l.map Prod.fst) :
    prevEntry a l = none := by
  induction l with
  | nil => rfl
  | cons e t ih =>
    obtain ⟨a₁, r₁⟩ := e
    simp only [List.map_cons, List.mem_cons] at h
    push_neg at h
    cases t with
    | nil => rfl
    | cons e₂ t₂ =>
      obtain ⟨a₂, r₂⟩ := e₂
      have h2 : ¬(a₂ = a) := by
        intro hh
        exact h.2 (by simp [hh])
      rw [prevEntry, if_neg h2]
      exact ih h.2

theorem prevEntry_decomp {a : Nat} {r : Reg} {pre post : List (Nat × Reg)}
    (hpre : a ∉ pre.map Prod.fst) (hpost : a ∉ post.map Prod.fst) :
    prevEntry a (pre ++ (a, r) :: post) = pre.getLast? := by
  induction pre with
  | nil =>
    cases post with
    | nil => rfl
    | cons e₂ t₂ =>
      obtain ⟨a₂, r₂⟩ := e₂
      simp only [List.map_cons, List.mem_cons] at hpost
      push_neg at hpost
      simp only [List.nil_append]
      rw [prevEntry, if_neg (Ne.symm hpost.1)]
      rw [prevEntry_eq_none (l := (a₂, r₂) :: t₂) (by simp [hpost.1, hpost.2])]
      rfl
  | cons e t ih =>
    obtain ⟨a₁, r₁⟩ := e
    simp only [List.map_cons, List.mem_cons] at hpre
    push_neg at hpre
    cases t with
    | nil =>
      simp only [List.nil_append, List.singleton_append]
      rw [prevEntry, if_pos rfl]
      rfl
    | cons e₂ t₂ =>
      obtain ⟨a₂, r₂⟩ := e₂
      have h2 : ¬(a₂ = a) := by
        intro hh
        exact hpre.2 (by simp [hh])
      have hmain := ih hpre.2
      rw [List.cons_append, List.cons_append, prevEntry, if_neg h2, ← List.cons_append,
        hmain, List.getLast?_cons_cons]

theorem nextEntry_eq_none {a : Nat} {l : List (Nat × Reg)} (h : a ∉ l.map Prod.fst) :
    nextEntry a l = none := by
  induction l with
  | nil => rfl
  | cons e t ih =>
    obtain ⟨a₁, r₁⟩ := e
    simp only [List.map_cons, List.mem_cons] at h
    push_neg at h
    cases t with
    | nil => rfl
    | cons e₂ t₂ =>
      rw [nextEntry, if_neg (Ne.symm h.1)]
      exact ih h.2

theorem nextEntry_decomp {a : Nat} {r : Reg} {pre post : List (Nat × Reg)}
    (hpre : a ∉ pre.map Prod.fst) :
    nextEntry a (pre ++ (a, r) :: post) = post.head? := by
  induction pre with
  | nil =>
    cases post with
    | nil => rfl
    | cons e₂ t₂ =>
      simp only [List.nil_append]
      rw [nextEntry, if_pos rfl]
      rfl
  | cons e t ih =>
    obtain ⟨a₁, r₁⟩ := e
    simp only [List.map_cons, List.mem_cons] at hpre
    push_neg at hpre
    have hmain := ih hpre.2
    cases hp : t ++ (a, r) :: post with
    | nil => exact absurd hp (by simp)
    | cons e₂ t₂ =>
      rw [List.cons_append, hp, nextEntry, if_neg (Ne.symm hpre.1), ← hp, hmain]

/-! ### Facts about contiguity and addresses -/

theorem listEnd_append {a0 : Nat} {l₁ l₂ : List (Nat × Reg)} :
    listEnd a0 (l₁ ++ l₂) = listEnd (listEnd a0 l₁) l₂ := by
  induction l₁ generalizing a0 with
  | nil => rfl
  | cons e t ih =>
    obtain ⟨a, r⟩ := e
    simp only [List.cons_append, listEnd]
    exact ih

theorem listEnd_irrel {a0 b0 : Nat} {l : List (Nat × Reg)} (h : l ≠ []) :
    listEnd a0 l = listEnd b0 l := by
  cases l with
  | nil => exact absurd rfl h
  | cons e t => rfl

/-- Every region after the head of a contiguous list starts at or after the
head's end. -/
theorem contiguous_cons_le {a : Nat} {r : Reg} {t : List (Nat × Reg)}
    (h : contiguous ((a, r) :: t)) : ∀ e ∈ t, a + r.totalSize ≤ e.1 := by
  induction t generalizing a r with
  | nil => simp
  | cons e₂ t₂ ih =>
    obtain ⟨a₂, r₂⟩ := e₂
    rw [contiguous, List.chain'_cons] at h
    obtain ⟨h1, h2⟩ := h
    simp only at h1
    intro e he
    rcases List.mem_cons.mp he with rfl | he₂
    · simp only
      omega
    · have := ih h2 e he₂
      omega

/-- Every region before a distinguished entry of a contiguous list of
positive-size regions starts strictly below it. -/
theorem contiguous_pre_lt {b : Nat} {s : Reg} {pre q : List (Nat × Reg)}
    (h : contiguous (pre ++ (b, s) :: q))
    (hpos : ∀ e ∈ pre, 0 < e.2.totalSize) : ∀ e ∈ pre, e.1 < b := by
  induction pre with
  | nil => simp
  | cons e₀ t ih =>
    obtain ⟨a₀, r₀⟩ := e₀
    intro e he
    have htail : contiguous (t ++ (b, s) :: q) := List.Chain'.tail h
    have ihall : ∀ e ∈ t, e.1 < b := ih htail (fun x hx => hpos x (by simp [hx]))
    rcases List.mem_cons.mp he with rfl | het
    · have h0 : 0 < r₀.totalSize := hpos (a₀, r₀) (by simp)
      have hcle : ∀ e ∈ t ++ (b, s) :: q, a₀ + r₀.totalSize ≤ e.1 :=
        contiguous_cons_le (t := t ++ (b, s) :: q) h
      have hb : a₀ + r₀.totalSize ≤ b := hcle (b, s) (by simp)
      simp only
      omega
    · exact ihall e het

/-- The end of a contiguous region list lies at or after the end of its
head region. -/
theorem contiguous_le_listEnd {x a : Nat} {r : Reg} {t : List (Nat × Reg)}
    (h : contiguous ((a, r) :: t)) : a + r.totalSize ≤ listEnd x ((a, r) :: t) := by
  induction t generalizing x a r with
  | nil => simp [listEnd]
  | cons e₂ t₂ ih =>
    obtain ⟨a₂, r₂⟩ := e₂
    rw [contiguous, List.chain'_cons] at h
    obtain ⟨h1, h2⟩ := h
    simp only at h1
    have hrec := ih (x := a + r.totalSize) h2
    show a + r.totalSize ≤ listEnd (a + r.totalSize) ((a₂, r₂) :: t₂)
    omega

/-- The addresses of a contiguous list of positive-size regions are
strictly increasing, hence duplicate-free. -/
theorem contiguous_nodup {l : List (Nat × Reg)} (h : contiguous l)
    (hpos : ∀ e ∈ l, 0 < e.2.totalSize) : (l.map Prod.fst).Nodup := by
  induction l with
  | nil => simp
  | cons e t ih =>
    obtain ⟨a, r⟩ := e
    simp only [List.map_cons, List.nodup_cons]
    refine ⟨?_, ih (List.Chain'.tail h) (fun x hx => hpos x (by simp [hx]))⟩
    intro hmem
    obtain ⟨e', he', heq⟩ := List.mem_map.mp hmem
    have hle := contiguous_cons_le h e' he'
    have hp : 0 < r.totalSize := hpos (a, r) (by simp)
    omega

/-- All regions of a contiguous, 16-multiple-size list with aligned head
are 16-aligned. -/
theorem contiguous_aligned {l : List (Nat × Reg)} (h : contiguous l)
    (hhead : ∀ e ∈ l.head?, e.1 % ALIGNMENT = 0)
    (hsz : ∀ e ∈ l, e.2.totalSize % ALIGNMENT = 0) :
    ∀ e ∈ l, e.1 % ALIGNMENT = 0 := by
  induction l with
  | nil => simp
  | cons e₀ t ih =>
    obtain ⟨a₀, r₀⟩ := e₀
    have h0 : a₀ % ALIGNMENT = 0 := hhead (a₀, r₀) (by simp)
    intro e he
    rcases List.mem_cons.mp he with rfl | het
    · exact h0
    · refine ih (List.Chain'.tail h) ?_ (fun x hx => hsz x (by simp [hx])) e het
      intro e₂ he₂
      cases t with
      | nil => simp at he₂
      | cons e₃ t₃ =>
        obtain ⟨a₃, r₃⟩ := e₃
        simp only [List.head?_cons, Option.mem_def, Option.some.injEq] at he₂
        subst he₂
        rw [contiguous, List.chain'_cons] at h
        have h1 := h.1
        have h2 : r₀.totalSize % ALIGNMENT = 0 := hsz (a₀, r₀) (by simp)
        simp only at h1
        simp only [ALIGNMENT] at h0 h2 ⊢
        omega

/-! ### Facts about the free-list accessors -/

theorem flGet_set_self {h : Heap} {i : Nat} {x : List Nat}
    (hlen : i < h.freeLists.length) :
    flGet { h with freeLists := h.freeLists.set i x } i = x := by
  simp [flGet, List.getD_eq_getElem?_getD, List.getElem?_set_self hlen]

theorem flGet_set_ne {h : Heap} {i j : Nat} {x : List Nat} (hne : i ≠ j) :
    flGet { h with freeLists := h.freeLists.set i x } j = flGet h j := by
  simp [flGet, List.getD_eq_getElem?_getD, List.getElem?_set_ne hne]

theorem flGet_irrel {h : Heap} {regs : List (Nat × Reg)} {i : Nat} :
    flGet { h with regions := regs } i = flGet h i := rfl

/-! ### Component lemmas for the free-list operations -/

theorem removeFromFreeList_regions {h : Heap} {a : Nat} :
    (removeFromFreeList h a).regions = h.regions := by
  rw [removeFromFreeList]
  cases h.find a <;> rfl

theorem removeFromFreeList_brk {h : Heap} {a : Nat} :
    (removeFromFreeList h a).brk = h.brk := by
  rw [removeFromFreeList]
  cases h.find a <;> rfl

theorem removeFromFreeList_flLen {h : Heap} {a : Nat} :
    (removeFromFreeList h a).freeLists.length = h.freeLists.length := by
  rw [removeFromFreeList]
  cases h.find a <;> simp

theorem addToFreeList_regions {h : Heap} {a : Nat} :
    (addToFreeList h a).regions = h.regions := by
  rw [addToFreeList]
  cases h.find a <;> rfl

theorem addToFreeList_brk {h : Heap} {a : Nat} :
    (addToFreeList h a).brk = h.brk := by
  rw [addToFreeList]
  cases h.find a <;> rfl

theorem addToFreeList_flLen {h : Heap} {a : Nat} :
    (addToFreeList h a).freeLists.length = h.freeLists.length := by
  rw [addToFreeList]
  cases h.find a <;> simp

/-- Effect of `removeFromFreeList` on slot contents when the region is
found: its class slot loses (one occurrence of) `a`, others are untouched. -/
theorem removeFromFreeList_flGet {h : Heap} {a : Nat} {r : Reg}
    (hf : h.find a = some r) (j : Nat) :
    flGet (removeFromFreeList h a) j =
      if getFreeListIndex (getMaxPayload r) = j then (flGet h j).erase a else flGet h j := by
  rw [removeFromFreeList, hf]
  rcases eq_or_ne (getFreeListIndex (getMaxPayload r)) j with heq | hne
  · rw [if_pos heq, ← heq]
    rcases Nat.lt_or_ge (getFreeListIndex (getMaxPayload r)) h.freeLists.length with hl | hl
    · exact flGet_set_self hl
    · have h1 : h.freeLists.set (getFreeListIndex (getMaxPayload r))
          ((h.freeLists.getD (getFreeListIndex (getMaxPayload r)) []).erase a) = h.freeLists :=
        List.set_eq_of_length_le hl
      have h2 : flGet h (getFreeListIndex (getMaxPayload r)) = [] := by
        simp [flGet, List.getD_eq_getElem?_getD, List.getElem?_eq_none hl]
      show (h.freeLists.set (getFreeListIndex (getMaxPayload r))
          ((h.freeLists.getD (getFreeListIndex (getMaxPayload r)) []).erase a)).getD
          (getFreeListIndex (getMaxPayload r)) [] = _
      rw [h1]
      show flGet h (getFreeListIndex (getMaxPayload r)) = _
      rw [h2]
      rfl
  · rw [if_neg hne]
    exact flGet_set_ne hne

/-- Effect of `addToFreeList` on slot contents when the region is found and
its class index is within the array. -/
theorem addToFreeList_flGet {h : Heap} {a : Nat} {r : Reg}
    (hf : h.find a = some r)
    (hlen : getFreeListIndex (getMaxPayload r) < h.freeLists.length) (j : Nat) :
    flGet (addToFreeList h a) j =
      if getFreeListIndex (getMaxPayload r) = j then a :: flGet h j else flGet h j := by
  rw [addToFreeList, hf]
  rcases eq_or_ne (getFreeListIndex (getMaxPayload r)) j with heq | hne
  · rw [if_pos heq, ← heq]
    exact flGet_set_self hlen
  · rw [if_neg hne]
    exact flGet_set_ne hne

/-! ### Arithmetic facts about alignUp and subWrap -/

theorem le_alignUp (x : Nat) : x ≤ alignUp x := by
  rw [alignUp, ALIGNMENT]
  omega

theorem alignUp_lt (x : Nat) : alignUp x < x + ALIGNMENT := by
  rw [alignUp, ALIGNMENT]
  omega

theorem alignUp_mod (x : Nat) : alignUp x % ALIGNMENT = 0 := by
  rw [alignUp, ALIGNMENT]
  omega

theorem alignUp_eq_self {x : Nat} (h : x % ALIGNMENT = 0) : alignUp x = x := by
  rw [alignUp, ALIGNMENT] at *
  omega

theorem alignUp_add_left {a x : Nat} (h : a % ALIGNMENT = 0) :
    alignUp (a + x) = a + alignUp x := by
  rw [alignUp, alignUp, ALIGNMENT] at *
  omega

theorem alignUp_le {x y : Nat} (hxy : x ≤ y) (hy : y % ALIGNMENT = 0) :
    alignUp x ≤ y := by
  rw [alignUp, ALIGNMENT] at *
  omega

theorem alignUp_pos {x : Nat} (h : 0 < x) : ALIGNMENT ≤ alignUp x := by
  rw [alignUp, ALIGNMENT] at *
  omega

theorem subWrap_of_le {a b : Nat} (h : b ≤ a) : subWrap a b = a - b := if_pos h

theorem subWrap_of_gt {a b : Nat} (h : a < b) : subWrap a b = a + ADDRESS_SPACE - b := by
  rw [subWrap, if_neg (by omega)]

/-- The free-list index of any payload below `2^32` is a legal array index
(the upper half of the bound asserted by `getFreeListIndex`). -/
theorem getFreeListIndex_lt_max {p : Nat} (h : p < ADDRESS_SPACE) :
    getFreeListIndex p < MAX_FREELIST_INDEX := by
  rcases Nat.lt_or_ge p ALLOC_UNIT with hs | hs
  · rw [getFreeListIndex_small hs]
    decide
  · rw [MAX_FREELIST_INDEX, getFreeListIndex_le_iff hs]
    simpa [ADDRESS_SPACE] using h

/-! ### findReg across appends -/

theorem findReg_append {b : Nat} {l₁ l₂ : List (Nat × Reg)} :
    findReg b (l₁ ++ l₂) =
      match findReg b l₁ with
      | some r => some r
      | none => findReg b l₂ := by
  induction l₁ with
  | nil => simp [findReg]
  | cons e t ih =>
    obtain ⟨a₁, r₁⟩ := e
    rcases eq_or_ne a₁ b with rfl | hne
    · simp [findReg]
    · simp only [List.cons_append, findReg, if_neg hne, List.append_eq, ih]

theorem findReg_cons_ne {b a : Nat} {x : Reg} {t : List (Nat × Reg)} (h : a ≠ b) :
    findReg b ((a, x) :: t) = findReg b t := by
  simp [findReg, h]

/-- Replacing the region record stored at `a` does not affect other
lookups. -/
theorem findReg_middle_ne {b a : Nat} {x y : Reg} {pre post : List (Nat × Reg)}
    (h : b ≠ a) :
    findReg b (pre ++ (a, x) :: post) = findReg b (pre ++ (a, y) :: post) := by
  rw [findReg_append, findReg_append, findReg_cons_ne (Ne.symm h), findReg_cons_ne (Ne.symm h)]

/-- Dropping the entry at `n` does not affect other lookups. -/
theorem findReg_drop_ne {b n : Nat} {x : Reg} {pre post : List (Nat × Reg)}
    (h : b ≠ n) :
    findReg b (pre ++ (n, x) :: post) = findReg b (pre ++ post) := by
  rw [findReg_append, findReg_append, findReg_cons_ne (Ne.symm h)]

/-! ### Consequences of the invariant -/

theorem WF.sizesPos {h : Heap} (w : WF h) : ∀ e ∈ h.regions, 0 < e.2.totalSize := by
  intro e he
  have := (w.sizes e he).1
  simp only [MIN_REGION_SIZE, METADATA_SIZE, ALLOC_UNIT, ALIGNMENT] at this
  omega

theorem WF.addrNodup {h : Heap} (w : WF h) : (h.regions.map Prod.fst).Nodup :=
  contiguous_nodup w.contig w.sizesPos

/-- Lookups agree with membership in a well-formed heap. -/
theorem WF.findReg_of_mem {h : Heap} (w : WF h) {a : Nat} {r : Reg}
    (hmem : (a, r) ∈ h.regions) : h.find a = some r := by
  obtain ⟨pre, post, hdec⟩ := List.append_of_mem hmem
  have hnodup := w.addrNodup
  rw [hdec] at hnodup
  simp only [List.map_append, List.map_cons, List.nodup_append] at hnodup
  show findReg a h.regions = some r
  rw [hdec]
  refine findReg_decomp ?_
  intro hin
  exact hnodup.2.2 hin (by simp)

/-- The members of the free lists are exactly the free regions, at their
class index. -/
theorem WF.member_spec {h : Heap} (w : WF h) {i a : Nat}
    (hi : i < MAX_FREELIST_INDEX) (hmem : a ∈ flGet h i) :
    ∃ r, h.find a = some r ∧ r.usedPayload = 0 ∧ getFreeListIndex (getMaxPayload r) = i := by
  have hs := w.sound i hi a hmem
  rw [freeSlotB] at hs
  cases hf : findReg a h.regions with
  | none => rw [hf] at hs; simp at hs
  | some r =>
    rw [hf] at hs
    simp only [Bool.and_eq_true, beq_iff_eq] at hs
    exact ⟨r, hf, hs.1, hs.2⟩

/-- A used region is on no free list. -/
theorem WF.used_not_member {h : Heap} (w : WF h) {a : Nat} {r : Reg}
    (hf : h.find a = some r) (hu : r.usedPayload ≠ 0) :
    ∀ i < MAX_FREELIST_INDEX, a ∉ flGet h i := by
  intro i hi hmem
  obtain ⟨r', hf', hu', _⟩ := w.member_spec hi hmem
  rw [hf] at hf'
  cases hf'
  exact hu hu'

/-- A region sits on at most one free list: its class list. -/
theorem WF.member_unique {h : Heap} (w : WF h) {i a : Nat}
    (hi : i < MAX_FREELIST_INDEX) (hmem : a ∈ flGet h i) {r : Reg}
    (hf : h.find a = some r) : getFreeListIndex (getMaxPayload r) = i := by
  obtain ⟨r', hf', _, hidx⟩ := w.member_spec hi hmem
  rw [hf] at hf'
  cases hf'
  exact hidx

/-- Every region of a well-formed heap ends at or below the break. -/
theorem WF.region_le_brk {h : Heap} (w : WF h) {a : Nat} {r : Reg}
    (hf : h.find a = some r) : a + r.totalSize ≤ h.brk := by
  obtain ⟨pre, post, hdec, _⟩ := findReg_split hf
  have hne : h.regions ≠ [] := by
    rw [hdec]
    simp
  have hend := w.endOK hne
  rw [hdec, listEnd_append] at hend
  have hsuffix : contiguous ((a, r) :: post) := by
    have := w.contig
    rw [hdec, contiguous, List.chain'_append] at this
    exact this.2.1
  calc a + r.totalSize ≤ listEnd (listEnd 0 pre) ((a, r) :: post) :=
        contiguous_le_listEnd hsuffix
    _ = h.brk := hend

/-- The class index of every region of a well-formed heap is a legal
free-list index. -/
theorem WF.idx_lt {h : Heap} (w : WF h) {a : Nat} {r : Reg}
    (hf : h.find a = some r) :
    getFreeListIndex (getMaxPayload r) < MAX_FREELIST_INDEX := by
  have h1 : a + r.totalSize ≤ h.brk := w.region_le_brk hf
  have h2 : h.brk ≤ ADDRESS_SPACE := by
    refine w.brkOK ?_
    intro hnil
    rw [show h.find a = findReg a h.regions from rfl, hnil] at hf
    simp [findReg] at hf
  refine getFreeListIndex_lt_max ?_
  have h3 : 0 < r.totalSize := w.sizesPos (a, r) (findReg_mem hf)
  simp only [getMaxPayload, METADATA_SIZE, ALLOC_UNIT, ALIGNMENT, ADDRESS_SPACE] at h2 ⊢
  omega

/-! ### Structure lemmas for the region-list surgeries -/

theorem listEnd_middle_ge {c : Nat} {d : Reg} {pre post : List (Nat × Reg)}
    (h : contiguous (pre ++ (c, d) :: post)) :
    c + d.totalSize ≤ listEnd 0 (pre ++ (c, d) :: post) := by
  rw [listEnd_append]
  refine contiguous_le_listEnd ?_
  rw [contiguous, List.chain'_append] at h
  exact h.2.1

/-- Contiguity only depends on addresses and total sizes. -/
theorem contiguous_middle_congr {a : Nat} {r r' : Reg} {pre post : List (Nat × Reg)}
    (ht : r'.totalSize = r.totalSize)
    (h : contiguous (pre ++ (a, r) :: post)) :
    contiguous (pre ++ (a, r') :: post) := by
  rw [contiguous, List.chain'_append] at h ⊢
  refine ⟨h.1, ?_, ?_⟩
  · have h2 := h.2.1
    rw [List.chain'_cons'] at h2 ⊢
    refine ⟨?_, h2.2⟩
    intro y hy
    have := h2.1 y hy
    simp only at this ⊢
    omega
  · intro x hx y hy
    simp only [List.head?_cons, Option.mem_def, Option.some.injEq] at hy
    subst hy
    have hb := h.2.2 x hx (a, r) (by simp)
    simpa using hb

theorem listEnd_middle_congr {x a : Nat} {r r' : Reg} {pre post : List (Nat × Reg)}
    (ht : r'.totalSize = r.totalSize) :
    listEnd x (pre ++ (a, r') :: post) = listEnd x (pre ++ (a, r) :: post) := by
  rw [listEnd_append, listEnd_append, listEnd, listEnd, ht]

theorem head_middle_congr {a : Nat} {r r' : Reg} {pre post : List (Nat × Reg)}
    (h : ∀ e ∈ (pre ++ (a, r) :: post).head?, e.1 % ALIGNMENT = 0) :
    ∀ e ∈ (pre ++ (a, r') :: post).head?, e.1 % ALIGNMENT = 0 := by
  cases pre with
  | nil =>
    intro e he
    simp only [List.nil_append, List.head?_cons, Option.mem_def, Option.some.injEq] at he
    subst he
    exact h (a, r) (by simp)
  | cons e₀ t => simpa using h

/-- Absorbing the successor preserves contiguity. -/
theorem contiguous_absorb {a n : Nat} {x y : Reg} {pre post : List (Nat × Reg)}
    (h : contiguous (pre ++ (a, x) :: (n, y) :: post)) :
    contiguous (pre ++ (a, { x with totalSize := x.totalSize + y.totalSize }) :: post) := by
  rw [contiguous, List.chain'_append] at h ⊢
  have hmid := h.2.1
  rw [List.chain'_cons] at hmid
  have hn : n = a + x.totalSize := hmid.1
  refine ⟨h.1, ?_, ?_⟩
  · rw [List.chain'_cons'] at hmid ⊢
    refine ⟨?_, hmid.2.2⟩
    intro y₂ hy₂
    have := hmid.2.1 y₂ hy₂
    simp only at this ⊢
    omega
  · intro e₁ he₁ e₂ he₂
    simp only [List.head?_cons, Option.mem_def, Option.some.injEq] at he₂
    subst he₂
    have hb := h.2.2 e₁ he₁ (a, x) (by simp)
    simpa using hb

theorem listEnd_absorb {w a n : Nat} {x y : Reg} {pre q : List (Nat × Reg)}
    (hn : n = a + x.totalSize) :
    listEnd w (pre ++ (a, { x with totalSize := x.totalSize + y.totalSize }) :: q) =
      listEnd w (pre ++ (a, x) :: (n, y) :: q) := by
  simp only [listEnd_append, listEnd]
  rw [hn]
  congr 1
  omega

theorem head_absorb_congr {a : Nat} {x z : Reg} {pre q post' : List (Nat × Reg)}
    (h : ∀ e ∈ (pre ++ (a, x) :: q).head?, e.1 % ALIGNMENT = 0) :
    ∀ e ∈ (pre ++ (a, z) :: post').head?, e.1 % ALIGNMENT = 0 := by
  cases pre with
  | nil =>
    intro e he
    simp only [List.nil_append, List.head?_cons, Option.mem_def, Option.some.injEq] at he
    subst he
    exact h (a, x) (by simp)
  | cons e₀ t => simpa using h

/-- Splitting an entry in two preserves contiguity. -/
theorem contiguous_split {a ta : Nat} {r pr tr : Reg} {pre post : List (Nat × Reg)}
    (hta : ta = a + pr.totalSize)
    (hsum : pr.totalSize + tr.totalSize = r.totalSize)
    (h : contiguous (pre ++ (a, r) :: post)) :
    contiguous (pre ++ (a, pr) :: (ta, tr) :: post) := by
  rw [contiguous, List.chain'_append] at h ⊢
  refine ⟨h.1, ?_, ?_⟩
  · have h2 := h.2.1
    rw [List.chain'_cons'] at h2
    rw [List.chain'_cons]
    refine ⟨by simp [hta], ?_⟩
    rw [List.chain'_cons']
    refine ⟨?_, h2.2⟩
    intro y hy
    have := h2.1 y hy
    simp only at this ⊢
    omega
  · intro e₁ he₁ e₂ he₂
    simp only [List.head?_cons, Option.mem_def, Option.some.injEq] at he₂
    subst he₂
    have hb := h.2.2 e₁ he₁ (a, r) (by simp)
    simpa using hb

theorem listEnd_split {w a ta : Nat} {r pr tr : Reg} {pre post : List (Nat × Reg)}
    (hta : ta = a + pr.totalSize)
    (hsum : pr.totalSize + tr.totalSize = r.totalSize) :
    listEnd w (pre ++ (a, pr) :: (ta, tr) :: post) =
      listEnd w (pre ++ (a, r) :: post) := by
  simp only [listEnd_append, listEnd]
  rw [hta]
  congr 1
  omega

/-! ### The master insertion lemma

Each branch of `stopUsing` ends by inserting one free region (the region
itself, or the neighbour that absorbed it) into its class list via
`addToFreeList`, in a heap whose region list is otherwise well formed and
whose free lists do not mention the inserted region.  This lemma closes all
those branches. -/

theorem addToFreeList_WF {g : Heap} {c : Nat} {rc : Reg} {u v : List (Nat × Reg)}
    (hdec : g.regions = u ++ (c, rc) :: v)
    (hrcU : rc.usedPayload = 0)
    (hflLen : g.freeLists.length = MAX_FREELIST_INDEX)
    (hcontig : contiguous g.regions)
    (hhead : ∀ e ∈ g.regions.head?, e.1 % ALIGNMENT = 0)
    (hend : listEnd 0 g.regions = g.brk)
    (hbrk : g.brk ≤ ADDRESS_SPACE)
    (hsizes : ∀ e ∈ g.regions, sizeOK e.2)
    (hpreAdj : noAdjFree u)
    (hpostAdj : noAdjFree v)
    (hprevU : ∀ e ∈ u.getLast?, e.2.usedPayload ≠ 0)
    (hnextU : ∀ e ∈ v.head?, e.2.usedPayload ≠ 0)
    (hnotin : ∀ i < MAX_FREELIST_INDEX, c ∉ flGet g i)
    (hsound : flSound g)
    (hnodup : flNodup g)
    : WF (addToFreeList g c) := by
  have hpos : ∀ e ∈ g.regions, 0 < e.2.totalSize := by
    intro e he
    have := (hsizes e he).1
    simp only [MIN_REGION_SIZE, METADATA_SIZE, ALLOC_UNIT, ALIGNMENT] at this
    omega
  have hnd : (g.regions.map Prod.fst).Nodup := contiguous_nodup hcontig hpos
  have hcpre : c ∉ u.map Prod.fst := by
    rw [hdec] at hnd
    simp only [List.map_append, List.map_cons, List.nodup_append] at hnd
    intro hin
    exact hnd.2.2 hin (by simp)
  have hfind : g.find c = some rc := by
    show findReg c g.regions = some rc
    rw [hdec]
    exact findReg_decomp hcpre
  have hle : c + rc.totalSize ≤ g.brk := by
    rw [← hend, hdec]
    exact listEnd_middle_ge (hdec ▸ hcontig)
  have hposc : 0 < rc.totalSize := hpos (c, rc) (by rw [hdec]; simp)
  have hidx : getFreeListIndex (getMaxPayload rc) < MAX_FREELIST_INDEX := by
    refine getFreeListIndex_lt_max ?_
    simp only [getMaxPayload, METADATA_SIZE, ALLOC_UNIT, ALIGNMENT, ADDRESS_SPACE] at *
    omega
  have hfl : ∀ j, flGet (addToFreeList g c) j =
      if getFreeListIndex (getMaxPayload rc) = j then c :: flGet g j else flGet g j :=
    addToFreeList_flGet hfind (by rw [hflLen]; exact hidx)
  have hregs : (addToFreeList g c).regions = g.regions := addToFreeList_regions
  have hbrk2 : (addToFreeList g c).brk = g.brk := addToFreeList_brk
  refine ⟨?_, ?_, ?_, ?_, ?_, ?_, ?_, ?_, ?_⟩
  · rw [addToFreeList_flLen, hflLen]
  · rw [hregs]
    exact hcontig
  · rw [hregs]
    exact hhead
  · rw [hregs, hbrk2]
    intro hne
    exact hend
  · rw [hregs, hbrk2]
    intro hne
    exact hbrk
  · rw [hregs]
    exact hsizes
  · rw [hregs, hdec, noAdjFree, List.chain'_append]
    refine ⟨hpreAdj, ?_, ?_⟩
    · rw [List.chain'_cons']
      refine ⟨?_, hpostAdj⟩
      intro y hy hcon
      exact hnextU y hy hcon.2
    · intro x hx y hy
      simp only [List.head?_cons, Option.mem_def, Option.some.injEq] at hy
      subst hy
      intro hcon
      exact hprevU x hx hcon.1
  · intro i hi b hb
    rw [hfl] at hb
    rw [show (addToFreeList g c).regions = g.regions from hregs]
    rcases eq_or_ne (getFreeListIndex (getMaxPayload rc)) i with heq | hne
    · rw [if_pos heq] at hb
      rcases List.mem_cons.mp hb with rfl | hb'
      · rw [freeSlotB, show findReg b g.regions = some rc from hfind]
        simp [hrcU, heq]
      · exact hsound i hi b hb'
    · rw [if_neg hne] at hb
      exact hsound i hi b hb
  · intro i hi
    rw [hfl]
    rcases eq_or_ne (getFreeListIndex (getMaxPayload rc)) i with heq | hne
    · rw [if_pos heq]
      exact List.Nodup.cons (heq ▸ hnotin i hi) (hnodup i hi)
    · rw [if_neg hne]
      exact hnodup i hi


/-! ### Heap equalities that preserve the invariant -/

/-- The invariant only looks at the region list, the free lists and the
break, so heaps agreeing there are equally well formed. -/
theorem WF_congr {h h₂ : Heap} (hr : h₂.regions = h.regions)
    (hf : h₂.freeLists = h.freeLists) (hb : h₂.brk = h.brk) (hw : WF h) : WF h₂ := by
  have hfl : ∀ i, flGet h₂ i = flGet h i := by
    intro i
    simp [flGet, hf]
  refine ⟨?_, ?_, ?_, ?_, ?_, ?_, ?_, ?_, ?_⟩
  · rw [hf]
    exact hw.flLen
  · rw [hr]
    exact hw.contig
  · rw [hr]
    exact hw.headAligned
  · rw [hr, hb]
    exact hw.endOK
  · rw [hr, hb]
    exact hw.brkOK
  · rw [hr]
    exact hw.sizes
  · rw [hr]
    exact hw.noAdj
  · intro i hi b hb2
    rw [hfl] at hb2
    rw [hr]
    exact hw.sound i hi b hb2
  · intro i hi
    rw [hfl]
    exact hw.nodup i hi

/-- Unlinking a node never breaks the invariant. -/
theorem removeFromFreeList_WF {h : Heap} {a : Nat} (hw : WF h) :
    WF (removeFromFreeList h a) := by
  cases hfind : h.find a with
  | none =>
    have he : removeFromFreeList h a = h := by
      rw [removeFromFreeList, hfind]
    rw [he]
    exact hw
  | some r =>
    have hfl : ∀ j, flGet (removeFromFreeList h a) j =
        if getFreeListIndex (getMaxPayload r) = j then (flGet h j).erase a else flGet h j :=
      removeFromFreeList_flGet hfind
    refine ⟨?_, ?_, ?_, ?_, ?_, ?_, ?_, ?_, ?_⟩
    · rw [removeFromFreeList_flLen]
      exact hw.flLen
    · rw [removeFromFreeList_regions]
      exact hw.contig
    · rw [removeFromFreeList_regions]
      exact hw.headAligned
    · rw [removeFromFreeList_regions, removeFromFreeList_brk]
      exact hw.endOK
    · rw [removeFromFreeList_regions, removeFromFreeList_brk]
      exact hw.brkOK
    · rw [removeFromFreeList_regions]
      exact hw.sizes
    · rw [removeFromFreeList_regions]
      exact hw.noAdj
    · intro i hi b hb2
      rw [hfl] at hb2
      have hb3 : b ∈ flGet h i := by
        rcases eq_or_ne (getFreeListIndex (getMaxPayload r)) i with heq | hne
        · rw [if_pos heq] at hb2
          exact List.mem_of_mem_erase hb2
        · rw [if_neg hne] at hb2
          exact hb2
      have hs := hw.sound i hi b hb3
      rw [freeSlotB] at hs ⊢
      rw [removeFromFreeList_regions]
      exact hs
    · intro i hi
      rw [hfl]
      rcases eq_or_ne (getFreeListIndex (getMaxPayload r)) i with heq | hne
      · rw [if_pos heq]
        exact (hw.nodup i hi).erase a
      · rw [if_neg hne]
        exact hw.nodup i hi

/-! ### More arithmetic about `alignUp` -/

theorem alignUp_le_add {x : Nat} : alignUp x ≤ x + (ALIGNMENT - 1) := by
  simp only [alignUp, ALIGNMENT]
  omega

theorem alignUp_of_aligned {x : Nat} (hx : x % ALIGNMENT = 0) : alignUp x = x := by
  simp only [alignUp, ALIGNMENT] at hx ⊢
  omega

/-! ### Small structural helpers -/

/-- Making the middle region used can only improve the no-adjacent-frees
invariant. -/
theorem noAdjFree_middle_used {a : Nat} {r r₂ : Reg} {pre post : List (Nat × Reg)}
    (hu : r₂.usedPayload ≠ 0) (h : noAdjFree (pre ++ (a, r) :: post)) :
    noAdjFree (pre ++ (a, r₂) :: post) := by
  rw [noAdjFree, List.chain'_append] at h ⊢
  refine ⟨h.1, ?_, ?_⟩
  · have h2 := h.2.1
    rw [List.chain'_cons'] at h2 ⊢
    refine ⟨?_, h2.2⟩
    intro y hy hcon
    exact hu hcon.1
  · intro x hx y hy
    simp only [List.head?_cons, Option.mem_def, Option.some.injEq] at hy
    subst hy
    intro hcon
    exact hu hcon.2

/-- Interior points of a region are not base addresses. -/
theorem fresh_not_base {a x : Nat} {r : Reg} {pre post : List (Nat × Reg)}
    (hcontig : contiguous (pre ++ (a, r) :: post))
    (hpos : ∀ e ∈ pre ++ (a, r) :: post, 0 < e.2.totalSize)
    (hlt : a < x) (hub : x < a + r.totalSize) :
    x ∉ (pre ++ (a, r) :: post).map Prod.fst := by
  intro hmem
  simp only [List.map_append, List.map_cons, List.mem_append, List.mem_cons] at hmem
  rcases hmem with hp | hx | hp
  · obtain ⟨e, he, heq⟩ := List.mem_map.mp hp
    have := contiguous_pre_lt hcontig
      (fun e₂ he₂ => hpos e₂ (List.mem_append_left _ he₂)) e he
    omega
  · omega
  · obtain ⟨e, he, heq⟩ := List.mem_map.mp hp
    have hch : contiguous ((a, r) :: post) := (List.chain'_append.mp hcontig).2.1
    have := contiguous_cons_le hch e he
    omega

/-- An address that is not a region base is on no free list. -/
theorem WF.not_base_not_member {h : Heap} (w : WF h) {x : Nat}
    (hnb : findReg x h.regions = none) :
    ∀ i, i < MAX_FREELIST_INDEX → x ∉ flGet h i := by
  intro i hi hmem
  obtain ⟨r, hf, _, _⟩ := w.member_spec hi hmem
  rw [show h.find x = findReg x h.regions from rfl, hnb] at hf
  cases hf

end Emmalloc

namespace Emmalloc

/-- Branch-free helper: lookups in an unrelated prefix agree. -/
theorem findReg_congr_suffix {b : Nat} {pre l₁ l₂ : List (Nat × Reg)}
    (h : findReg b l₁ = findReg b l₂) :
    findReg b (pre ++ l₁) = findReg b (pre ++ l₂) := by
  rw [findReg_append, findReg_append]
  cases findReg b pre <;> simp [h]

theorem noAdjFree_concat_last {pre' : List (Nat × Reg)} {p : Nat} {pr : Reg}
    (h : noAdjFree (pre' ++ [(p, pr)])) (hfree : pr.usedPayload = 0) :
    ∀ e ∈ pre'.getLast?, e.2.usedPayload ≠ 0 := by
  rw [noAdjFree, List.chain'_append] at h
  intro e he hu
  exact h.2.2 e he (p, pr) (by simp) ⟨hu, hfree⟩

theorem noAdjFree_concat_left {pre' : List (Nat × Reg)} {e : Nat × Reg}
    (h : noAdjFree (pre' ++ [e])) : noAdjFree pre' := by
  rw [noAdjFree, List.chain'_append] at h
  exact h.1

theorem noAdjFree_cons_head {n : Nat} {nr : Reg} {post' : List (Nat × Reg)}
    (h : noAdjFree ((n, nr) :: post')) (hfree : nr.usedPayload = 0) :
    ∀ e ∈ post'.head?, e.2.usedPayload ≠ 0 := by
  rw [noAdjFree, List.chain'_cons'] at h
  intro e he hu
  exact h.1 e he ⟨hfree, hu⟩

/-- A region is on no free list other than the one for its class. -/
theorem not_mem_flGet_ne_class {h : Heap} (hsound : flSound h) {q : Nat} {qr : Reg}
    (hfq : findReg q h.regions = some qr) :
    ∀ i < MAX_FREELIST_INDEX, getFreeListIndex (getMaxPayload qr) ≠ i → q ∉ flGet h i := by
  intro i hi hne hq
  have := hsound i hi q hq
  rw [freeSlotB, hfq] at this
  simp only [Bool.and_eq_true, beq_iff_eq] at this
  exact hne this.2

theorem stopUsing_WF {h : Heap} {a : Nat} {r : Reg} {u v : List (Nat × Reg)}
    (hdec : h.regions = u ++ (a, r) :: v)
    (hflLen : h.freeLists.length = MAX_FREELIST_INDEX)
    (hcontig : contiguous h.regions)
    (hhead : ∀ e ∈ h.regions.head?, e.1 % ALIGNMENT = 0)
    (hend : listEnd 0 h.regions = h.brk)
    (hbrk : h.brk ≤ ADDRESS_SPACE)
    (hsizes : ∀ e ∈ h.regions, sizeOK e.2)
    (hpreAdj : noAdjFree u)
    (hpostAdj : noAdjFree v)
    (hnotin : ∀ i < MAX_FREELIST_INDEX, a ∉ flGet h i)
    (hsound : flSound h)
    (hnodup : flNodup h)
    : WF (stopUsing h a) := by
  -- shared bookkeeping
  have hpos : ∀ e ∈ h.regions, 0 < e.2.totalSize := by
    intro e he
    have := (hsizes e he).1
    simp only [MIN_REGION_SIZE, METADATA_SIZE, ALLOC_UNIT, ALIGNMENT] at this
    omega
  have hnd : (h.regions.map Prod.fst).Nodup := contiguous_nodup hcontig hpos
  rw [hdec] at hnd
  simp only [List.map_append, List.map_cons, List.nodup_append, List.nodup_cons] at hnd
  obtain ⟨hndpre, ⟨hapost, hndpost⟩, hdisj⟩ := hnd
  have hapre : a ∉ u.map Prod.fst := fun hin => hdisj hin (by simp)
  have hrmem : (a, r) ∈ h.regions := by
    rw [hdec]
    simp
  have hszr := hsizes (a, r) hrmem
  have hcontig' : contiguous (u ++ (a, r) :: v) := hdec ▸ hcontig
  have hhead' : ∀ e ∈ (u ++ (a, r) :: v).head?, e.1 % ALIGNMENT = 0 := hdec ▸ hhead
  have hend' : listEnd 0 (u ++ (a, r) :: v) = h.brk := hdec ▸ hend
  have hsizes' : ∀ e ∈ u ++ (a, r) :: v, sizeOK e.2 := hdec ▸ hsizes
  -- the heap after `region->setUsedPayload(0)`
  have hr0dec : updateReg a (fun r => { r with usedPayload := 0 }) h.regions
      = u ++ (a, { r with usedPayload := 0 }) :: v := by
    rw [hdec]
    exact updateReg_decomp hapre
  have hstop : stopUsing h a =
      (match mergeIntoExistingFreeRegion
          { h with regions := u ++ (a, { r with usedPayload := 0 }) :: v } a with
        | (h₁, true) => h₁
        | (h₁, false) => addToFreeList h₁ a) := by
    simp only [stopUsing, hr0dec]
  have hG0fl : ∀ i, flGet { h with regions := u ++ (a, { r with usedPayload := 0 }) :: v } i
      = flGet h i := fun i => flGet_irrel
  have hfinda : findReg a (u ++ (a, { r with usedPayload := 0 }) :: v)
      = some { r with usedPayload := 0 } := findReg_decomp hapre
  have hstable : ∀ b, b ≠ a →
      findReg b (u ++ (a, { r with usedPayload := 0 }) :: v) = findReg b h.regions := by
    intro b hb
    rw [hdec]
    exact findReg_middle_ne hb
  -- inserting the region as-is into its free list (the no-merge exits)
  have hinsertG0 : (∀ e ∈ u.getLast?, e.2.usedPayload ≠ 0) →
      (∀ e ∈ v.head?, e.2.usedPayload ≠ 0) →
      WF (addToFreeList { h with regions := u ++ (a, { r with usedPayload := 0 }) :: v } a) := by
    intro hprevU hnextU
    refine addToFreeList_WF (u := u) (v := v) rfl rfl hflLen ?_ ?_ ?_ ?_ ?_
      hpreAdj hpostAdj hprevU hnextU ?_ ?_ ?_
    · exact contiguous_middle_congr
        (show ({ r with usedPayload := 0 } : Reg).totalSize = r.totalSize from rfl) hcontig'
    · exact head_middle_congr hhead'
    · rw [show listEnd 0 (u ++ (a, { r with usedPayload := 0 }) :: v)
        = listEnd 0 (u ++ (a, r) :: v) from listEnd_middle_congr rfl]
      exact hend'
    · exact hbrk
    · intro e he
      rcases List.mem_append.mp he with hp | hm
      · exact hsizes' e (List.mem_append_left _ hp)
      · rcases List.mem_cons.mp hm with rfl | hp
        · obtain ⟨h1, h2, _⟩ := hszr
          exact ⟨h1, h2, by simp [getMaxPayload]⟩
        · exact hsizes' e (List.mem_append_right _ (List.mem_cons_of_mem _ hp))
    · intro i hi
      rw [hG0fl]
      exact hnotin i hi
    · intro i hi b hb
      rw [hG0fl] at hb
      have hba : b ≠ a := fun hba => hnotin i hi (hba ▸ hb)
      have := hsound i hi b hb
      rw [freeSlotB] at this ⊢
      rw [show findReg b (u ++ (a, { r with usedPayload := 0 }) :: v)
        = findReg b h.regions from hstable b hba]
      exact this
    · intro i hi
      rw [hG0fl]
      exact hnodup i hi
  rw [hstop]
  set G0 : Heap := { h with regions := u ++ (a, { r with usedPayload := 0 }) :: v } with hG0def
  have hG0regs : G0.regions = u ++ (a, { r with usedPayload := 0 }) :: v := rfl
  have hprevE : prevEntry a G0.regions = u.getLast? := by
    rw [hG0regs]
    exact prevEntry_decomp hapre hapost
  have hnextE : nextEntry a G0.regions = v.head? := by
    rw [hG0regs]
    exact nextEntry_decomp hapre
  -- the exits that go through `mergeIntoNext`
  have hnextCase : (∀ e ∈ u.getLast?, e.2.usedPayload ≠ 0) →
      WF (match mergeIntoNext G0 a with
        | (h₁, true) => h₁
        | (h₁, false) => addToFreeList h₁ a) := by
    intro hprevU
    simp only [mergeIntoNext]
    rw [hnextE]
    cases hpostC : v with
    | nil =>
      subst hpostC
      exact hinsertG0 hprevU (by simp)
    | cons nx post' =>
      obtain ⟨n, nr⟩ := nx
      subst hpostC
      by_cases hnru : nr.usedPayload = 0
      · -- merge into next (second branch of mergeIntoExistingFreeRegion)
        rw [List.head?_cons]
        show WF (match (if nr.usedPayload = 0 then
            (addToFreeList { (removeFromFreeList G0 n) with
              regions := absorbNextIn a (removeFromFreeList G0 n).regions } a, true)
          else (G0, false)) with
          | (h₁, true) => h₁
          | (h₁, false) => addToFreeList h₁ a)
        rw [if_pos hnru]
        show WF (addToFreeList { (removeFromFreeList G0 n) with
          regions := absorbNextIn a (removeFromFreeList G0 n).regions } a)
        -- bookkeeping about n
        simp only [List.map_cons, List.nodup_cons] at hndpost
        simp only [List.map_cons, List.mem_cons] at hapost
        push_neg at hapost
        have hna : n ≠ a := Ne.symm hapost.1
        have hnpre : n ∉ u.map Prod.fst := fun hin => hdisj hin (by simp)
        have hfindn : findReg n G0.regions = some nr := by
          rw [hG0regs, show u ++ (a, { r with usedPayload := 0 }) :: (n, nr) :: post'
            = (u ++ [(a, { r with usedPayload := 0 })]) ++ (n, nr) :: post' by simp]
          exact findReg_decomp (by
            simp only [List.map_append, List.map_cons, List.map_nil, List.mem_append,
              List.mem_cons, List.not_mem_nil]
            push_neg
            exact ⟨hnpre, hna, fun x => x.elim⟩)
        have hfindnh : findReg n h.regions = some nr := by
          rw [← hstable n hna]
          exact hfindn
        have hfl2 : ∀ j, flGet { (removeFromFreeList G0 n) with
            regions := absorbNextIn a (removeFromFreeList G0 n).regions } j =
            if getFreeListIndex (getMaxPayload nr) = j then (flGet h j).erase n else flGet h j := by
          intro j
          show flGet (removeFromFreeList G0 n) j = _
          rw [removeFromFreeList_flGet (show G0.find n = some nr from hfindn) j]
          rw [hG0fl]
        have habs : absorbNextIn a (removeFromFreeList G0 n).regions
            = u ++ (a, (⟨r.totalSize + nr.totalSize, 0⟩ : Reg)) :: post' := by
          rw [removeFromFreeList_regions, hG0regs, absorbNextIn_decomp hapre]
        have hn_eq : n = a + r.totalSize := by
          have hc := hcontig'
          rw [contiguous, List.chain'_append] at hc
          have hc2 := hc.2.1
          rw [List.chain'_cons] at hc2
          exact hc2.1
        have hbrk2 : (removeFromFreeList G0 n).brk = h.brk := removeFromFreeList_brk
        refine addToFreeList_WF (u := u) (v := post') habs rfl ?_ ?_ ?_ ?_ ?_ ?_
          hpreAdj (List.Chain'.tail hpostAdj) hprevU
          (noAdjFree_cons_head hpostAdj hnru) ?_ ?_ ?_
        · show (removeFromFreeList G0 n).freeLists.length = MAX_FREELIST_INDEX
          rw [removeFromFreeList_flLen]
          exact hflLen
        · show contiguous (absorbNextIn a (removeFromFreeList G0 n).regions)
          rw [habs]
          exact contiguous_absorb (n := n) (y := nr) (x := ({ r with usedPayload := 0 } : Reg))
            (contiguous_middle_congr
              (show ({ r with usedPayload := 0 } : Reg).totalSize = r.totalSize from rfl) hcontig')
        · show ∀ e ∈ (absorbNextIn a (removeFromFreeList G0 n).regions).head?, e.1 % ALIGNMENT = 0
          rw [habs]
          exact head_absorb_congr (x := ({ r with usedPayload := 0 } : Reg))
            (q := (n, nr) :: post') (head_middle_congr hhead')
        · show listEnd 0 (absorbNextIn a (removeFromFreeList G0 n).regions)
            = (removeFromFreeList G0 n).brk
          rw [habs, hbrk2]
          have hend2 : listEnd (a + r.totalSize + nr.totalSize) post' = h.brk := by
            have := hend'
            simp only [listEnd_append, listEnd] at this
            rw [hn_eq] at this
            exact this
          simp only [listEnd_append, listEnd]
          rw [show a + ((⟨r.totalSize + nr.totalSize, 0⟩ : Reg)).totalSize
            = a + r.totalSize + nr.totalSize from by
              show a + (r.totalSize + nr.totalSize) = a + r.totalSize + nr.totalSize
              omega]
          exact hend2
        · show (removeFromFreeList G0 n).brk ≤ ADDRESS_SPACE
          rw [hbrk2]
          exact hbrk
        · show ∀ e ∈ absorbNextIn a (removeFromFreeList G0 n).regions, sizeOK e.2
          rw [habs]
          intro e he
          rcases List.mem_append.mp he with hp | hm
          · exact hsizes' e (List.mem_append_left _ hp)
          · rcases List.mem_cons.mp hm with rfl | hp
            · have h1 := hszr
              have h2 := hsizes' (n, nr) (by simp)
              obtain ⟨ha1, ha2, _⟩ := h1
              obtain ⟨hb1, hb2, _⟩ := h2
              refine ⟨?_, ?_, ?_⟩
              · simp only [MIN_REGION_SIZE, METADATA_SIZE, ALLOC_UNIT, ALIGNMENT] at ha1 ⊢
                omega
              · simp only [ALIGNMENT] at ha2 hb2 ⊢
                omega
              · simp [getMaxPayload]
            · exact hsizes' e (by simp [hp])
        · intro i hi
          rw [hfl2]
          rcases eq_or_ne (getFreeListIndex (getMaxPayload nr)) i with heq | hne
          · rw [if_pos heq]
            intro hmem
            exact hnotin i hi (List.mem_of_mem_erase hmem)
          · rw [if_neg hne]
            exact hnotin i hi
        · -- soundness
          intro i hi b hb
          rw [hfl2] at hb
          have hbmem : b ∈ flGet h i ∧ b ≠ n := by
            rcases eq_or_ne (getFreeListIndex (getMaxPayload nr)) i with heq | hne
            · rw [if_pos heq] at hb
              exact ⟨List.mem_of_mem_erase hb, ((hnodup i hi).mem_erase_iff.mp hb).1⟩
            · rw [if_neg hne] at hb
              refine ⟨hb, ?_⟩
              intro hbn
              subst hbn
              exact not_mem_flGet_ne_class hsound hfindnh i hi hne hb
          have hba : b ≠ a := fun hba => hnotin i hi (hba ▸ hbmem.1)
          have hfb := hsound i hi b hbmem.1
          have hstb : findReg b (absorbNextIn a (removeFromFreeList G0 n).regions)
              = findReg b h.regions := by
            rw [habs, hdec]
            refine findReg_congr_suffix ?_
            rw [findReg_cons_ne (Ne.symm hba), findReg_cons_ne (Ne.symm hba),
              findReg_cons_ne (Ne.symm hbmem.2)]
          show freeSlotB (absorbNextIn a (removeFromFreeList G0 n).regions) i b = true
          rw [freeSlotB, hstb]
          rw [freeSlotB] at hfb
          exact hfb
        · intro i hi
          rw [hfl2]
          rcases eq_or_ne (getFreeListIndex (getMaxPayload nr)) i with heq | hne
          · rw [if_pos heq]
            exact (hnodup i hi).erase n
          · rw [if_neg hne]
            exact hnodup i hi
      · -- next used: no merge, insert as-is
        rw [List.head?_cons]
        show WF (match (if nr.usedPayload = 0 then
            (addToFreeList { (removeFromFreeList G0 n) with
              regions := absorbNextIn a (removeFromFreeList G0 n).regions } a, true)
          else (G0, false)) with
          | (h₁, true) => h₁
          | (h₁, false) => addToFreeList h₁ a)
        rw [if_neg hnru]
        show WF (addToFreeList G0 a)
        refine hinsertG0 hprevU ?_
        intro e he
        simp only [List.head?_cons, Option.mem_def, Option.some.injEq] at he
        subst he
        exact hnru
  -- dispatch on the shape of the predecessor
  simp only [mergeIntoExistingFreeRegion]
  rw [hprevE, hnextE]
  rcases List.eq_nil_or_concat u with hpre0 | ⟨pre', plast, hpre0⟩
  · subst hpre0
    show WF (match mergeIntoNext G0 a with
      | (h₁, true) => h₁
      | (h₁, false) => addToFreeList h₁ a)
    exact hnextCase (by simp)
  · obtain ⟨p, pr⟩ := plast
    rw [List.concat_eq_append] at hpre0
    subst hpre0
    rw [List.getLast?_concat]
    by_cases hpru : pr.usedPayload = 0
    · -- CASE A: merge into the free predecessor
      show WF (match (if pr.usedPayload = 0 then
          (addToFreeList (match v.head? with
            | some (n, nr) =>
              if nr.usedPayload = 0 then
                { (removeFromFreeList { (removeFromFreeList G0 p) with
                    regions := absorbNextIn p (removeFromFreeList G0 p).regions } n) with
                  regions := absorbNextIn p (removeFromFreeList
                    { (removeFromFreeList G0 p) with
                      regions := absorbNextIn p (removeFromFreeList G0 p).regions } n).regions }
              else { (removeFromFreeList G0 p) with
                regions := absorbNextIn p (removeFromFreeList G0 p).regions }
            | none => { (removeFromFreeList G0 p) with
                regions := absorbNextIn p (removeFromFreeList G0 p).regions }) p, true)
        else mergeIntoNext G0 a) with
        | (h₁, true) => h₁
        | (h₁, false) => addToFreeList h₁ a)
      rw [if_pos hpru]
      show WF (addToFreeList (match v.head? with
        | some (n, nr) =>
          if nr.usedPayload = 0 then
            { (removeFromFreeList { (removeFromFreeList G0 p) with
                regions := absorbNextIn p (removeFromFreeList G0 p).regions } n) with
              regions := absorbNextIn p (removeFromFreeList
                { (removeFromFreeList G0 p) with
                  regions := absorbNextIn p (removeFromFreeList G0 p).regions } n).regions }
          else { (removeFromFreeList G0 p) with
            regions := absorbNextIn p (removeFromFreeList G0 p).regions }
        | none => { (removeFromFreeList G0 p) with
            regions := absorbNextIn p (removeFromFreeList G0 p).regions }) p)
      -- bookkeeping for the predecessor p
      simp only [List.map_append, List.map_cons, List.map_nil, List.nodup_append,
        List.nodup_cons] at hndpre
      have hppre' : p ∉ pre'.map Prod.fst := by
        intro hin
        exact hndpre.2.2 hin (by simp)
      simp only [List.map_append, List.map_cons, List.map_nil, List.mem_append,
        List.mem_cons, List.not_mem_nil] at hapre
      push_neg at hapre
      have hpa : p ≠ a := Ne.symm hapre.2.1
      have hppost : p ∉ v.map Prod.fst := by
        intro hin
        exact hdisj (show p ∈ (pre' ++ [(p, pr)]).map Prod.fst by simp) (by simp [hin])
      have hassoc1 : ∀ (x : Nat × Reg) (t : List (Nat × Reg)),
          (pre' ++ [(p, pr)]) ++ x :: t = pre' ++ (p, pr) :: x :: t := by
        intro x t
        simp
      have hcontigA : contiguous (pre' ++ (p, pr) :: (a, r) :: v) := by
        rw [← hassoc1]
        exact hcontig'
      have han : a = p + pr.totalSize := by
        have hc := hcontigA
        rw [contiguous, List.chain'_append] at hc
        have hc2 := hc.2.1
        rw [List.chain'_cons] at hc2
        exact hc2.1
      have hfp : findReg p G0.regions = some pr := by
        rw [hG0regs, hassoc1, show pre' ++ (p, pr) :: (a, { r with usedPayload := 0 }) :: v
          = pre' ++ (p, pr) :: ((a, { r with usedPayload := 0 }) :: v) from rfl]
        exact findReg_decomp hppre'
      have hfph : findReg p h.regions = some pr := by
        rw [← hstable p hpa]
        exact hfp
      have hfl_h2 : ∀ j, flGet { (removeFromFreeList G0 p) with
          regions := absorbNextIn p (removeFromFreeList G0 p).regions } j =
          if getFreeListIndex (getMaxPayload pr) = j then (flGet h j).erase p else flGet h j := by
        intro j
        show flGet (removeFromFreeList G0 p) j = _
        rw [removeFromFreeList_flGet (show G0.find p = some pr from hfp) j]
        rw [hG0fl]
      have habs1 : absorbNextIn p (removeFromFreeList G0 p).regions
          = pre' ++ (p, (⟨pr.totalSize + r.totalSize, pr.usedPayload⟩ : Reg)) :: v := by
        rw [removeFromFreeList_regions, hG0regs, hassoc1, absorbNextIn_decomp hppre']
      have hszp := hsizes' (p, pr) (by simp)
      -- the single-absorb exits (next missing or used)
      have hA23 : (∀ e ∈ v.head?, e.2.usedPayload ≠ 0) →
          WF (addToFreeList { (removeFromFreeList G0 p) with
            regions := absorbNextIn p (removeFromFreeList G0 p).regions } p) := by
        intro hnextU
        refine addToFreeList_WF (u := pre') (v := v) habs1
          (show pr.usedPayload = 0 from hpru) ?_ ?_ ?_ ?_ ?_ ?_
          (noAdjFree_concat_left hpreAdj) hpostAdj
          (noAdjFree_concat_last hpreAdj hpru) hnextU ?_ ?_ ?_
        · show (removeFromFreeList G0 p).freeLists.length = MAX_FREELIST_INDEX
          rw [removeFromFreeList_flLen]
          exact hflLen
        · show contiguous (absorbNextIn p (removeFromFreeList G0 p).regions)
          rw [habs1]
          have hcontig0 : contiguous (pre' ++ (p, pr) :: (a, { r with usedPayload := 0 }) :: v) := by
            rw [← hassoc1]
            exact contiguous_middle_congr
              (show ({ r with usedPayload := 0 } : Reg).totalSize = r.totalSize from rfl) hcontig'
          exact contiguous_absorb (n := a) (x := pr) (y := ({ r with usedPayload := 0 } : Reg))
            hcontig0
        · show ∀ e ∈ (absorbNextIn p (removeFromFreeList G0 p).regions).head?, e.1 % ALIGNMENT = 0
          rw [habs1]
          refine head_absorb_congr (x := pr) (q := (a, r) :: v) ?_
          rw [← hassoc1]
          exact hhead'
        · show listEnd 0 (absorbNextIn p (removeFromFreeList G0 p).regions)
            = (removeFromFreeList G0 p).brk
          rw [habs1, removeFromFreeList_brk]
          have hend0 : listEnd (a + r.totalSize) v = h.brk := by
            have hx := hend'
            simp only [listEnd_append, listEnd] at hx
            exact hx
          simp only [listEnd_append, listEnd]
          rw [show p + ((⟨pr.totalSize + r.totalSize, pr.usedPayload⟩ : Reg)).totalSize
            = a + r.totalSize from by
              show p + (pr.totalSize + r.totalSize) = a + r.totalSize
              omega]
          exact hend0
        · show (removeFromFreeList G0 p).brk ≤ ADDRESS_SPACE
          rw [removeFromFreeList_brk]
          exact hbrk
        · show ∀ e ∈ absorbNextIn p (removeFromFreeList G0 p).regions, sizeOK e.2
          rw [habs1]
          intro e he
          rcases List.mem_append.mp he with hp | hm
          · exact hsizes' e (by simp [hp])
          · rcases List.mem_cons.mp hm with rfl | hp
            · obtain ⟨ha1, ha2, _⟩ := hszp
              obtain ⟨hb1, hb2, _⟩ := hszr
              refine ⟨?_, ?_, ?_⟩
              · simp only [MIN_REGION_SIZE, METADATA_SIZE, ALLOC_UNIT, ALIGNMENT] at ha1 ⊢
                omega
              · simp only [ALIGNMENT] at ha2 hb2 ⊢
                omega
              · simp [getMaxPayload, hpru]
            · exact hsizes' e (by simp [hp])
        · intro i hi
          rw [hfl_h2]
          rcases eq_or_ne (getFreeListIndex (getMaxPayload pr)) i with heq | hne
          · rw [if_pos heq]
            intro hmem
            exact ((hnodup i hi).mem_erase_iff.mp hmem).1 rfl
          · rw [if_neg hne]
            exact not_mem_flGet_ne_class hsound hfph i hi hne
        · intro i hi b hb
          rw [hfl_h2] at hb
          have hbmem : b ∈ flGet h i ∧ b ≠ p := by
            rcases eq_or_ne (getFreeListIndex (getMaxPayload pr)) i with heq | hne
            · rw [if_pos heq] at hb
              exact ⟨List.mem_of_mem_erase hb, ((hnodup i hi).mem_erase_iff.mp hb).1⟩
            · rw [if_neg hne] at hb
              refine ⟨hb, ?_⟩
              intro hbp
              subst hbp
              exact not_mem_flGet_ne_class hsound hfph i hi hne hb
          have hba : b ≠ a := fun hba => hnotin i hi (hba ▸ hbmem.1)
          have hfb := hsound i hi b hbmem.1
          have hstb : findReg b (absorbNextIn p (removeFromFreeList G0 p).regions)
              = findReg b h.regions := by
            rw [habs1, hdec, hassoc1]
            refine findReg_congr_suffix ?_
            rw [findReg_cons_ne (Ne.symm hbmem.2), findReg_cons_ne (Ne.symm hbmem.2),
              findReg_cons_ne (Ne.symm hba)]
          show freeSlotB (absorbNextIn p (removeFromFreeList G0 p).regions) i b = true
          rw [freeSlotB, hstb]
          rw [freeSlotB] at hfb
          exact hfb
        · intro i hi
          rw [hfl_h2]
          rcases eq_or_ne (getFreeListIndex (getMaxPayload pr)) i with heq | hne
          · rw [if_pos heq]
            exact (hnodup i hi).erase p
          · rw [if_neg hne]
            exact hnodup i hi
      cases hpostC : v with
      | nil =>
        subst hpostC
        exact hA23 (by simp)
      | cons nx post' =>
        obtain ⟨n, nr⟩ := nx
        subst hpostC
        rw [List.head?_cons]
        by_cases hnru : nr.usedPayload = 0
        · -- CASE A1: also absorb the free successor
          show WF (addToFreeList (if nr.usedPayload = 0 then
              { (removeFromFreeList { (removeFromFreeList G0 p) with
                  regions := absorbNextIn p (removeFromFreeList G0 p).regions } n) with
                regions := absorbNextIn p (removeFromFreeList
                  { (removeFromFreeList G0 p) with
                    regions := absorbNextIn p (removeFromFreeList G0 p).regions } n).regions }
            else { (removeFromFreeList G0 p) with
              regions := absorbNextIn p (removeFromFreeList G0 p).regions }) p)
          rw [if_pos hnru]
          simp only [List.map_cons, List.nodup_cons] at hndpost
          simp only [List.map_cons, List.mem_cons] at hapost hppost
          push_neg at hapost hppost
          have hna : n ≠ a := Ne.symm hapost.1
          have hpn : p ≠ n := hppost.1
          have hnpre' : n ∉ pre'.map Prod.fst := by
            intro hin
            exact hdisj (show n ∈ (pre' ++ [(p, pr)]).map Prod.fst by simp [hin]) (by simp)
          have hna2 : n = a + r.totalSize := by
            have hc := hcontigA
            rw [contiguous, List.chain'_append] at hc
            have hc2 := hc.2.1
            rw [List.chain'_cons] at hc2
            have hc3 := hc2.2
            rw [List.chain'_cons] at hc3
            exact hc3.1
          have hfn2 : findReg n (absorbNextIn p (removeFromFreeList G0 p).regions) = some nr := by
            rw [habs1, show pre' ++ (p, (⟨pr.totalSize + r.totalSize, pr.usedPayload⟩ : Reg))
                :: (n, nr) :: post'
              = (pre' ++ [(p, (⟨pr.totalSize + r.totalSize, pr.usedPayload⟩ : Reg))])
                ++ (n, nr) :: post' from by simp]
            refine findReg_decomp ?_
            simp only [List.map_append, List.map_cons, List.map_nil, List.mem_append,
              List.mem_cons, List.not_mem_nil]
            push_neg
            exact ⟨hnpre', Ne.symm hpn, fun x => x.elim⟩
          have hfnh : findReg n h.regions = some nr := by
            rw [← hstable n hna, hG0regs.symm.trans hG0regs]
            rw [hassoc1, show pre' ++ (p, pr) :: (a, { r with usedPayload := 0 }) :: (n, nr) :: post'
              = (pre' ++ [(p, pr), (a, { r with usedPayload := 0 })]) ++ (n, nr) :: post' from by simp]
            refine findReg_decomp ?_
            simp only [List.map_append, List.map_cons, List.map_nil, List.mem_append,
              List.mem_cons, List.not_mem_nil]
            push_neg
            exact ⟨hnpre', Ne.symm hpn, hna, fun x => x.elim⟩
          have hfl_h3 : ∀ j, flGet { (removeFromFreeList { (removeFromFreeList G0 p) with
              regions := absorbNextIn p (removeFromFreeList G0 p).regions } n) with
                regions := absorbNextIn p (removeFromFreeList
                  { (removeFromFreeList G0 p) with
                    regions := absorbNextIn p (removeFromFreeList G0 p).regions } n).regions } j
              = if getFreeListIndex (getMaxPayload nr) = j then
                  ((if getFreeListIndex (getMaxPayload pr) = j then (flGet h j).erase p
                    else flGet h j).erase n)
                else (if getFreeListIndex (getMaxPayload pr) = j then (flGet h j).erase p
                  else flGet h j) := by
            intro j
            show flGet (removeFromFreeList { (removeFromFreeList G0 p) with
              regions := absorbNextIn p (removeFromFreeList G0 p).regions } n) j = _
            rw [removeFromFreeList_flGet (show Heap.find { (removeFromFreeList G0 p) with
              regions := absorbNextIn p (removeFromFreeList G0 p).regions } n = some nr
              from hfn2) j]
            rw [hfl_h2 j]
          have habs2 : absorbNextIn p (removeFromFreeList { (removeFromFreeList G0 p) with
              regions := absorbNextIn p (removeFromFreeList G0 p).regions } n).regions
              = pre' ++ (p, (⟨pr.totalSize + r.totalSize + nr.totalSize, pr.usedPayload⟩ : Reg))
                :: post' := by
            rw [removeFromFreeList_regions]
            rw [habs1]
            rw [absorbNextIn_decomp hppre']
          have hend1 : listEnd (n + nr.totalSize) post' = h.brk := by
            have hx := hend'
            simp only [listEnd_append, listEnd] at hx
            exact hx
          have hszn := hsizes' (n, nr) (by simp)
          have hchar : ∀ i, i < MAX_FREELIST_INDEX → ∀ b,
              b ∈ (if getFreeListIndex (getMaxPayload nr) = i then
                  ((if getFreeListIndex (getMaxPayload pr) = i then (flGet h i).erase p
                    else flGet h i).erase n)
                else (if getFreeListIndex (getMaxPayload pr) = i then (flGet h i).erase p
                  else flGet h i)) → b ∈ flGet h i ∧ b ≠ p ∧ b ≠ n := by
            intro i hi b hb
            rcases eq_or_ne (getFreeListIndex (getMaxPayload nr)) i with hN | hN <;>
              rcases eq_or_ne (getFreeListIndex (getMaxPayload pr)) i with hP | hP
            · rw [if_pos hN, if_pos hP] at hb
              have h1 : b ∈ (flGet h i).erase p := List.mem_of_mem_erase hb
              have hbn : b ≠ n := (((hnodup i hi).erase p).mem_erase_iff.mp hb).1
              have hbp : b ≠ p := ((hnodup i hi).mem_erase_iff.mp h1).1
              exact ⟨List.mem_of_mem_erase h1, hbp, hbn⟩
            · rw [if_pos hN, if_neg hP] at hb
              have hbn : b ≠ n := ((hnodup i hi).mem_erase_iff.mp hb).1
              have h1 : b ∈ flGet h i := List.mem_of_mem_erase hb
              refine ⟨h1, ?_, hbn⟩
              intro hbp
              subst hbp
              exact not_mem_flGet_ne_class hsound hfph i hi hP h1
            · rw [if_neg hN, if_pos hP] at hb
              have hbp : b ≠ p := ((hnodup i hi).mem_erase_iff.mp hb).1
              have h1 : b ∈ flGet h i := List.mem_of_mem_erase hb
              refine ⟨h1, hbp, ?_⟩
              intro hbn
              subst hbn
              exact not_mem_flGet_ne_class hsound hfnh i hi hN h1
            · rw [if_neg hN, if_neg hP] at hb
              refine ⟨hb, ?_, ?_⟩
              · intro hbp
                subst hbp
                exact not_mem_flGet_ne_class hsound hfph i hi hP hb
              · intro hbn
                subst hbn
                exact not_mem_flGet_ne_class hsound hfnh i hi hN hb
          refine addToFreeList_WF (u := pre') (v := post') habs2
            (show pr.usedPayload = 0 from hpru) ?_ ?_ ?_ ?_ ?_ ?_
            (noAdjFree_concat_left hpreAdj) (List.Chain'.tail hpostAdj)
            (noAdjFree_concat_last hpreAdj hpru)
            (noAdjFree_cons_head hpostAdj hnru) ?_ ?_ ?_
          · show (removeFromFreeList { (removeFromFreeList G0 p) with
              regions := absorbNextIn p (removeFromFreeList G0 p).regions } n).freeLists.length
              = MAX_FREELIST_INDEX
            rw [removeFromFreeList_flLen]
            show (removeFromFreeList G0 p).freeLists.length = MAX_FREELIST_INDEX
            rw [removeFromFreeList_flLen]
            exact hflLen
          · show contiguous (absorbNextIn p (removeFromFreeList { (removeFromFreeList G0 p) with
              regions := absorbNextIn p (removeFromFreeList G0 p).regions } n).regions)
            rw [habs2]
            have hcontig1 : contiguous (pre' ++ (p, pr) :: (a, { r with usedPayload := 0 })
                :: (n, nr) :: post') := by
              rw [← hassoc1]
              exact contiguous_middle_congr
                (show ({ r with usedPayload := 0 } : Reg).totalSize = r.totalSize from rfl) hcontig'
            have hcontig2 := contiguous_absorb (n := a) (x := pr)
              (y := ({ r with usedPayload := 0 } : Reg)) hcontig1
            exact contiguous_absorb (n := n)
              (x := (⟨pr.totalSize + r.totalSize, pr.usedPayload⟩ : Reg)) (y := nr) hcontig2
          · show ∀ e ∈ (absorbNextIn p (removeFromFreeList { (removeFromFreeList G0 p) with
              regions := absorbNextIn p (removeFromFreeList G0 p).regions } n).regions).head?,
              e.1 % ALIGNMENT = 0
            rw [habs2]
            refine head_absorb_congr (x := pr) (q := (a, r) :: (n, nr) :: post') ?_
            rw [← hassoc1]
            exact hhead'
          · show listEnd 0 (absorbNextIn p (removeFromFreeList { (removeFromFreeList G0 p) with
              regions := absorbNextIn p (removeFromFreeList G0 p).regions } n).regions)
              = (removeFromFreeList { (removeFromFreeList G0 p) with
                regions := absorbNextIn p (removeFromFreeList G0 p).regions } n).brk
            rw [habs2, removeFromFreeList_brk]
            show listEnd 0 (pre' ++ (p, (⟨pr.totalSize + r.totalSize + nr.totalSize,
              pr.usedPayload⟩ : Reg)) :: post') = (removeFromFreeList G0 p).brk
            rw [removeFromFreeList_brk]
            simp only [listEnd_append, listEnd]
            rw [show p + ((⟨pr.totalSize + r.totalSize + nr.totalSize,
                pr.usedPayload⟩ : Reg)).totalSize = n + nr.totalSize from by
              show p + (pr.totalSize + r.totalSize + nr.totalSize) = n + nr.totalSize
              omega]
            exact hend1
          · show (removeFromFreeList { (removeFromFreeList G0 p) with
              regions := absorbNextIn p (removeFromFreeList G0 p).regions } n).brk ≤ ADDRESS_SPACE
            rw [removeFromFreeList_brk]
            show (removeFromFreeList G0 p).brk ≤ ADDRESS_SPACE
            rw [removeFromFreeList_brk]
            exact hbrk
          · show ∀ e ∈ absorbNextIn p (removeFromFreeList { (removeFromFreeList G0 p) with
              regions := absorbNextIn p (removeFromFreeList G0 p).regions } n).regions, sizeOK e.2
            rw [habs2]
            intro e he
            rcases List.mem_append.mp he with hp | hm
            · exact hsizes' e (by simp [hp])
            · rcases List.mem_cons.mp hm with rfl | hp
              · obtain ⟨ha1, ha2, _⟩ := hszp
                obtain ⟨hb1, hb2, _⟩ := hszr
                obtain ⟨hc1, hc2, _⟩ := hszn
                refine ⟨?_, ?_, ?_⟩
                · simp only [MIN_REGION_SIZE, METADATA_SIZE, ALLOC_UNIT, ALIGNMENT] at ha1 ⊢
                  omega
                · simp only [ALIGNMENT] at ha2 hb2 hc2 ⊢
                  omega
                · simp [getMaxPayload, hpru]
              · exact hsizes' e (by simp [hp])
          · intro i hi
            rw [hfl_h3]
            rcases eq_or_ne (getFreeListIndex (getMaxPayload nr)) i with hN | hN <;>
              rcases eq_or_ne (getFreeListIndex (getMaxPayload pr)) i with hP | hP
            · rw [if_pos hN, if_pos hP]
              intro hmem
              have h1 : p ∈ (flGet h i).erase p := List.mem_of_mem_erase hmem
              exact ((hnodup i hi).mem_erase_iff.mp h1).1 rfl
            · rw [if_pos hN, if_neg hP]
              intro hmem
              exact not_mem_flGet_ne_class hsound hfph i hi hP (List.mem_of_mem_erase hmem)
            · rw [if_neg hN, if_pos hP]
              intro hmem
              exact ((hnodup i hi).mem_erase_iff.mp hmem).1 rfl
            · rw [if_neg hN, if_neg hP]
              exact not_mem_flGet_ne_class hsound hfph i hi hP
          · intro i hi b hb
            rw [hfl_h3] at hb
            obtain ⟨hbm, hbp, hbn⟩ := hchar i hi b hb
            have hba : b ≠ a := fun hba => hnotin i hi (hba ▸ hbm)
            have hfb := hsound i hi b hbm
            have hstb : findReg b (pre' ++ (p, (⟨pr.totalSize + r.totalSize + nr.totalSize,
                pr.usedPayload⟩ : Reg)) :: post') = findReg b h.regions := by
              rw [hdec, hassoc1]
              refine findReg_congr_suffix ?_
              rw [findReg_cons_ne (Ne.symm hbp), findReg_cons_ne (Ne.symm hbp),
                findReg_cons_ne (Ne.symm hba), findReg_cons_ne (Ne.symm hbn)]
            show freeSlotB (absorbNextIn p (removeFromFreeList { (removeFromFreeList G0 p) with
              regions := absorbNextIn p (removeFromFreeList G0 p).regions } n).regions) i b = true
            rw [freeSlotB, habs2, hstb]
            rw [freeSlotB] at hfb
            exact hfb
          · intro i hi
            rw [hfl_h3]
            rcases eq_or_ne (getFreeListIndex (getMaxPayload nr)) i with hN | hN <;>
              rcases eq_or_ne (getFreeListIndex (getMaxPayload pr)) i with hP | hP
            · rw [if_pos hN, if_pos hP]
              exact ((hnodup i hi).erase p).erase n
            · rw [if_pos hN, if_neg hP]
              exact (hnodup i hi).erase n
            · rw [if_neg hN, if_pos hP]
              exact (hnodup i hi).erase p
            · rw [if_neg hN, if_neg hP]
              exact hnodup i hi
        · show WF (addToFreeList (if nr.usedPayload = 0 then
              { (removeFromFreeList { (removeFromFreeList G0 p) with
                  regions := absorbNextIn p (removeFromFreeList G0 p).regions } n) with
                regions := absorbNextIn p (removeFromFreeList
                  { (removeFromFreeList G0 p) with
                    regions := absorbNextIn p (removeFromFreeList G0 p).regions } n).regions }
            else { (removeFromFreeList G0 p) with
              regions := absorbNextIn p (removeFromFreeList G0 p).regions }) p)
          rw [if_neg hnru]
          refine hA23 ?_
          intro e he
          simp only [List.head?_cons, Option.mem_def, Option.some.injEq] at he
          subst he
          exact hnru
    · -- predecessor used: fall through to the next-merge branch
      show WF (match (if pr.usedPayload = 0 then
          (addToFreeList (match v.head? with
            | some (n, nr) =>
              if nr.usedPayload = 0 then
                { (removeFromFreeList { (removeFromFreeList G0 p) with
                    regions := absorbNextIn p (removeFromFreeList G0 p).regions } n) with
                  regions := absorbNextIn p (removeFromFreeList
                    { (removeFromFreeList G0 p) with
                      regions := absorbNextIn p (removeFromFreeList G0 p).regions } n).regions }
              else { (removeFromFreeList G0 p) with
                regions := absorbNextIn p (removeFromFreeList G0 p).regions }
            | none => { (removeFromFreeList G0 p) with
                regions := absorbNextIn p (removeFromFreeList G0 p).regions }) p, true)
        else mergeIntoNext G0 a) with
        | (h₁, true) => h₁
        | (h₁, false) => addToFreeList h₁ a)
      rw [if_neg hpru]
      exact hnextCase (by
        intro e he
        rw [List.getLast?_concat] at he
        simp only [Option.mem_def, Option.some.injEq] at he
        subst he
        exact hpru)


/-! ### `stopUsing` does not disturb other used regions -/

theorem stopUsing_find_used {h : Heap} {a b : Nat} {r rb : Reg}
    (hfind : h.find a = some r)
    (hnd : (h.regions.map Prod.fst).Nodup)
    (hfb : h.find b = some rb) (hbused : rb.usedPayload ≠ 0) (hba : b ≠ a) :
    (stopUsing h a).find b = some rb := by
  obtain ⟨pre, post, hdec, hapre⟩ := findReg_split hfind
  rw [hdec] at hnd
  simp only [List.map_append, List.map_cons, List.nodup_append, List.nodup_cons] at hnd
  obtain ⟨hndpre, ⟨hapost, hndpost⟩, hdisj⟩ := hnd
  have hr0dec : updateReg a (fun r => { r with usedPayload := 0 }) h.regions
      = pre ++ (a, { r with usedPayload := 0 }) :: post := by
    rw [hdec]
    exact updateReg_decomp hapre
  have hstop : stopUsing h a =
      (match mergeIntoExistingFreeRegion
          { h with regions := pre ++ (a, { r with usedPayload := 0 }) :: post } a with
        | (h₁, true) => h₁
        | (h₁, false) => addToFreeList h₁ a) := by
    simp only [stopUsing, hr0dec]
  rw [hstop]
  set G0 : Heap := { h with regions := pre ++ (a, { r with usedPayload := 0 }) :: post } with hG0def
  have hG0regs : G0.regions = pre ++ (a, { r with usedPayload := 0 }) :: post := rfl
  have hprevE : prevEntry a G0.regions = pre.getLast? := by
    rw [hG0regs]
    exact prevEntry_decomp hapre hapost
  have hnextE : nextEntry a G0.regions = post.head? := by
    rw [hG0regs]
    exact nextEntry_decomp hapre
  have hfb0 : findReg b h.regions = some rb := hfb
  rw [hdec] at hfb0
  have hfbG : findReg b (pre ++ (a, { r with usedPayload := 0 }) :: post) = some rb := by
    rw [findReg_middle_ne hba]
    exact hfb0
  have hnextCase : (match mergeIntoNext G0 a with
      | (h₁, true) => h₁
      | (h₁, false) => addToFreeList h₁ a).find b = some rb := by
    simp only [mergeIntoNext]
    rw [hnextE]
    cases hpostC : post with
    | nil =>
      subst hpostC
      show findReg b (addToFreeList G0 a).regions = some rb
      rw [addToFreeList_regions, hG0regs]
      exact hfbG
    | cons nx post' =>
      obtain ⟨n, nr⟩ := nx
      subst hpostC
      rw [List.head?_cons]
      by_cases hnru : nr.usedPayload = 0
      · show ((match (if nr.usedPayload = 0 then
            (addToFreeList { (removeFromFreeList G0 n) with
              regions := absorbNextIn a (removeFromFreeList G0 n).regions } a, true)
          else (G0, false)) with
          | (h₁, true) => h₁
          | (h₁, false) => addToFreeList h₁ a)).find b = some rb
        rw [if_pos hnru]
        have hfn : findReg n G0.regions = some nr := by
          rw [hG0regs, show pre ++ (a, { r with usedPayload := 0 }) :: (n, nr) :: post'
            = (pre ++ [(a, { r with usedPayload := 0 })]) ++ (n, nr) :: post' from by simp]
          refine findReg_decomp ?_
          simp only [List.map_append, List.map_cons, List.map_nil, List.mem_append,
            List.mem_cons, List.not_mem_nil]
          push_neg
          simp only [List.map_cons, List.mem_cons] at hapost
          push_neg at hapost
          exact ⟨fun hin => hdisj hin (by simp), Ne.symm hapost.1, fun x => x.elim⟩
        have hbn : b ≠ n := by
          intro hbe
          have h1 := hfbG
          rw [hbe, ← hG0regs, hfn] at h1
          injection h1 with hh
          exact hbused (hh ▸ hnru)
        show findReg b (addToFreeList { (removeFromFreeList G0 n) with
          regions := absorbNextIn a (removeFromFreeList G0 n).regions } a).regions = some rb
        rw [addToFreeList_regions]
        show findReg b (absorbNextIn a (removeFromFreeList G0 n).regions) = some rb
        rw [removeFromFreeList_regions, hG0regs, absorbNextIn_decomp hapre]
        rw [findReg_middle_ne hba]
        rw [show findReg b (pre ++ (a, { r with usedPayload := 0 }) :: post')
          = findReg b (pre ++ (a, { r with usedPayload := 0 }) :: (n, nr) :: post') from
          findReg_congr_suffix (by
            rw [findReg_cons_ne (Ne.symm hba), findReg_cons_ne (Ne.symm hba),
              findReg_cons_ne (Ne.symm hbn)])]
        exact hfbG
      · show ((match (if nr.usedPayload = 0 then
            (addToFreeList { (removeFromFreeList G0 n) with
              regions := absorbNextIn a (removeFromFreeList G0 n).regions } a, true)
          else (G0, false)) with
          | (h₁, true) => h₁
          | (h₁, false) => addToFreeList h₁ a)).find b = some rb
        rw [if_neg hnru]
        show findReg b (addToFreeList G0 a).regions = some rb
        rw [addToFreeList_regions, hG0regs]
        exact hfbG
  simp only [mergeIntoExistingFreeRegion]
  rw [hprevE, hnextE]
  rcases List.eq_nil_or_concat pre with hpre0 | ⟨pre', plast, hpre0⟩
  · subst hpre0
    show ((match mergeIntoNext G0 a with
      | (h₁, true) => h₁
      | (h₁, false) => addToFreeList h₁ a)).find b = some rb
    exact hnextCase
  · obtain ⟨p, pr⟩ := plast
    rw [List.concat_eq_append] at hpre0
    subst hpre0
    rw [List.getLast?_concat]
    by_cases hpru : pr.usedPayload = 0
    · show ((match (if pr.usedPayload = 0 then
          (addToFreeList (match post.head? with
            | some (n, nr) =>
              if nr.usedPayload = 0 then
                { (removeFromFreeList { (removeFromFreeList G0 p) with
                    regions := absorbNextIn p (removeFromFreeList G0 p).regions } n) with
                  regions := absorbNextIn p (removeFromFreeList
                    { (removeFromFreeList G0 p) with
                      regions := absorbNextIn p (removeFromFreeList G0 p).regions } n).regions }
              else { (removeFromFreeList G0 p) with
                regions := absorbNextIn p (removeFromFreeList G0 p).regions }
            | none => { (removeFromFreeList G0 p) with
                regions := absorbNextIn p (removeFromFreeList G0 p).regions }) p, true)
        else mergeIntoNext G0 a) with
        | (h₁, true) => h₁
        | (h₁, false) => addToFreeList h₁ a)).find b = some rb
      rw [if_pos hpru]
      have hppre' : p ∉ pre'.map Prod.fst := by
        simp only [List.map_append, List.map_cons, List.map_nil, List.nodup_append,
          List.nodup_cons, List.nodup_nil] at hndpre
        intro hin
        exact hndpre.2.2 hin (by simp)
      have hfp : findReg p G0.regions = some pr := by
        rw [hG0regs, show (pre' ++ [(p, pr)]) ++ (a, { r with usedPayload := 0 }) :: post
          = pre' ++ (p, pr) :: (a, { r with usedPayload := 0 }) :: post from by simp]
        exact findReg_decomp hppre'
      have hbp : b ≠ p := by
        intro hbe
        have h1 := hfbG
        rw [hbe, ← hG0regs, hfp] at h1
        injection h1 with hh
        exact hbused (hh ▸ hpru)
      have habs1 : absorbNextIn p (removeFromFreeList G0 p).regions
          = pre' ++ (p, (⟨pr.totalSize + r.totalSize, pr.usedPayload⟩ : Reg)) :: post := by
        rw [removeFromFreeList_regions, hG0regs,
          show (pre' ++ [(p, pr)]) ++ (a, { r with usedPayload := 0 }) :: post
            = pre' ++ (p, pr) :: (a, { r with usedPayload := 0 }) :: post from by simp]
        rw [absorbNextIn_decomp hppre']
      have hfb1 : findReg b
          (pre' ++ (p, (⟨pr.totalSize + r.totalSize, pr.usedPayload⟩ : Reg)) :: post)
          = some rb := by
        rw [findReg_middle_ne hbp]
        rw [show findReg b (pre' ++ (p, pr) :: post)
          = findReg b (pre' ++ (p, pr) :: (a, { r with usedPayload := 0 }) :: post) from
          findReg_congr_suffix (by
            rw [findReg_cons_ne (Ne.symm hbp), findReg_cons_ne (Ne.symm hbp),
              findReg_cons_ne (Ne.symm hba)])]
        rw [show pre' ++ (p, pr) :: (a, { r with usedPayload := 0 }) :: post
          = (pre' ++ [(p, pr)]) ++ (a, { r with usedPayload := 0 }) :: post from by simp]
        exact hfbG
      cases hpostC : post with
      | nil =>
        subst hpostC
        show findReg b (addToFreeList { (removeFromFreeList G0 p) with
          regions := absorbNextIn p (removeFromFreeList G0 p).regions } p).regions = some rb
        rw [addToFreeList_regions]
        show findReg b (absorbNextIn p (removeFromFreeList G0 p).regions) = some rb
        rw [habs1]
        exact hfb1
      | cons nx post' =>
        obtain ⟨n, nr⟩ := nx
        subst hpostC
        rw [List.head?_cons]
        by_cases hnru : nr.usedPayload = 0
        · show (addToFreeList (if nr.usedPayload = 0 then
              { (removeFromFreeList { (removeFromFreeList G0 p) with
                  regions := absorbNextIn p (removeFromFreeList G0 p).regions } n) with
                regions := absorbNextIn p (removeFromFreeList
                  { (removeFromFreeList G0 p) with
                    regions := absorbNextIn p (removeFromFreeList G0 p).regions } n).regions }
            else { (removeFromFreeList G0 p) with
              regions := absorbNextIn p (removeFromFreeList G0 p).regions }) p).find b = some rb
          rw [if_pos hnru]
          have hfn : findReg n G0.regions = some nr := by
            rw [hG0regs, show (pre' ++ [(p, pr)]) ++ (a, { r with usedPayload := 0 })
                :: (n, nr) :: post'
              = (pre' ++ [(p, pr), (a, { r with usedPayload := 0 })]) ++ (n, nr) :: post' from
                by simp]
            refine findReg_decomp ?_
            simp only [List.map_append, List.map_cons, List.map_nil, List.mem_append,
              List.mem_cons, List.not_mem_nil]
            push_neg
            simp only [List.map_cons, List.mem_cons] at hapost
            push_neg at hapost
            refine ⟨?_, ?_, Ne.symm hapost.1, fun x => x.elim⟩
            · intro hin
              exact hdisj (show n ∈ ((pre' ++ [(p, pr)]).map Prod.fst) by simp [hin]) (by simp)
            · intro hnp
              exact hdisj (show p ∈ ((pre' ++ [(p, pr)]).map Prod.fst) by simp) (by simp [hnp])
          have hbn : b ≠ n := by
            intro hbe
            have h1 := hfbG
            rw [hbe, ← hG0regs, hfn] at h1
            injection h1 with hh
            exact hbused (hh ▸ hnru)
          show findReg b (addToFreeList { (removeFromFreeList { (removeFromFreeList G0 p) with
              regions := absorbNextIn p (removeFromFreeList G0 p).regions } n) with
            regions := absorbNextIn p (removeFromFreeList
              { (removeFromFreeList G0 p) with
                regions := absorbNextIn p (removeFromFreeList G0 p).regions } n).regions }
            p).regions = some rb
          rw [addToFreeList_regions]
          show findReg b (absorbNextIn p (removeFromFreeList { (removeFromFreeList G0 p) with
            regions := absorbNextIn p (removeFromFreeList G0 p).regions } n).regions) = some rb
          have habs2 : absorbNextIn p (removeFromFreeList { (removeFromFreeList G0 p) with
              regions := absorbNextIn p (removeFromFreeList G0 p).regions } n).regions
              = pre' ++ (p, (⟨pr.totalSize + r.totalSize + nr.totalSize, pr.usedPayload⟩ : Reg))
                :: post' := by
            rw [removeFromFreeList_regions]
            rw [habs1]
            rw [absorbNextIn_decomp hppre']
          rw [habs2]
          rw [findReg_middle_ne (y := pr) hbp]
          rw [show findReg b (pre' ++ (p, pr) :: post')
            = findReg b (pre' ++ (p, pr) :: (n, nr) :: post') from
            findReg_congr_suffix (by
              rw [findReg_cons_ne (Ne.symm hbp), findReg_cons_ne (Ne.symm hbp),
                findReg_cons_ne (Ne.symm hbn)])]
          rw [findReg_middle_ne
            (y := (⟨pr.totalSize + r.totalSize, pr.usedPayload⟩ : Reg)) hbp]
          exact hfb1
        · show (addToFreeList (if nr.usedPayload = 0 then
              { (removeFromFreeList { (removeFromFreeList G0 p) with
                  regions := absorbNextIn p (removeFromFreeList G0 p).regions } n) with
                regions := absorbNextIn p (removeFromFreeList
                  { (removeFromFreeList G0 p) with
                    regions := absorbNextIn p (removeFromFreeList G0 p).regions } n).regions }
            else { (removeFromFreeList G0 p) with
              regions := absorbNextIn p (removeFromFreeList G0 p).regions }) p).find b = some rb
          rw [if_neg hnru]
          show findReg b (addToFreeList { (removeFromFreeList G0 p) with
            regions := absorbNextIn p (removeFromFreeList G0 p).regions } p).regions = some rb
          rw [addToFreeList_regions]
          show findReg b (absorbNextIn p (removeFromFreeList G0 p).regions) = some rb
          rw [habs1]
          exact hfb1
    · show ((match (if pr.usedPayload = 0 then
          (addToFreeList (match post.head? with
            | some (n, nr) =>
              if nr.usedPayload = 0 then
                { (removeFromFreeList { (removeFromFreeList G0 p) with
                    regions := absorbNextIn p (removeFromFreeList G0 p).regions } n) with
                  regions := absorbNextIn p (removeFromFreeList
                    { (removeFromFreeList G0 p) with
                      regions := absorbNextIn p (removeFromFreeList G0 p).regions } n).regions }
              else { (removeFromFreeList G0 p) with
                regions := absorbNextIn p (removeFromFreeList G0 p).regions }
            | none => { (removeFromFreeList G0 p) with
                regions := absorbNextIn p (removeFromFreeList G0 p).regions }) p, true)
        else mergeIntoNext G0 a) with
        | (h₁, true) => h₁
        | (h₁, false) => addToFreeList h₁ a)).find b = some rb
      rw [if_neg hpru]
      exact hnextCase

/-! ### Splitting preserves the invariant -/

theorem possiblySplitRemainder_spec {h : Heap} {a size : Nat} {r : Reg}
    (hw : WF h) (hfind : h.find a = some r) (hused : r.usedPayload = size)
    (hspos : 0 < size) : WF (possiblySplitRemainder h a size) ∧
    ∀ b rb, h.find b = some rb → rb.usedPayload ≠ 0 → b ≠ a →
      (possiblySplitRemainder h a size).find b = some rb := by
  set sp : Nat := alignUp (a + METADATA_SIZE + size) with hsp
  have hsplitEq : possiblySplitRemainder h a size =
      if MIN_REGION_SIZE ≤ subWrap (getMaxPayload r) size then
        stopUsing
          { h with
            regions := splitIn a { r with totalSize := sp - a } sp (⟨a + r.totalSize - sp, 0⟩ : Reg) h.regions }
          sp
      else h := by
    unfold possiblySplitRemainder
    rw [hfind]
  rw [hsplitEq]
  by_cases hext : MIN_REGION_SIZE ≤ subWrap (getMaxPayload r) size
  case neg =>
    rw [if_neg hext]
    exact ⟨hw, fun b rb hfb _ _ => hfb⟩
  rw [if_pos hext]
  have hmem : (a, r) ∈ h.regions := findReg_mem hfind
  obtain ⟨hsz1, hsz2, hsz3⟩ := hw.sizes (a, r) hmem
  have hsle : size ≤ getMaxPayload r := hused ▸ hsz3
  rw [subWrap_of_le hsle] at hext
  have halign : a % ALIGNMENT = 0 := contiguous_aligned hw.contig hw.headAligned
    (fun e he => (hw.sizes e he).2.1) (a, r) hmem
  have hau1 : size ≤ alignUp size := le_alignUp size
  have hau2 : alignUp size ≤ size + (ALIGNMENT - 1) := alignUp_le_add
  have hau3 : alignUp size % ALIGNMENT = 0 := alignUp_mod size
  have hsp_eq : sp = a + METADATA_SIZE + alignUp size := by
    rw [hsp]
    exact alignUp_add_left (by
      simp only [METADATA_SIZE, ALLOC_UNIT, ALIGNMENT] at halign ⊢
      omega)
  have hnum : a < sp ∧ sp < a + r.totalSize ∧ (sp - a) % ALIGNMENT = 0 ∧
      MIN_REGION_SIZE ≤ sp - a ∧ size ≤ (sp - a) - METADATA_SIZE ∧
      MIN_REGION_SIZE ≤ a + r.totalSize - sp ∧ (a + r.totalSize - sp) % ALIGNMENT = 0 ∧
      (sp - a) + (a + r.totalSize - sp) = r.totalSize := by
    simp only [getMaxPayload, MIN_REGION_SIZE, METADATA_SIZE, ALLOC_UNIT,
      ALIGNMENT] at hext hsz1 hsz2 hsp_eq hau1 hau2 hau3 halign ⊢
    omega
  obtain ⟨hn1, hn2, hn3, hn4, hn5, hn6, hn7, hn8⟩ := hnum
  obtain ⟨pre, post, hdec, hapre⟩ := findReg_split hfind
  have hpos : ∀ e ∈ h.regions, 0 < e.2.totalSize := hw.sizesPos
  have hcontigD : contiguous (pre ++ (a, r) :: post) := hdec ▸ hw.contig
  have hregs1 : splitIn a { r with totalSize := sp - a } sp
      (⟨a + r.totalSize - sp, 0⟩ : Reg) h.regions
      = pre ++ (a, { r with totalSize := sp - a })
          :: (sp, (⟨a + r.totalSize - sp, 0⟩ : Reg)) :: post := by
    rw [hdec]
    exact splitIn_decomp hapre
  have hfresh : sp ∉ h.regions.map Prod.fst := by
    rw [hdec]
    exact fresh_not_base hcontigD (fun e he => hpos e (by rw [hdec]; exact he)) hn1 hn2
  have hfrfind : findReg sp h.regions = none := findReg_eq_none hfresh
  have hnotin_sp : ∀ i, i < MAX_FREELIST_INDEX → sp ∉ flGet h i :=
    hw.not_base_not_member hfrfind
  have hfr3 : sp ∉ pre.map Prod.fst ∧ sp ≠ a ∧ sp ∉ post.map Prod.fst := by
    have hx := hfresh
    rw [hdec] at hx
    simp only [List.map_append, List.map_cons, List.mem_append, List.mem_cons] at hx
    push_neg at hx
    exact hx
  have hcontig1 : contiguous (pre ++ (a, { r with totalSize := sp - a })
      :: (sp, (⟨a + r.totalSize - sp, 0⟩ : Reg)) :: post) :=
    contiguous_split (show sp = a + (sp - a) by omega)
      (show (sp - a) + (a + r.totalSize - sp) = r.totalSize from hn8) hcontigD
  have hfindpart : ∀ b rb, h.find b = some rb → rb.usedPayload ≠ 0 → b ≠ a →
      (stopUsing
        { h with
          regions := splitIn a { r with totalSize := sp - a } sp (⟨a + r.totalSize - sp, 0⟩ : Reg) h.regions }
        sp).find b = some rb := by
    intro b rb hfb hbused hba
    have hbsp : b ≠ sp := by
      intro hbe
      exact hfresh (hbe ▸ List.mem_map_of_mem Prod.fst (findReg_mem hfb))
    have hfind_sp : Heap.find
        { h with
          regions := splitIn a { r with totalSize := sp - a } sp (⟨a + r.totalSize - sp, 0⟩ : Reg) h.regions }
        sp = some (⟨a + r.totalSize - sp, 0⟩ : Reg) := by
      show findReg sp (splitIn a { r with totalSize := sp - a } sp
        (⟨a + r.totalSize - sp, 0⟩ : Reg) h.regions) = _
      rw [hregs1, show pre ++ (a, { r with totalSize := sp - a })
          :: (sp, (⟨a + r.totalSize - sp, 0⟩ : Reg)) :: post
        = (pre ++ [(a, { r with totalSize := sp - a })])
          ++ (sp, (⟨a + r.totalSize - sp, 0⟩ : Reg)) :: post from by simp]
      refine findReg_decomp ?_
      simp only [List.map_append, List.map_cons, List.map_nil, List.mem_append,
        List.mem_cons, List.not_mem_nil]
      push_neg
      exact ⟨hfr3.1, hfr3.2.1, fun x => x.elim⟩
    have hpos1 : ∀ e ∈ pre ++ (a, { r with totalSize := sp - a })
        :: (sp, (⟨a + r.totalSize - sp, 0⟩ : Reg)) :: post, 0 < e.2.totalSize := by
      intro e he
      rcases List.mem_append.mp he with hp | hm
      · exact hpos e (by rw [hdec]; exact List.mem_append_left _ hp)
      · rcases List.mem_cons.mp hm with rfl | hm2
        · show 0 < sp - a
          omega
        · rcases List.mem_cons.mp hm2 with rfl | hm3
          · show 0 < a + r.totalSize - sp
            simp only [MIN_REGION_SIZE, METADATA_SIZE, ALLOC_UNIT, ALIGNMENT] at hn6
            omega
          · exact hpos e (by rw [hdec]; exact List.mem_append_right _ (List.mem_cons_of_mem _ hm3))
    have hnd1 : (((pre ++ (a, { r with totalSize := sp - a })
        :: (sp, (⟨a + r.totalSize - sp, 0⟩ : Reg)) :: post)).map Prod.fst).Nodup :=
      contiguous_nodup hcontig1 hpos1
    have hfb1 : Heap.find
        { h with
          regions := splitIn a { r with totalSize := sp - a } sp (⟨a + r.totalSize - sp, 0⟩ : Reg) h.regions }
        b = some rb := by
      show findReg b (splitIn a { r with totalSize := sp - a } sp
        (⟨a + r.totalSize - sp, 0⟩ : Reg) h.regions) = some rb
      rw [hregs1]
      rw [show findReg b (pre ++ (a, { r with totalSize := sp - a })
          :: (sp, (⟨a + r.totalSize - sp, 0⟩ : Reg)) :: post) = findReg b h.regions from by
        rw [hdec]
        refine findReg_congr_suffix ?_
        rw [findReg_cons_ne (Ne.symm hba), findReg_cons_ne (Ne.symm hbsp),
          findReg_cons_ne (Ne.symm hba)]]
      exact hfb
    refine stopUsing_find_used hfind_sp ?_ hfb1 hbused hbsp
    show ((splitIn a { r with totalSize := sp - a } sp
      (⟨a + r.totalSize - sp, 0⟩ : Reg) h.regions).map Prod.fst).Nodup
    rw [hregs1]
    exact hnd1
  refine ⟨?_, hfindpart⟩
  refine stopUsing_WF (r := (⟨a + r.totalSize - sp, 0⟩ : Reg))
    (u := pre ++ [(a, { r with totalSize := sp - a })]) (v := post)
    ?_ ?_ ?_ ?_ ?_ ?_ ?_ ?_ ?_ ?_ ?_ ?_
  · show splitIn a { r with totalSize := sp - a } sp
      (⟨a + r.totalSize - sp, 0⟩ : Reg) h.regions = _
    rw [hregs1]
    simp
  · exact hw.flLen
  · show contiguous (splitIn a { r with totalSize := sp - a } sp
      (⟨a + r.totalSize - sp, 0⟩ : Reg) h.regions)
    rw [hregs1]
    exact contiguous_split (show sp = a + (sp - a) by omega)
      (show (sp - a) + (a + r.totalSize - sp) = r.totalSize from hn8) hcontigD
  · show ∀ e ∈ (splitIn a { r with totalSize := sp - a } sp
      (⟨a + r.totalSize - sp, 0⟩ : Reg) h.regions).head?,
      e.1 % ALIGNMENT = 0
    rw [hregs1]
    exact head_absorb_congr (x := r) (q := post) (hdec ▸ hw.headAligned)
  · show listEnd 0 (splitIn a { r with totalSize := sp - a } sp
      (⟨a + r.totalSize - sp, 0⟩ : Reg) h.regions) = h.brk
    rw [hregs1]
    rw [listEnd_split (r := r) (show sp = a + (sp - a) by omega)
      (show (sp - a) + (a + r.totalSize - sp) = r.totalSize from hn8)]
    rw [← hdec]
    exact hw.endOK (by rw [hdec]; simp)
  · exact hw.brkOK (by rw [hdec]; simp)
  · show ∀ e ∈ splitIn a { r with totalSize := sp - a } sp
      (⟨a + r.totalSize - sp, 0⟩ : Reg) h.regions, sizeOK e.2
    rw [hregs1]
    intro e he
    rcases List.mem_append.mp he with hp | hm
    · exact hw.sizes e (by rw [hdec]; exact List.mem_append_left _ hp)
    · rcases List.mem_cons.mp hm with rfl | hm2
      · refine ⟨hn4, hn3, ?_⟩
        show r.usedPayload ≤ getMaxPayload { r with totalSize := sp - a }
        rw [hused]
        exact hn5
      · rcases List.mem_cons.mp hm2 with rfl | hm3
        · exact ⟨hn6, hn7, by simp [getMaxPayload]⟩
        · exact hw.sizes e (by rw [hdec]; exact List.mem_append_right _ (List.mem_cons_of_mem _ hm3))
  · have hnoadj : noAdjFree (pre ++ (a, r) :: post) := hdec ▸ hw.noAdj
    rw [noAdjFree, List.chain'_append] at hnoadj
    rw [noAdjFree, List.chain'_append]
    refine ⟨hnoadj.1, List.chain'_singleton _, ?_⟩
    intro x hx y hy
    simp only [List.head?_cons, Option.mem_def, Option.some.injEq] at hy
    subst hy
    intro hcon
    have hz : r.usedPayload = 0 := hcon.2
    omega
  · have hnoadj : noAdjFree (pre ++ (a, r) :: post) := hdec ▸ hw.noAdj
    rw [noAdjFree, List.chain'_append] at hnoadj
    exact (List.chain'_cons'.mp hnoadj.2.1).2
  · intro i hi
    show sp ∉ flGet h i
    exact hnotin_sp i hi
  · intro i hi b hb
    have hb2 : b ∈ flGet h i := hb
    have hs := hw.sound i hi b hb2
    obtain ⟨rb, hfb, hfreeb, hclsb⟩ := hw.member_spec hi hb2
    have hba : b ≠ a := by
      intro hba
      rw [hba, hfind] at hfb
      injection hfb with hrb
      subst hrb
      omega
    have hbsp : b ≠ sp := by
      intro hbe
      rw [hbe, show h.find sp = findReg sp h.regions from rfl, hfrfind] at hfb
      cases hfb
    have hstab : findReg b (pre ++ (a, { r with totalSize := sp - a })
        :: (sp, (⟨a + r.totalSize - sp, 0⟩ : Reg)) :: post)
        = findReg b h.regions := by
      rw [hdec]
      refine findReg_congr_suffix ?_
      rw [findReg_cons_ne (Ne.symm hba), findReg_cons_ne (Ne.symm hbsp),
        findReg_cons_ne (Ne.symm hba)]
    show freeSlotB (splitIn a { r with totalSize := sp - a } sp
      (⟨a + r.totalSize - sp, 0⟩ : Reg) h.regions) i b = true
    rw [freeSlotB, hregs1, hstab]
    rw [freeSlotB] at hs
    exact hs
  · intro i hi
    show (flGet h i).Nodup
    exact hw.nodup i hi




/-! ### Freeing a used region, and starting to use a region -/

/-- `stopUsing` on a used region of a well-formed heap keeps the heap well
formed (every public `free` path goes through this). -/
theorem stopUsing_used_WF {h : Heap} {a : Nat} {r : Reg}
    (hw : WF h) (hfind : h.find a = some r) (hused : r.usedPayload ≠ 0) :
    WF (stopUsing h a) := by
  obtain ⟨pre, post, hdec, hapre⟩ := findReg_split hfind
  have hnoadj : noAdjFree (pre ++ (a, r) :: post) := hdec ▸ hw.noAdj
  rw [noAdjFree, List.chain'_append] at hnoadj
  exact stopUsing_WF hdec hw.flLen hw.contig hw.headAligned
    (hw.endOK (by rw [hdec]; simp)) (hw.brkOK (by rw [hdec]; simp)) hw.sizes
    hnoadj.1 ((List.chain'_cons'.mp hnoadj.2.1).2)
    (hw.used_not_member hfind hused) hw.sound hw.nodup

/-- Marking an off-list region used keeps the heap well formed and
performs the expected record update. -/
theorem update_use_spec {h : Heap} {a size : Nat} {r : Reg}
    (hw : WF h) (hfind : h.find a = some r)
    (hnotin : ∀ i < MAX_FREELIST_INDEX, a ∉ flGet h i)
    (hsize : size ≤ getMaxPayload r) (hspos : 0 < size) :
    WF { h with regions := updateReg a (fun r₀ => { r₀ with usedPayload := size }) h.regions }
    ∧ Heap.find
        { h with regions := updateReg a (fun r₀ => { r₀ with usedPayload := size }) h.regions } a
        = some { r with usedPayload := size }
    ∧ ∀ b rb, h.find b = some rb → b ≠ a →
        Heap.find
          { h with regions := updateReg a (fun r₀ => { r₀ with usedPayload := size }) h.regions } b
          = some rb := by
  obtain ⟨pre, post, hdec, hapre⟩ := findReg_split hfind
  have hup : updateReg a (fun r₀ => { r₀ with usedPayload := size }) h.regions
      = pre ++ (a, { r with usedPayload := size }) :: post := by
    rw [hdec]
    exact updateReg_decomp hapre
  refine ⟨?_, ?_, ?_⟩
  · refine ⟨?_, ?_, ?_, ?_, ?_, ?_, ?_, ?_, ?_⟩
    · exact hw.flLen
    · show contiguous (updateReg a (fun r₀ => { r₀ with usedPayload := size }) h.regions)
      rw [hup]
      exact contiguous_middle_congr
        (show ({ r with usedPayload := size } : Reg).totalSize = r.totalSize from rfl)
        (hdec ▸ hw.contig)
    · show ∀ e ∈ (updateReg a (fun r₀ => { r₀ with usedPayload := size }) h.regions).head?,
        e.1 % ALIGNMENT = 0
      rw [hup]
      exact head_middle_congr (hdec ▸ hw.headAligned)
    · intro hne
      show listEnd 0 (updateReg a (fun r₀ => { r₀ with usedPayload := size }) h.regions) = h.brk
      rw [hup]
      rw [show listEnd 0 (pre ++ (a, { r with usedPayload := size }) :: post)
        = listEnd 0 (pre ++ (a, r) :: post) from listEnd_middle_congr rfl]
      rw [← hdec]
      exact hw.endOK (by rw [hdec]; simp)
    · intro hne
      exact hw.brkOK (by rw [hdec]; simp)
    · show ∀ e ∈ updateReg a (fun r₀ => { r₀ with usedPayload := size }) h.regions, sizeOK e.2
      rw [hup]
      intro e he
      rcases List.mem_append.mp he with hp | hm
      · exact hw.sizes e (by rw [hdec]; exact List.mem_append_left _ hp)
      · rcases List.mem_cons.mp hm with rfl | hp
        · obtain ⟨h1, h2, _⟩ := hw.sizes (a, r) (findReg_mem hfind)
          exact ⟨h1, h2, hsize⟩
        · exact hw.sizes e (by rw [hdec]; exact List.mem_append_right _ (List.mem_cons_of_mem _ hp))
    · show noAdjFree (updateReg a (fun r₀ => { r₀ with usedPayload := size }) h.regions)
      rw [hup]
      refine noAdjFree_middle_used ?_ (hdec ▸ hw.noAdj)
      show size ≠ 0
      omega
    · intro i hi b hb
      have hb2 : b ∈ flGet h i := hb
      have hba : b ≠ a := fun hba => hnotin i hi (hba ▸ hb2)
      show freeSlotB (updateReg a (fun r₀ => { r₀ with usedPayload := size }) h.regions) i b = true
      rw [freeSlotB, hup, findReg_middle_ne (y := r) hba, ← hdec]
      have hs := hw.sound i hi b hb2
      rw [freeSlotB] at hs
      exact hs
    · exact hw.nodup
  · show findReg a (updateReg a (fun r₀ => { r₀ with usedPayload := size }) h.regions) = _
    rw [hup]
    exact findReg_decomp hapre
  · intro b rb hfb hba
    show findReg b (updateReg a (fun r₀ => { r₀ with usedPayload := size }) h.regions) = some rb
    rw [hup, findReg_middle_ne (y := r) hba, ← hdec]
    exact hfb

/-- `useRegion` on a fitting off-list region preserves the invariant and
other regions. -/
theorem useRegion_spec {h : Heap} {a size : Nat} {r : Reg}
    (hw : WF h) (hfind : h.find a = some r)
    (hnotin : ∀ i < MAX_FREELIST_INDEX, a ∉ flGet h i)
    (hsize : size ≤ getMaxPayload r) (hspos : 0 < size) :
    WF (useRegion h a size) ∧
    ∀ b rb, h.find b = some rb → rb.usedPayload ≠ 0 → b ≠ a →
      (useRegion h a size).find b = some rb := by
  obtain ⟨hw1, hfind1, hkeep⟩ := update_use_spec hw hfind hnotin hsize hspos
  have hspec := possiblySplitRemainder_spec hw1 hfind1 rfl hspos
  constructor
  · exact hspec.1
  · intro b rb hfb hbused hba
    exact hspec.2 b rb (hkeep b rb hfb hba) hbused hba

/-- `useFreeInfo` on a fitting free-list region preserves the invariant
and all used regions. -/
theorem useFreeInfo_spec {h : Heap} {a size : Nat} {r : Reg}
    (hw : WF h) (hfind : h.find a = some r) (hfree : r.usedPayload = 0)
    (hsize : size ≤ getMaxPayload r) (hspos : 0 < size) :
    WF (useFreeInfo h a size) ∧
    ∀ b rb, h.find b = some rb → rb.usedPayload ≠ 0 →
      (useFreeInfo h a size).find b = some rb := by
  have hw1 : WF (removeFromFreeList h a) := removeFromFreeList_WF hw
  have hfind1 : (removeFromFreeList h a).find a = some r := by
    show findReg a (removeFromFreeList h a).regions = some r
    rw [removeFromFreeList_regions]
    exact hfind
  have hnotin : ∀ i < MAX_FREELIST_INDEX, a ∉ flGet (removeFromFreeList h a) i := by
    intro i hi
    rw [removeFromFreeList_flGet hfind i]
    rcases eq_or_ne (getFreeListIndex (getMaxPayload r)) i with heq | hne
    · rw [if_pos heq]
      intro hmem
      exact ((hw.nodup i hi).mem_erase_iff.mp hmem).1 rfl
    · rw [if_neg hne]
      intro hmem
      obtain ⟨r₂, hf₂, _, hcls⟩ := hw.member_spec hi hmem
      rw [hfind] at hf₂
      injection hf₂ with hh
      subst hh
      exact hne hcls
  have hspec := useRegion_spec hw1 hfind1 hnotin hsize hspos
  constructor
  · exact hspec.1
  · intro b rb hfb hbused
    have hba : b ≠ a := by
      intro hbe
      rw [hbe, hfind] at hfb
      injection hfb with hh
      exact hbused (hh ▸ hfree)
    refine hspec.2 b rb ?_ hbused hba
    show findReg b (removeFromFreeList h a).regions = some rb
    rw [removeFromFreeList_regions]
    exact hfb


/-! ### The free-list search -/

/-- A successful near-fit probe returns a member of the probed list whose
region fits. -/
theorem probeList_some {regs : List (Nat × Reg)} {size a : Nat} {l : List Nat} {tries : Nat}
    (h : probeList regs size l tries = some a) :
    ∃ r, findReg a regs = some r ∧ size ≤ getMaxPayload r ∧ a ∈ l := by
  induction l generalizing tries with
  | nil => simp [probeList] at h
  | cons a₀ t ih =>
    simp only [probeList] at h
    by_cases htries : tries < SPECULATIVE_FREELIST_TRIES
    · rw [if_pos htries] at h
      cases hf : findReg a₀ regs with
      | none =>
        rw [hf] at h
        exact Option.noConfusion (show (none : Option Nat) = some a from h)
      | some r =>
        rw [hf] at h
        have h₂ : (if size ≤ getMaxPayload r then some a₀
            else probeList regs size t (tries + 1)) = some a := h
        by_cases hfit : size ≤ getMaxPayload r
        · rw [if_pos hfit] at h₂
          injection h₂ with hh
          subst hh
          exact ⟨r, hf, hfit, by simp⟩
        · rw [if_neg hfit] at h₂
          obtain ⟨r₂, hf₂, hfit₂, hmem₂⟩ := ih h₂
          exact ⟨r₂, hf₂, hfit₂, by simp [hmem₂]⟩
    · rw [if_neg htries] at h
      exact Option.noConfusion (show (none : Option Nat) = some a from h)

/-- A failing sweep leaves the heap unchanged. -/
theorem sweepFrom_none {h : Heap} {size : Nat} :
    ∀ {fuel index : Nat}, (sweepFrom h size fuel index).2 = none →
      (sweepFrom h size fuel index).1 = h := by
  intro fuel
  induction fuel with
  | zero =>
    intro index _
    rfl
  | succ fuel ih =>
    intro index h2
    simp only [sweepFrom] at h2 ⊢
    by_cases hidx : index < MAX_FREELIST_INDEX
    · rw [if_pos hidx] at h2 ⊢
      cases hl : h.freeLists.getD index [] with
      | nil =>
        rw [hl] at h2
        exact ih h2
      | cons a₀ t =>
        rw [hl] at h2
        exact Option.noConfusion (show some a₀ = none from h2)
    · rw [if_neg hidx]

/-- A successful sweep takes the head of the first non-empty class at or
above the start index. -/
theorem sweepFrom_some {h : Heap} {size a : Nat} :
    ∀ {fuel index : Nat}, (sweepFrom h size fuel index).2 = some a →
      ∃ i, index ≤ i ∧ i < MAX_FREELIST_INDEX ∧ a ∈ flGet h i ∧
        (sweepFrom h size fuel index).1 = useFreeInfo h a size := by
  intro fuel
  induction fuel with
  | zero =>
    intro index h2
    exact Option.noConfusion (show (none : Option Nat) = some a from h2)
  | succ fuel ih =>
    intro index h2
    simp only [sweepFrom] at h2 ⊢
    by_cases hidx : index < MAX_FREELIST_INDEX
    · rw [if_pos hidx] at h2 ⊢
      cases hl : h.freeLists.getD index [] with
      | nil =>
        rw [hl] at h2
        obtain ⟨i, hge, hlt, hmem, heq⟩ := ih h2
        exact ⟨i, by omega, hlt, hmem, heq⟩
      | cons a₀ t =>
        rw [hl] at h2
        have h₃ : some a₀ = some a := h2
        injection h₃ with hh
        subst hh
        refine ⟨index, le_refl _, hidx, ?_, rfl⟩
        rw [flGet, hl]
        simp
    · rw [if_neg hidx] at h2
      exact Option.noConfusion (show (none : Option Nat) = some a from h2)

/-- A failing `tryFromFreeList` leaves the heap unchanged. -/
theorem tryFromFreeList_none {h : Heap} {size : Nat}
    (h2 : (tryFromFreeList h size).2 = none) : (tryFromFreeList h size).1 = h := by
  simp only [tryFromFreeList] at h2 ⊢
  cases hpr : (if MIN_FREELIST_INDEX < getBigEnoughFreeListIndex size ∧
      size < getMinSizeForFreeListIndex (getBigEnoughFreeListIndex size) then
      probeList h.regions size (h.freeLists.getD (getBigEnoughFreeListIndex size - 1) []) 0
    else none) with
  | some a =>
    rw [hpr] at h2
    exact Option.noConfusion (show some a = none from h2)
  | none =>
    rw [hpr] at h2
    exact sweepFrom_none h2

/-- `tryFromFreeList` preserves the invariant and every used region; a
returned address is a fitting free region of the original heap, handed to
`useFreeInfo`. -/
theorem tryFromFreeList_spec {h : Heap} {size : Nat} (hw : WF h) (hspos : 0 < size) :
    WF (tryFromFreeList h size).1 ∧
    (∀ b rb, h.find b = some rb → rb.usedPayload ≠ 0 →
      (tryFromFreeList h size).1.find b = some rb) ∧
    ∀ a, (tryFromFreeList h size).2 = some a →
      ∃ r, h.find a = some r ∧ r.usedPayload = 0 ∧ size ≤ getMaxPayload r ∧
        (tryFromFreeList h size).1 = useFreeInfo h a size := by
  have hltj : ∀ j c, c ∈ flGet h j → j < MAX_FREELIST_INDEX := by
    intro j c hc
    by_contra hge
    push_neg at hge
    have hnil : flGet h j = [] := by
      rw [flGet]
      refine List.getD_eq_default _ _ ?_
      rw [hw.flLen]
      exact hge
    rw [hnil] at hc
    cases hc
  have hmain : ∀ a, (tryFromFreeList h size).2 = some a →
      ∃ r, h.find a = some r ∧ r.usedPayload = 0 ∧ size ≤ getMaxPayload r ∧
        (tryFromFreeList h size).1 = useFreeInfo h a size := by
    intro a ha
    simp only [tryFromFreeList] at ha ⊢
    cases hpr : (if MIN_FREELIST_INDEX < getBigEnoughFreeListIndex size ∧
        size < getMinSizeForFreeListIndex (getBigEnoughFreeListIndex size) then
        probeList h.regions size (h.freeLists.getD (getBigEnoughFreeListIndex size - 1) []) 0
      else none) with
    | some a₂ =>
      rw [hpr] at ha
      have h₃ : some a₂ = some a := ha
      injection h₃ with hh
      subst hh
      have hsome : probeList h.regions size
          (h.freeLists.getD (getBigEnoughFreeListIndex size - 1) []) 0 = some a₂ := by
        by_cases hc : MIN_FREELIST_INDEX < getBigEnoughFreeListIndex size ∧
            size < getMinSizeForFreeListIndex (getBigEnoughFreeListIndex size)
        · rw [if_pos hc] at hpr
          exact hpr
        · rw [if_neg hc] at hpr
          cases hpr
      obtain ⟨r, hfr, hfit, hmem⟩ := probeList_some hsome
      have hmem2 : a₂ ∈ flGet h (getBigEnoughFreeListIndex size - 1) := hmem
      have hj : getBigEnoughFreeListIndex size - 1 < MAX_FREELIST_INDEX := hltj _ a₂ hmem2
      obtain ⟨r₂, hf₂, hfree₂, _⟩ := hw.member_spec hj hmem2
      rw [show h.find a₂ = findReg a₂ h.regions from rfl, hfr] at hf₂
      injection hf₂ with hh₂
      subst hh₂
      exact ⟨r, hfr, hfree₂, hfit, rfl⟩
    | none =>
      rw [hpr] at ha
      obtain ⟨i, hge, hlt32, hmem, heq⟩ := sweepFrom_some ha
      obtain ⟨r, hf, hfree, hcls⟩ := hw.member_spec hlt32 hmem
      have h16 : ALLOC_UNIT ≤ getMaxPayload r := by
        have := (hw.sizes (a, r) (findReg_mem hf)).1
        simp only [getMaxPayload, MIN_REGION_SIZE, METADATA_SIZE, ALLOC_UNIT, ALIGNMENT] at *
        omega
      have hfit : size ≤ getMaxPayload r := by
        calc size ≤ 2 ^ getBigEnoughFreeListIndex size := le_two_pow_getBigEnoughFreeListIndex
          _ ≤ 2 ^ i := Nat.pow_le_pow_right (by omega) hge
          _ = 2 ^ getFreeListIndex (getMaxPayload r) := by rw [hcls]
          _ ≤ getMaxPayload r := two_pow_getFreeListIndex_le h16
      exact ⟨r, hf, hfree, hfit, heq⟩
  refine ⟨?_, ?_, hmain⟩
  · cases hres : (tryFromFreeList h size).2 with
    | some a =>
      obtain ⟨r, hf, hfree, hfit, heq⟩ := hmain a hres
      rw [heq]
      exact (useFreeInfo_spec hw hf hfree hfit hspos).1
    | none =>
      rw [tryFromFreeList_none hres]
      exact hw
  · intro b rb hfb hbused
    cases hres : (tryFromFreeList h size).2 with
    | some a =>
      obtain ⟨r, hf, hfree, hfit, heq⟩ := hmain a hres
      rw [heq]
      exact (useFreeInfo_spec hw hf hfree hfit hspos).2 b rb hfb hbused
    | none =>
      rw [tryFromFreeList_none hres]
      exact hfb


/-! ### The break primitive and last-region growth -/

theorem sbrk_success {h h₁ : Heap} {n p : Nat} (hs : sbrk h n = (h₁, some p)) :
    h₁.regions = h.regions ∧ h₁.freeLists = h.freeLists ∧ h₁.brk = h.brk + n ∧
    h₁.bytes = h.bytes ∧ p = h.brk ∧ h.brk + n ≤ ADDRESS_SPACE := by
  simp only [sbrk] at hs
  split at hs
  · rename_i hok
    injection hs with h1 h2
    injection h2 with hp
    subst h1
    simp only [Bool.and_eq_true, decide_eq_true_eq] at hok
    exact ⟨rfl, rfl, rfl, rfl, hp.symm, hok.2⟩
  · injection hs with h1 h2
    exact Option.noConfusion h2

theorem sbrk_fail {h h₁ : Heap} {n : Nat} (hs : sbrk h n = (h₁, none)) :
    h₁.regions = h.regions ∧ h₁.freeLists = h.freeLists ∧ h₁.brk = h.brk ∧
    h₁.bytes = h.bytes := by
  simp only [sbrk] at hs
  split at hs
  · injection hs with h1 h2
    exact Option.noConfusion h2
  · injection hs with h1 h2
    subst h1
    exact ⟨rfl, rfl, rfl, rfl⟩

/-- Contiguity does not constrain the record of the last region. -/
theorem contiguous_last_any {la : Nat} {x y : Reg} {pre : List (Nat × Reg)}
    (h : contiguous (pre ++ [(la, x)])) : contiguous (pre ++ [(la, y)]) := by
  rw [contiguous, List.chain'_append] at h ⊢
  refine ⟨h.1, List.chain'_singleton _, ?_⟩
  intro e he e₂ he₂
  simp only [List.head?_cons, Option.mem_def, Option.some.injEq] at he₂
  subst he₂
  have := h.2.2 e he (la, x) (by simp)
  simpa using this

/-- A failing `extendLastRegion` only bumps the call counter. -/
theorem extendLastRegion_fail {h h₂ : Heap} {size : Nat}
    (hs : extendLastRegion h size = (h₂, false)) :
    h₂.regions = h.regions ∧ h₂.freeLists = h.freeLists ∧ h₂.brk = h.brk ∧
    h₂.bytes = h.bytes := by
  cases hlast : h.regions.getLast? with
  | none =>
    have heq : extendLastRegion h size = (h, false) := by
      unfold extendLastRegion
      rw [hlast]
    rw [heq] at hs
    injection hs with h1 _
    subst h1
    exact ⟨rfl, rfl, rfl, rfl⟩
  | some e =>
    obtain ⟨la, lr⟩ := e
    have heq : extendLastRegion h size =
        match sbrk h (subWrap (alignUp size) (getMaxPayload lr)) with
        | (h₁, none) => (h₁, false)
        | (h₁, some _) =>
          ({ h₁ with
            regions := updateReg la (fun r => { r with totalSize := r.totalSize + subWrap (alignUp size) (getMaxPayload lr), usedPayload := size }) h₁.regions }, true) := by
      unfold extendLastRegion
      rw [hlast]
    rw [heq] at hs
    cases hsb : sbrk h (subWrap (alignUp size) (getMaxPayload lr)) with
    | mk h₁ res =>
      rw [hsb] at hs
      cases res with
      | none =>
        have h2 : ((h₁, false) : Heap × Bool) = (h₂, false) := hs
        injection h2 with h1 _
        subst h1
        obtain ⟨hr1, hf1, hb1, hby1⟩ := sbrk_fail hsb
        exact ⟨hr1, hf1, hb1, hby1⟩
      | some p =>
        have h2 : ({ h₁ with
            regions := updateReg la
              (fun r => { r with totalSize := r.totalSize + subWrap (alignUp size) (getMaxPayload lr), usedPayload := size })
              h₁.regions }, true) = (h₂, false) := hs
        injection h2 with _ hb
        exact Bool.noConfusion hb

/-- A successful `extendLastRegion` keeps the heap well formed and leaves
every other region untouched. -/
theorem extendLastRegion_success {h h₂ : Heap} {size la : Nat} {lr : Reg}
    (hw : WF h) (hlast : h.regions.getLast? = some (la, lr))
    (hnotin : ∀ i < MAX_FREELIST_INDEX, la ∉ flGet h i)
    (hspos : 0 < size)
    (hs : extendLastRegion h size = (h₂, true)) :
    WF h₂ ∧ ∀ b rb, h.find b = some rb → b ≠ la → h₂.find b = some rb := by
  obtain ⟨pre, hdec⟩ : ∃ pre, h.regions = pre ++ [(la, lr)] := by
    rcases List.eq_nil_or_concat h.regions with h0 | ⟨pre, e, hC⟩
    · rw [h0] at hlast
      cases hlast
    · rw [List.concat_eq_append] at hC
      rw [hC, List.getLast?_concat] at hlast
      injection hlast with he
      exact ⟨pre, by rw [hC, he]⟩
  have heq : extendLastRegion h size =
      match sbrk h (subWrap (alignUp size) (getMaxPayload lr)) with
      | (h₁, none) => (h₁, false)
      | (h₁, some _) =>
        ({ h₁ with
          regions := updateReg la (fun r => { r with totalSize := r.totalSize + subWrap (alignUp size) (getMaxPayload lr), usedPayload := size }) h₁.regions }, true) := by
    unfold extendLastRegion
    rw [hlast]
  rw [heq] at hs
  cases hsb : sbrk h (subWrap (alignUp size) (getMaxPayload lr)) with
  | mk h₁ res =>
    rw [hsb] at hs
    cases res with
    | none =>
      have h2 : ((h₁, false) : Heap × Bool) = (h₂, true) := hs
      injection h2 with _ hb
      exact Bool.noConfusion hb
    | some p =>
      have h2 : ({ h₁ with
          regions := updateReg la
            (fun r => { r with totalSize := r.totalSize + subWrap (alignUp size) (getMaxPayload lr), usedPayload := size })
              h₁.regions }, true) = (h₂, true) := hs
      injection h2 with hh _
      subst hh
      obtain ⟨hr1, hf1, hb1, hby1, hp, hcap⟩ := sbrk_success hsb
      have hpos := hw.sizesPos
      have hnd : (h.regions.map Prod.fst).Nodup := contiguous_nodup hw.contig hpos
      have hlapre : la ∉ pre.map Prod.fst := by
        rw [hdec] at hnd
        simp only [List.map_append, List.map_cons, List.map_nil, List.nodup_append,
          List.nodup_cons, List.nodup_nil] at hnd
        intro hin
        exact hnd.2.2 hin (by simp)
      obtain ⟨hsz1, hsz2, hsz3⟩ := hw.sizes (la, lr) (by rw [hdec]; simp)
      have hend0 := hw.endOK (by rw [hdec]; simp)
      rw [hdec, listEnd_append] at hend0
      have hend2 : la + lr.totalSize = h.brk := by
        simpa [listEnd] using hend0
      have hau1 : size ≤ alignUp size := le_alignUp size
      have hau3 : alignUp size % ALIGNMENT = 0 := alignUp_mod size
      have hnowrap : getMaxPayload lr ≤ alignUp size := by
        by_contra hwr
        push_neg at hwr
        rw [subWrap_of_gt hwr] at hcap
        simp only [getMaxPayload, MIN_REGION_SIZE, METADATA_SIZE, ALLOC_UNIT, ALIGNMENT,
          ADDRESS_SPACE] at hsz1 hcap hwr hend2
        omega
      have hsub : subWrap (alignUp size) (getMaxPayload lr)
          = alignUp size - getMaxPayload lr := subWrap_of_le hnowrap
      have hup : updateReg la
          (fun r => { r with totalSize := r.totalSize + subWrap (alignUp size) (getMaxPayload lr), usedPayload := size }) h₁.regions
          = pre ++ [(la, (⟨lr.totalSize + subWrap (alignUp size) (getMaxPayload lr), size⟩ : Reg))] := by
        rw [hr1, hdec]
        exact updateReg_decomp hlapre
      have hflq : ∀ i, flGet { h₁ with
          regions := updateReg la
            (fun r => { r with totalSize := r.totalSize + subWrap (alignUp size) (getMaxPayload lr), usedPayload := size })
              h₁.regions } i = flGet h i := by
        intro i
        rw [flGet, flGet, hf1]
      constructor
      · refine ⟨?_, ?_, ?_, ?_, ?_, ?_, ?_, ?_, ?_⟩
        · show h₁.freeLists.length = MAX_FREELIST_INDEX
          rw [hf1]
          exact hw.flLen
        · show contiguous (updateReg la
            (fun r => { r with totalSize := r.totalSize + subWrap (alignUp size) (getMaxPayload lr), usedPayload := size }) h₁.regions)
          rw [hup]
          exact contiguous_last_any (hdec ▸ hw.contig)
        · show ∀ e ∈ (updateReg la
            (fun r => { r with totalSize := r.totalSize + subWrap (alignUp size) (getMaxPayload lr), usedPayload := size }) h₁.regions).head?, e.1 % ALIGNMENT = 0
          rw [hup]
          exact head_absorb_congr (x := lr) (q := ([] : List (Nat × Reg)))
            (hdec ▸ hw.headAligned)
        · intro hne
          show listEnd 0 (updateReg la
            (fun r => { r with totalSize := r.totalSize + subWrap (alignUp size) (getMaxPayload lr), usedPayload := size }) h₁.regions) = h₁.brk
          rw [hup, hb1]
          simp only [listEnd_append, listEnd]
          omega
        · intro hne
          show h₁.brk ≤ ADDRESS_SPACE
          rw [hb1]
          exact hcap
        · show ∀ e ∈ updateReg la
            (fun r => { r with totalSize := r.totalSize + subWrap (alignUp size) (getMaxPayload lr), usedPayload := size }) h₁.regions, sizeOK e.2
          rw [hup]
          intro e he
          rcases List.mem_append.mp he with hp2 | hm
          · exact hw.sizes e (by rw [hdec]; exact List.mem_append_left _ hp2)
          · rcases List.mem_cons.mp hm with rfl | hm2
            · refine ⟨?_, ?_, ?_⟩ <;>
                simp only [getMaxPayload, MIN_REGION_SIZE, METADATA_SIZE, ALLOC_UNIT,
                  ALIGNMENT] at hsz1 hsz2 hau1 hau3 hsub ⊢ <;>
                omega
            · cases hm2
        · show noAdjFree (updateReg la
            (fun r => { r with totalSize := r.totalSize + subWrap (alignUp size) (getMaxPayload lr), usedPayload := size }) h₁.regions)
          rw [hup]
          refine noAdjFree_middle_used ?_ (hdec ▸ hw.noAdj)
          show size ≠ 0
          omega
        · intro i hi b hb
          rw [hflq] at hb
          have hba : b ≠ la := fun hbe => hnotin i hi (hbe ▸ hb)
          show freeSlotB (updateReg la
            (fun r => { r with totalSize := r.totalSize + subWrap (alignUp size) (getMaxPayload lr), usedPayload := size }) h₁.regions) i b = true
          rw [freeSlotB, hup, findReg_middle_ne (y := lr) hba, ← hdec]
          have hsnd := hw.sound i hi b hb
          rw [freeSlotB] at hsnd
          exact hsnd
        · intro i hi
          rw [hflq]
          exact hw.nodup i hi
      · intro b rb hfb hba
        show findReg b (updateReg la
          (fun r => { r with totalSize := r.totalSize + subWrap (alignUp size) (getMaxPayload lr), usedPayload := size }) h₁.regions) = some rb
        rw [hup, findReg_middle_ne (y := lr) hba, ← hdec]
        exact hfb


/-! ### Fresh allocation -/

theorem freeSlotB_some {regs : List (Nat × Reg)} {i a : Nat}
    (h : freeSlotB regs i a = true) :
    ∃ r, findReg a regs = some r ∧ r.usedPayload = 0 ∧
      getFreeListIndex (getMaxPayload r) = i := by
  rw [freeSlotB] at h
  cases hf : findReg a regs with
  | none =>
    rw [hf] at h
    cases h
  | some r =>
    rw [hf] at h
    simp only [Bool.and_eq_true, beq_iff_eq] at h
    exact ⟨r, rfl, h.1, h.2⟩

/-- With no regions every free list is empty. -/
theorem WF.empty_lists {h : Heap} (hw : WF h) (hr : h.regions = []) :
    ∀ i, i < MAX_FREELIST_INDEX → flGet h i = [] := by
  intro i hi
  rw [List.eq_nil_iff_forall_not_mem]
  intro a hmem
  have hs := hw.sound i hi a hmem
  obtain ⟨r, hf, _, _⟩ := freeSlotB_some hs
  rw [hr] at hf
  cases hf

/-- A heap with no regions and empty free lists is well formed. -/
theorem WF_of_empty {g : Heap} (hr : g.regions = [])
    (hlen : g.freeLists.length = MAX_FREELIST_INDEX)
    (hnomem : ∀ i, i < MAX_FREELIST_INDEX → flGet g i = []) : WF g := by
  refine ⟨hlen, ?_, ?_, ?_, ?_, ?_, ?_, ?_, ?_⟩
  · rw [hr]
    exact List.chain'_nil
  · rw [hr]
    intro e he
    cases he
  · intro hne
    exact absurd hr hne
  · intro hne
    exact absurd hr hne
  · rw [hr]
    intro e he
    cases he
  · rw [noAdjFree, hr]
    exact List.chain'_nil
  · intro i hi a hmem
    rw [hnomem i hi] at hmem
    cases hmem
  · intro i hi
    rw [hnomem i hi]
    exact List.nodup_nil

/-- After `removeFromFreeList`, the removed free region is on no list. -/
theorem removeFromFreeList_notin {h : Heap} {a : Nat} {r : Reg}
    (hw : WF h) (hfind : h.find a = some r) :
    ∀ i < MAX_FREELIST_INDEX, a ∉ flGet (removeFromFreeList h a) i := by
  intro i hi
  rw [removeFromFreeList_flGet hfind i]
  rcases eq_or_ne (getFreeListIndex (getMaxPayload r)) i with heq | hne
  · rw [if_pos heq]
    intro hmem
    exact ((hw.nodup i hi).mem_erase_iff.mp hmem).1 rfl
  · rw [if_neg hne]
    intro hmem
    obtain ⟨r₂, hf₂, _, hcls⟩ := hw.member_spec hi hmem
    rw [hfind] at hf₂
    injection hf₂ with hh
    subst hh
    exact hne hcls

/-- Appending a fresh free region at the break and starting to use it
yields a well-formed heap; other used regions are untouched.  The
hypotheses describe the state right after a successful `sbrk`: the region
list still ends at `base`, but the break has already moved to
`base + sbrkSize`. -/
theorem newAllocationPlace_spec {g : Heap} {base sbrkSize size : Nat}
    (hflLen : g.freeLists.length = MAX_FREELIST_INDEX)
    (hcontig : contiguous g.regions)
    (hhead : ∀ e ∈ g.regions.head?, e.1 % ALIGNMENT = 0)
    (hsizes : ∀ e ∈ g.regions, sizeOK e.2)
    (hnoadj : noAdjFree g.regions)
    (hsound : flSound g) (hnodup : flNodup g)
    (hlastU : ∀ e ∈ g.regions.getLast?, e.2.usedPayload ≠ 0)
    (hbase : g.regions = [] ∨ base = listEnd 0 g.regions)
    (hbrk2 : base + sbrkSize = g.brk) (hcap : g.brk ≤ ADDRESS_SPACE)
    (hbalign : base % ALIGNMENT = 0)
    (hsz : sbrkSize = METADATA_SIZE + alignUp size) (hspos : 0 < size) :
    WF (newAllocationPlace g base sbrkSize size).1 ∧
    (newAllocationPlace g base sbrkSize size).2 = some base ∧
    ∀ b rb, g.find b = some rb → rb.usedPayload ≠ 0 →
      (newAllocationPlace g base sbrkSize size).1.find b = some rb := by
  have hal16 : ALIGNMENT ≤ alignUp size := alignUp_pos hspos
  have hup16 : alignUp size % ALIGNMENT = 0 := alignUp_mod size
  -- every existing base lies strictly below `base`
  have hlt : ∀ e ∈ g.regions, e.1 < base := by
    intro e he
    rcases hbase with h0 | hb
    · rw [h0] at he
      cases he
    · obtain ⟨pre, post, hdec⟩ := List.append_of_mem he
      obtain ⟨a, r⟩ := e
      have hge := listEnd_middle_ge (c := a) (d := r) (hdec ▸ hcontig)
      have hpos : 0 < r.totalSize := by
        have := (hsizes (a, r) he).1
        simp only [MIN_REGION_SIZE, METADATA_SIZE, ALLOC_UNIT, ALIGNMENT] at this
        omega
      rw [hb, hdec]
      simp only at hge ⊢
      omega
  have hnb : base ∉ g.regions.map Prod.fst := by
    intro hmem
    obtain ⟨e, he, heq⟩ := List.mem_map.mp hmem
    have := hlt e he
    omega
  have hfind3 : findReg base (g.regions ++ [(base, (⟨sbrkSize, 0⟩ : Reg))])
      = some (⟨sbrkSize, 0⟩ : Reg) := by
    rw [show g.regions ++ [(base, (⟨sbrkSize, 0⟩ : Reg))]
      = g.regions ++ (base, (⟨sbrkSize, 0⟩ : Reg)) :: [] from rfl]
    exact findReg_decomp hnb
  have hfstab : ∀ b, b ≠ base →
      findReg b (g.regions ++ [(base, (⟨sbrkSize, 0⟩ : Reg))]) = findReg b g.regions := by
    intro b hbne
    rw [findReg_append]
    cases hf : findReg b g.regions with
    | some r => rfl
    | none =>
      show findReg b [(base, (⟨sbrkSize, 0⟩ : Reg))] = none
      rw [findReg_cons_ne (Ne.symm hbne)]
      rfl
  have hw3 : WF { g with regions := g.regions ++ [(base, (⟨sbrkSize, 0⟩ : Reg))] } := by
    refine ⟨hflLen, ?_, ?_, ?_, ?_, ?_, ?_, ?_, ?_⟩
    · show contiguous (g.regions ++ [(base, (⟨sbrkSize, 0⟩ : Reg))])
      rw [contiguous, List.chain'_append]
      refine ⟨hcontig, List.chain'_singleton _, ?_⟩
      intro e he e₂ he₂
      simp only [List.head?_cons, Option.mem_def, Option.some.injEq] at he₂
      subst he₂
      rcases hbase with h0 | hb
      · rw [h0] at he
        cases he
      · rcases List.eq_nil_or_concat g.regions with h0 | ⟨pre, e₃, hC⟩
        · rw [h0] at he
          cases he
        · rw [List.concat_eq_append] at hC
          rw [hC, List.getLast?_concat, Option.mem_def, Option.some.injEq] at he
          subst he
          obtain ⟨la, lr⟩ := e₃
          show base = la + lr.totalSize
          rw [hb, hC, listEnd_append]
          simp [listEnd]
    · show ∀ e ∈ (g.regions ++ [(base, (⟨sbrkSize, 0⟩ : Reg))]).head?, e.1 % ALIGNMENT = 0
      cases hgr : g.regions with
      | nil =>
        intro e he
        simp only [hgr, List.nil_append, List.head?_cons, Option.mem_def,
          Option.some.injEq] at he
        subst he
        exact hbalign
      | cons e₀ t =>
        intro e he
        rw [List.cons_append, List.head?_cons] at he
        simp only [Option.mem_def, Option.some.injEq] at he
        subst he
        exact hhead e₀ (by rw [hgr]; simp)
    · intro hne
      show listEnd 0 (g.regions ++ [(base, (⟨sbrkSize, 0⟩ : Reg))]) = g.brk
      rw [listEnd_append]
      show base + sbrkSize = g.brk
      exact hbrk2
    · intro hne
      exact hcap
    · intro e he
      rcases List.mem_append.mp he with hp | hm
      · exact hsizes e hp
      · rcases List.mem_cons.mp hm with rfl | hm2
        · refine ⟨?_, ?_, ?_⟩ <;>
            simp only [getMaxPayload, MIN_REGION_SIZE, METADATA_SIZE, ALLOC_UNIT,
              ALIGNMENT] at hsz hal16 hup16 ⊢ <;>
            omega
        · cases hm2
    · show noAdjFree (g.regions ++ [(base, (⟨sbrkSize, 0⟩ : Reg))])
      rw [noAdjFree, List.chain'_append]
      refine ⟨hnoadj, List.chain'_singleton _, ?_⟩
      intro e he e₂ he₂
      simp only [List.head?_cons, Option.mem_def, Option.some.injEq] at he₂
      subst he₂
      intro hcon
      exact hlastU e he hcon.1
    · intro i hi b hb
      have hs := hsound i hi b hb
      obtain ⟨r, hf, _, _⟩ := freeSlotB_some hs
      have hbne : b ≠ base := by
        intro hbe
        subst hbe
        exact hnb (List.mem_map_of_mem Prod.fst (findReg_mem hf))
      show freeSlotB (g.regions ++ [(base, (⟨sbrkSize, 0⟩ : Reg))]) i b = true
      rw [freeSlotB, hfstab b hbne]
      rw [freeSlotB] at hs
      exact hs
    · exact hnodup
  have hfind3g : Heap.find { g with regions := g.regions ++ [(base, (⟨sbrkSize, 0⟩ : Reg))] } base
      = some (⟨sbrkSize, 0⟩ : Reg) := hfind3
  have hnotin3 : ∀ i < MAX_FREELIST_INDEX,
      base ∉ flGet { g with regions := g.regions ++ [(base, (⟨sbrkSize, 0⟩ : Reg))] } i := by
    intro i hi hmem
    have hmem2 : base ∈ flGet g i := hmem
    have hs := hsound i hi base hmem2
    obtain ⟨r, hf, _, _⟩ := freeSlotB_some hs
    exact hnb (List.mem_map_of_mem Prod.fst (findReg_mem hf))
  have hsize3 : size ≤ getMaxPayload (⟨sbrkSize, 0⟩ : Reg) := by
    simp only [getMaxPayload, METADATA_SIZE, ALLOC_UNIT, ALIGNMENT] at hsz ⊢
    have := le_alignUp size
    omega
  have hspec := useRegion_spec hw3 hfind3g hnotin3 hsize3 hspos
  refine ⟨hspec.1, rfl, ?_⟩
  intro b rb hfb hbused
  have hbne : b ≠ base := by
    intro hbe
    subst hbe
    exact hnb (List.mem_map_of_mem Prod.fst (findReg_mem hfb))
  refine hspec.2 b rb ?_ hbused hbne
  show findReg b (g.regions ++ [(base, (⟨sbrkSize, 0⟩ : Reg))]) = some rb
  rw [hfstab b hbne]
  exact hfb


/-- `newAllocationFresh` preserves the invariant, returns aligned bases
and keeps every used region (the alignment fix-up request can only occur
before the first region exists). -/
theorem newAllocationFresh_spec {h : Heap} {size : Nat} (hw : WF h) (hspos : 0 < size)
    (halign : h.regions = [] ∨ h.brk % ALIGNMENT = 0)
    (hlastU : ∀ e ∈ h.regions.getLast?, e.2.usedPayload ≠ 0) :
    WF (newAllocationFresh h size).1 ∧
    (∀ a, (newAllocationFresh h size).2 = some a → a % ALIGNMENT = 0) ∧
    ∀ b rb, h.find b = some rb → rb.usedPayload ≠ 0 →
      (newAllocationFresh h size).1.find b = some rb := by
  have heq : newAllocationFresh h size =
      match sbrk h (METADATA_SIZE + alignUp size) with
      | (h₁, none) => (h₁, none)
      | (h₁, some ptr) =>
        if ptr ≠ alignUp ptr then
          match sbrk h₁ (alignUp ptr - ptr) with
          | (h₂, none) => (h₂, none)
          | (h₂, some _) => newAllocationPlace h₂ (alignUp ptr) (METADATA_SIZE + alignUp size) size
        else newAllocationPlace h₁ (alignUp ptr) (METADATA_SIZE + alignUp size) size := by
    unfold newAllocationFresh
    rfl
  rw [heq]
  cases hsb : sbrk h (METADATA_SIZE + alignUp size) with
  | mk h₁ res =>
    cases res with
    | none =>
      obtain ⟨hr1, hf1, hb1, hby1⟩ := sbrk_fail hsb
      refine ⟨WF_congr hr1 hf1 hb1 hw, ?_, ?_⟩
      · intro a ha
        exact Option.noConfusion (show (none : Option Nat) = some a from ha)
      · intro b rb hfb hbused
        show findReg b h₁.regions = some rb
        rw [hr1]
        exact hfb
    | some ptr =>
      obtain ⟨hr1, hf1, hb1, hby1, hp, hcap⟩ := sbrk_success hsb
      subst hp
      have hflq1 : ∀ i, flGet h₁ i = flGet h i := by
        intro i
        rw [flGet, flGet, hf1]
      have heq2 : (match ((h₁, some h.brk) : Heap × Option Nat) with
          | (h₁, none) => (h₁, none)
          | (h₁, some ptr) =>
            if ptr ≠ alignUp ptr then
              match sbrk h₁ (alignUp ptr - ptr) with
              | (h₂, none) => (h₂, none)
              | (h₂, some _) => newAllocationPlace h₂ (alignUp ptr) (METADATA_SIZE + alignUp size) size
            else newAllocationPlace h₁ (alignUp ptr) (METADATA_SIZE + alignUp size) size)
          = (if h.brk ≠ alignUp h.brk then
              match sbrk h₁ (alignUp h.brk - h.brk) with
              | (h₂, none) => (h₂, none)
              | (h₂, some _) => newAllocationPlace h₂ (alignUp h.brk) (METADATA_SIZE + alignUp size) size
            else newAllocationPlace h₁ (alignUp h.brk) (METADATA_SIZE + alignUp size) size) := rfl
      rw [heq2]
      by_cases hfix : h.brk ≠ alignUp h.brk
      · -- unaligned break: only possible on an empty heap
        rw [if_pos hfix]
        have hempty : h.regions = [] := by
          rcases halign with h0 | hal
          · exact h0
          · exact absurd (alignUp_of_aligned hal).symm hfix
        cases hsb2 : sbrk h₁ (alignUp h.brk - h.brk) with
        | mk h₂ res₂ =>
          cases res₂ with
          | none =>
            obtain ⟨hr2, hf2, hb2, hby2⟩ := sbrk_fail hsb2
            have hr2' : h₂.regions = [] := by rw [hr2, hr1, hempty]
            refine ⟨?_, ?_, ?_⟩
            · refine WF_of_empty hr2' ?_ ?_
              · rw [hf2, hf1]
                exact hw.flLen
              · intro i hi
                rw [flGet, hf2, hf1]
                exact hw.empty_lists hempty i hi
            · intro a ha
              exact Option.noConfusion (show (none : Option Nat) = some a from ha)
            · intro b rb hfb hbused
              rw [show h.find b = findReg b h.regions from rfl, hempty] at hfb
              cases hfb
          | some q =>
            obtain ⟨hr2, hf2, hb2, hby2, hq, hcap2⟩ := sbrk_success hsb2
            have hr2' : h₂.regions = [] := by rw [hr2, hr1, hempty]
            have hspec := @newAllocationPlace_spec h₂ (alignUp h.brk)
              (METADATA_SIZE + alignUp size) size
              (by rw [hf2, hf1]; exact hw.flLen)
              (by rw [hr2']; exact List.chain'_nil)
              (by rw [hr2']; intro e he; cases he)
              (by rw [hr2']; intro e he; cases he)
              (by rw [noAdjFree, hr2']; exact List.chain'_nil)
              (by
                intro i hi b hb
                rw [show flGet h₂ i = flGet h i from by rw [flGet, flGet, hf2, hf1],
                  hw.empty_lists hempty i hi] at hb
                cases hb)
              (by
                intro i hi
                rw [show flGet h₂ i = flGet h i from by rw [flGet, flGet, hf2, hf1],
                  hw.empty_lists hempty i hi]
                exact List.nodup_nil)
              (by rw [hr2']; intro e he; cases he)
              (Or.inl hr2')
              (by
                rw [hb2, hb1]
                have := le_alignUp h.brk
                omega)
              (by rw [hb2]; exact hcap2)
              (alignUp_mod h.brk) rfl hspos
            refine ⟨hspec.1, ?_, ?_⟩
            · intro a ha
              rw [hspec.2.1] at ha
              injection ha with hh
              subst hh
              exact alignUp_mod h.brk
            · intro b rb hfb hbused
              rw [show h.find b = findReg b h.regions from rfl, hempty] at hfb
              cases hfb
      · -- aligned break: place directly after the last region
        rw [if_neg hfix]
        push_neg at hfix
        have hspec := @newAllocationPlace_spec h₁ (alignUp h.brk)
          (METADATA_SIZE + alignUp size) size
          (by rw [hf1]; exact hw.flLen)
          (by rw [hr1]; exact hw.contig)
          (by rw [hr1]; exact hw.headAligned)
          (by rw [hr1]; exact hw.sizes)
          (by rw [hr1]; exact hw.noAdj)
          (by
            intro i hi b hb
            rw [hflq1] at hb
            have hs := hw.sound i hi b hb
            show freeSlotB h₁.regions i b = true
            rw [hr1]
            exact hs)
          (by
            intro i hi
            rw [hflq1]
            exact hw.nodup i hi)
          (by rw [hr1]; exact hlastU)
          (by
            rcases List.eq_nil_or_concat h.regions with h0 | ⟨pre, e, hC⟩
            · exact Or.inl (by rw [hr1, h0])
            · refine Or.inr ?_
              rw [hr1, ← hfix]
              exact (hw.endOK (by rw [List.concat_eq_append] at hC; rw [hC]; simp)).symm)
          (by rw [hb1, ← hfix])
          (by rw [hb1]; exact hcap)
          (alignUp_mod h.brk) rfl hspos
        refine ⟨hspec.1, ?_, ?_⟩
        · intro a ha
          rw [hspec.2.1] at ha
          injection ha with hh
          subst hh
          exact alignUp_mod h.brk
        · intro b rb hfb hbused
          refine hspec.2.2 b rb ?_ hbused
          show findReg b h₁.regions = some rb
          rw [hr1]
          exact hfb


/-- `newAllocation` preserves the invariant (even on `sbrk` failure, where
a free last region may be left off the free lists), returns aligned bases,
and preserves the used payload of every used region. -/
theorem newAllocation_spec {h : Heap} {size : Nat} (hw : WF h) (hspos : 0 < size) :
    WF (newAllocation h size).1 ∧
    (∀ a, (newAllocation h size).2 = some a → a % ALIGNMENT = 0) ∧
    ∀ b rb, h.find b = some rb → rb.usedPayload ≠ 0 →
      ∃ rb', (newAllocation h size).1.find b = some rb' ∧
        rb'.usedPayload = rb.usedPayload := by
  cases hlast : h.regions.getLast? with
  | none =>
    have hempty : h.regions = [] := List.getLast?_eq_none_iff.mp hlast
    have heq : newAllocation h size = newAllocationFresh h size := by
      unfold newAllocation
      rw [hlast]
    rw [heq]
    have hspec := newAllocationFresh_spec hw hspos (Or.inl hempty)
      (by rw [hlast]; intro e he; cases he)
    exact ⟨hspec.1, hspec.2.1,
      fun b rb hfb hbu => ⟨rb, hspec.2.2 b rb hfb hbu, rfl⟩⟩
  | some e =>
    obtain ⟨la, lr⟩ := e
    have hmemla : (la, lr) ∈ h.regions := List.mem_of_mem_getLast? hlast
    have hfindla : h.find la = some lr := hw.findReg_of_mem hmemla
    have hlaAl : la % ALIGNMENT = 0 := contiguous_aligned hw.contig hw.headAligned
      (fun e he => (hw.sizes e he).2.1) (la, lr) hmemla
    obtain ⟨hszla1, hszla2, hszla3⟩ := hw.sizes (la, lr) hmemla
    obtain ⟨pre, hdec⟩ : ∃ pre, h.regions = pre ++ [(la, lr)] := by
      rcases List.eq_nil_or_concat h.regions with h0 | ⟨pre, e, hC⟩
      · rw [h0] at hlast
        cases hlast
      · rw [List.concat_eq_append] at hC
        rw [hC, List.getLast?_concat] at hlast
        injection hlast with he
        exact ⟨pre, by rw [hC, he]⟩
    have hend2 : la + lr.totalSize = h.brk := by
      have hend0 := hw.endOK (by rw [hdec]; simp)
      rw [hdec, listEnd_append] at hend0
      simpa [listEnd] using hend0
    by_cases hfree : lr.usedPayload = 0
    · -- strategy 1: extend the free last region
      have heq : newAllocation h size =
          match extendLastRegion (removeFromFreeList h la) size with
          | (h₂, true) => (h₂, some la)
          | (h₂, false) => (h₂, none) := by
        unfold newAllocation
        rw [hlast]
        exact if_pos hfree
      rw [heq]
      have hw1 := removeFromFreeList_WF (a := la) hw
      have hnotin1 := removeFromFreeList_notin hw hfindla
      have hlast1 : (removeFromFreeList h la).regions.getLast? = some (la, lr) := by
        rw [removeFromFreeList_regions]
        exact hlast
      cases hext : extendLastRegion (removeFromFreeList h la) size with
      | mk h₂ ok =>
        cases ok with
        | true =>
          obtain ⟨hwf2, hpres⟩ := extendLastRegion_success hw1 hlast1 hnotin1 hspos hext
          refine ⟨hwf2, ?_, ?_⟩
          · intro a ha
            have h2 : some la = some a := ha
            injection h2 with hh
            subst hh
            exact hlaAl
          · intro b rb hfb hbused
            have hba : b ≠ la := by
              intro hbe
              rw [hbe, hfindla] at hfb
              injection hfb with hh
              exact hbused (hh ▸ hfree)
            refine ⟨rb, ?_, rfl⟩
            refine hpres b rb ?_ hba
            show findReg b (removeFromFreeList h la).regions = some rb
            rw [removeFromFreeList_regions]
            exact hfb
        | false =>
          obtain ⟨hr2, hf2, hb2, hby2⟩ := extendLastRegion_fail hext
          refine ⟨WF_congr hr2 hf2 hb2 hw1, ?_, ?_⟩
          · intro a ha
            exact Option.noConfusion (show (none : Option Nat) = some a from ha)
          · intro b rb hfb hbused
            refine ⟨rb, ?_, rfl⟩
            show findReg b h₂.regions = some rb
            rw [hr2, removeFromFreeList_regions]
            exact hfb
    · -- used last region
      have heqElse : newAllocation h size =
          (if 0 < subWrap (getMaxPayload lr) (alignUp lr.usedPayload) then
            match sbrk h (subWrap (METADATA_SIZE + alignUp size)
                (subWrap (getMaxPayload lr) (alignUp lr.usedPayload))) with
            | (h₁, none) => (h₁, none)
            | (h₁, some ptr) =>
              ({ h₁ with regions := updateReg la (fun r => { r with totalSize := r.totalSize - subWrap (getMaxPayload lr) (alignUp lr.usedPayload) }) h₁.regions ++ [(ptr - subWrap (getMaxPayload lr) (alignUp lr.usedPayload), { totalSize := subWrap (METADATA_SIZE + alignUp size) (subWrap (getMaxPayload lr) (alignUp lr.usedPayload)) + subWrap (getMaxPayload lr) (alignUp lr.usedPayload), usedPayload := size })] },
                some (ptr - subWrap (getMaxPayload lr) (alignUp lr.usedPayload)))
          else newAllocationFresh h size) := by
        unfold newAllocation
        rw [hlast]
        exact if_neg hfree
      by_cases husable : 0 < subWrap (getMaxPayload lr) (alignUp lr.usedPayload)
      · -- strategy 2: use the aligned slack at the end of the last region
        rw [heqElse, if_pos husable]
        have hUle : alignUp lr.usedPayload ≤ getMaxPayload lr := by
          refine alignUp_le hszla3 ?_
          simp only [getMaxPayload, METADATA_SIZE, ALLOC_UNIT, ALIGNMENT] at hszla2 ⊢
          omega
        have hUsub : subWrap (getMaxPayload lr) (alignUp lr.usedPayload)
            = getMaxPayload lr - alignUp lr.usedPayload := subWrap_of_le hUle
        have haU16 : ALIGNMENT ≤ alignUp lr.usedPayload := by
          refine alignUp_pos ?_
          omega
        have haUmod : alignUp lr.usedPayload % ALIGNMENT = 0 := alignUp_mod _
        have haSmod : alignUp size % ALIGNMENT = 0 := alignUp_mod _
        have haS16 : ALIGNMENT ≤ alignUp size := alignUp_pos hspos
        have haSge : size ≤ alignUp size := le_alignUp size
        have haUge : lr.usedPayload ≤ alignUp lr.usedPayload := le_alignUp _
        cases hsb : sbrk h (subWrap (METADATA_SIZE + alignUp size)
            (subWrap (getMaxPayload lr) (alignUp lr.usedPayload))) with
        | mk h₁ res =>
          cases res with
          | none =>
            obtain ⟨hr1, hf1, hb1, hby1⟩ := sbrk_fail hsb
            refine ⟨WF_congr hr1 hf1 hb1 hw, ?_, ?_⟩
            · intro a ha
              exact Option.noConfusion (show (none : Option Nat) = some a from ha)
            · intro b rb hfb hbused
              refine ⟨rb, ?_, rfl⟩
              show findReg b h₁.regions = some rb
              rw [hr1]
              exact hfb
          | some ptr =>
            obtain ⟨hr1, hf1, hb1, hby1, hp, hcap⟩ := sbrk_success hsb
            subst hp
            have hnowrap : subWrap (getMaxPayload lr) (alignUp lr.usedPayload)
                ≤ METADATA_SIZE + alignUp size := by
              by_contra hwr
              push_neg at hwr
              rw [subWrap_of_gt hwr] at hcap
              rw [hUsub] at hwr hcap
              simp only [getMaxPayload, MIN_REGION_SIZE, METADATA_SIZE, ALLOC_UNIT,
                ALIGNMENT, ADDRESS_SPACE] at hszla1 hcap hwr hend2
              omega
            have hsbeq : subWrap (METADATA_SIZE + alignUp size)
                (subWrap (getMaxPayload lr) (alignUp lr.usedPayload))
                = METADATA_SIZE + alignUp size
                  - subWrap (getMaxPayload lr) (alignUp lr.usedPayload) :=
              subWrap_of_le hnowrap
            have hnd : (h.regions.map Prod.fst).Nodup :=
              contiguous_nodup hw.contig hw.sizesPos
            have hlapre : la ∉ pre.map Prod.fst := by
              rw [hdec] at hnd
              simp only [List.map_append, List.map_cons, List.map_nil, List.nodup_append,
                List.nodup_cons, List.nodup_nil] at hnd
              intro hin
              exact hnd.2.2 hin (by simp)
            set U : Nat := subWrap (getMaxPayload lr) (alignUp lr.usedPayload) with hU
            set SB : Nat := subWrap (METADATA_SIZE + alignUp size) U with hSB
            have hup : updateReg la (fun r => { r with totalSize := r.totalSize - U }) h₁.regions
                = pre ++ [(la, (⟨lr.totalSize - U, lr.usedPayload⟩ : Reg))] := by
              rw [hr1, hdec]
              exact updateReg_decomp hlapre
            have hA : la < h.brk - U ∧ h.brk - U = la + (lr.totalSize - U) ∧
                (h.brk - U) % ALIGNMENT = 0 ∧
                MIN_REGION_SIZE ≤ lr.totalSize - U ∧ (lr.totalSize - U) % ALIGNMENT = 0 ∧
                lr.usedPayload ≤ (lr.totalSize - U) - METADATA_SIZE ∧
                MIN_REGION_SIZE ≤ SB + U ∧ (SB + U) % ALIGNMENT = 0 ∧
                size ≤ (SB + U) - METADATA_SIZE ∧
                (h.brk - U) + (SB + U) = h.brk + SB := by
              simp only [getMaxPayload, MIN_REGION_SIZE, METADATA_SIZE, ALLOC_UNIT, ALIGNMENT] at hszla1 hszla2 hszla3 hUsub hsbeq hend2 haU16 haUmod haSmod haS16 haSge haUge hlaAl husable hUle hnowrap
              simp only [MIN_REGION_SIZE, METADATA_SIZE, ALLOC_UNIT, ALIGNMENT]
              omega
            have hcontigD : contiguous (pre ++ (la, lr) :: ([] : List (Nat × Reg))) :=
              hdec ▸ hw.contig
            have hfree2 : lr.usedPayload ≠ 0 := hfree
            have hbases : ∀ e ∈ h.regions, e.1 < h.brk - U := by
              rw [hdec]
              intro e he
              rcases List.mem_append.mp he with hp2 | hm
              · have := contiguous_pre_lt (q := ([] : List (Nat × Reg))) hcontigD
                  (fun e₂ he₂ => hw.sizesPos e₂ (by rw [hdec]; exact List.mem_append_left _ he₂))
                  e hp2
                omega
              · rcases List.mem_cons.mp hm with rfl | hm2
                · exact hA.1
                · cases hm2
            have hassoc : (pre ++ [(la, (⟨lr.totalSize - U, lr.usedPayload⟩ : Reg))])
                ++ [(h.brk - U, ({ totalSize := SB + U, usedPayload := size } : Reg))]
                = pre ++ (la, (⟨lr.totalSize - U, lr.usedPayload⟩ : Reg))
                  :: [(h.brk - U, ({ totalSize := SB + U, usedPayload := size } : Reg))] := by
              simp
            have hstab : ∀ b, b ≠ la → b ≠ h.brk - U →
                findReg b (pre ++ (la, (⟨lr.totalSize - U, lr.usedPayload⟩ : Reg))
                  :: [(h.brk - U, ({ totalSize := SB + U, usedPayload := size } : Reg))])
                = findReg b h.regions := by
              intro b hba hbb
              rw [hdec]
              refine findReg_congr_suffix ?_
              rw [findReg_cons_ne (Ne.symm hba), findReg_cons_ne (Ne.symm hbb),
                findReg_cons_ne (Ne.symm hba)]
            refine ⟨?_, ?_, ?_⟩
            · show WF { h₁ with
                regions := updateReg la (fun r => { r with totalSize := r.totalSize - U }) h₁.regions ++ [(h.brk - U, ({ totalSize := SB + U, usedPayload := size } : Reg))] }
              refine ⟨?_, ?_, ?_, ?_, ?_, ?_, ?_, ?_, ?_⟩
              · show h₁.freeLists.length = MAX_FREELIST_INDEX
                rw [hf1]
                exact hw.flLen
              · show contiguous (updateReg la (fun r => { r with totalSize := r.totalSize - U }) h₁.regions ++ [(h.brk - U, ({ totalSize := SB + U, usedPayload := size } : Reg))])
                rw [hup, hassoc, contiguous, List.chain'_append]
                rw [contiguous, List.chain'_append] at hcontigD
                refine ⟨hcontigD.1, ?_, ?_⟩
                · rw [List.chain'_cons]
                  refine ⟨?_, List.chain'_singleton _⟩
                  show h.brk - U = la + (lr.totalSize - U)
                  exact hA.2.1
                · intro e he e₂ he₂
                  simp only [List.head?_cons, Option.mem_def, Option.some.injEq] at he₂
                  subst he₂
                  have := hcontigD.2.2 e he (la, lr) (by simp)
                  simpa using this
              · show ∀ e ∈ (updateReg la (fun r => { r with totalSize := r.totalSize - U }) h₁.regions ++ [(h.brk - U, ({ totalSize := SB + U, usedPayload := size } : Reg))]).head?, e.1 % ALIGNMENT = 0
                rw [hup, hassoc]
                exact head_absorb_congr (x := lr) (q := ([] : List (Nat × Reg)))
                  (hdec ▸ hw.headAligned)
              · intro hne
                show listEnd 0 (updateReg la (fun r => { r with totalSize := r.totalSize - U }) h₁.regions ++ [(h.brk - U, ({ totalSize := SB + U, usedPayload := size } : Reg))]) = h₁.brk
                rw [hup, hassoc, hb1]
                simp only [listEnd_append, listEnd]
                exact hA.2.2.2.2.2.2.2.2.2
              · intro hne
                show h₁.brk ≤ ADDRESS_SPACE
                rw [hb1]
                exact hcap
              · show ∀ e ∈ updateReg la (fun r => { r with totalSize := r.totalSize - U }) h₁.regions ++ [(h.brk - U, ({ totalSize := SB + U, usedPayload := size } : Reg))], sizeOK e.2
                rw [hup, hassoc]
                intro e he
                rcases List.mem_append.mp he with hp2 | hm
                · exact hw.sizes e (by rw [hdec]; exact List.mem_append_left _ hp2)
                · rcases List.mem_cons.mp hm with rfl | hm2
                  · exact ⟨hA.2.2.2.1, hA.2.2.2.2.1, hA.2.2.2.2.2.1⟩
                  · rcases List.mem_cons.mp hm2 with rfl | hm3
                    · exact ⟨hA.2.2.2.2.2.2.1, hA.2.2.2.2.2.2.2.1, hA.2.2.2.2.2.2.2.2.1⟩
                    · cases hm3
              · show noAdjFree (updateReg la (fun r => { r with totalSize := r.totalSize - U }) h₁.regions ++ [(h.brk - U, ({ totalSize := SB + U, usedPayload := size } : Reg))])
                rw [hup, hassoc, noAdjFree, List.chain'_append]
                have hnoadjD : noAdjFree (pre ++ (la, lr) :: ([] : List (Nat × Reg))) :=
                  hdec ▸ hw.noAdj
                rw [noAdjFree, List.chain'_append] at hnoadjD
                refine ⟨hnoadjD.1, ?_, ?_⟩
                · rw [List.chain'_cons]
                  refine ⟨?_, List.chain'_singleton _⟩
                  intro hcon
                  exact hfree2 hcon.1
                · intro e he e₂ he₂
                  simp only [List.head?_cons, Option.mem_def, Option.some.injEq] at he₂
                  subst he₂
                  intro hcon
                  exact hfree2 hcon.2
              · intro i hi b hb
                have hb2 : b ∈ flGet h i := by
                  rw [show flGet { h₁ with
                      regions := updateReg la (fun r => { r with totalSize := r.totalSize - U }) h₁.regions ++ [(h.brk - U, ({ totalSize := SB + U, usedPayload := size } : Reg))] } i
                    = flGet h i from by rw [flGet, flGet, hf1]] at hb
                  exact hb
                have hs := hw.sound i hi b hb2
                obtain ⟨r₃, hf₃, _, _⟩ := freeSlotB_some hs
                have hba : b ≠ la := by
                  intro hbe
                  exact hw.used_not_member hfindla hfree2 i hi (hbe ▸ hb2)
                have hbb : b ≠ h.brk - U := by
                  intro hbe
                  have := hbases (b, r₃) (findReg_mem hf₃)
                  simp only at this
                  omega
                show freeSlotB (updateReg la (fun r => { r with totalSize := r.totalSize - U }) h₁.regions ++ [(h.brk - U, ({ totalSize := SB + U, usedPayload := size } : Reg))]) i b = true
                rw [freeSlotB, hup, hassoc, hstab b hba hbb]
                rw [freeSlotB] at hs
                exact hs
              · intro i hi
                rw [show flGet { h₁ with
                    regions := updateReg la (fun r => { r with totalSize := r.totalSize - U }) h₁.regions ++ [(h.brk - U, ({ totalSize := SB + U, usedPayload := size } : Reg))] } i
                  = flGet h i from by rw [flGet, flGet, hf1]]
                exact hw.nodup i hi
            · intro a ha
              have h2 : some (h.brk - U) = some a := ha
              injection h2 with hh
              subst hh
              exact hA.2.2.1
            · intro b rb hfb hbused
              by_cases hbla : b = la
              · rw [hbla, hfindla] at hfb
                injection hfb with hh
                subst hh
                refine ⟨(⟨lr.totalSize - U, lr.usedPayload⟩ : Reg), ?_, rfl⟩
                rw [hbla]
                show findReg la (updateReg la (fun r => { r with totalSize := r.totalSize - U }) h₁.regions ++ [(h.brk - U, ({ totalSize := SB + U, usedPayload := size } : Reg))]) = _
                rw [hup, hassoc]
                exact findReg_decomp hlapre
              · have hbb : b ≠ h.brk - U := by
                  intro hbe
                  have := hbases (b, rb) (findReg_mem hfb)
                  simp only at this
                  omega
                refine ⟨rb, ?_, rfl⟩
                show findReg b (updateReg la (fun r => { r with totalSize := r.totalSize - U }) h₁.regions ++ [(h.brk - U, ({ totalSize := SB + U, usedPayload := size } : Reg))]) = some rb
                rw [hup, hassoc, hstab b hbla hbb]
                exact hfb
      · -- strategy 3: the slack is zero, request brand-new space
        rw [heqElse, if_neg husable]
        have halign : h.regions = [] ∨ h.brk % ALIGNMENT = 0 := by
          refine Or.inr ?_
          simp only [ALIGNMENT] at hlaAl hszla2 ⊢
          omega
        have hspec := newAllocationFresh_spec hw hspos halign
          (by
            rw [hlast]
            intro e he
            simp only [Option.mem_def, Option.some.injEq] at he
            subst he
            exact hfree)
        exact ⟨hspec.1, hspec.2.1,
          fun b rb hfb hbu => ⟨rb, hspec.2.2 b rb hfb hbu, rfl⟩⟩


/-! ### The public entry points preserve the invariant -/

/-- `malloc` preserves the invariant, returns 16-aligned payloads, and
preserves the used payload of every previously allocated region. -/
theorem emmalloc_malloc_spec {h : Heap} {size : Nat} (hw : WF h) :
    WF (emmalloc_malloc h size).1 ∧
    (∀ p, (emmalloc_malloc h size).2 = some p → p % ALIGNMENT = 0) ∧
    ∀ b rb, h.find b = some rb → rb.usedPayload ≠ 0 →
      ∃ rb', (emmalloc_malloc h size).1.find b = some rb' ∧
        rb'.usedPayload = rb.usedPayload := by
  by_cases hsz : size = 0
  · have heq : emmalloc_malloc h size = (h, none) := by
      unfold emmalloc_malloc
      rw [if_pos hsz]
    rw [heq]
    exact ⟨hw, fun p hp => Option.noConfusion hp, fun b rb hfb _ => ⟨rb, hfb, rfl⟩⟩
  · have hspos : 0 < size := Nat.pos_of_ne_zero hsz
    have heq : emmalloc_malloc h size =
        match tryFromFreeList h size with
        | (h₁, some a) => (h₁, some (a + METADATA_SIZE))
        | (h₁, none) =>
          match newAllocation h₁ size with
          | (h₂, some a) => (h₂, some (a + METADATA_SIZE))
          | (h₂, none) => (h₂, none) := by
      unfold emmalloc_malloc
      rw [if_neg hsz]
    rw [heq]
    obtain ⟨htfWF, htfKeep, htfRet⟩ := tryFromFreeList_spec hw hspos
    cases htf : tryFromFreeList h size with
    | mk h₁ res =>
      cases res with
      | some a =>
        obtain ⟨r, hf, hfree, hfit, hheap⟩ := htfRet a (by rw [htf])
        rw [htf] at htfWF htfKeep
        refine ⟨htfWF, ?_, ?_⟩
        · intro p hp
          have h2 : some (a + METADATA_SIZE) = some p := hp
          injection h2 with hh
          subst hh
          have hal : a % ALIGNMENT = 0 := contiguous_aligned hw.contig hw.headAligned
            (fun e he => (hw.sizes e he).2.1) (a, r) (findReg_mem hf)
          simp only [METADATA_SIZE, ALLOC_UNIT, ALIGNMENT] at hal ⊢
          omega
        · intro b rb hfb hbused
          exact ⟨rb, htfKeep b rb hfb hbused, rfl⟩
      | none =>
        have hh1 : h₁ = h := by
          have := @tryFromFreeList_none h size (by rw [htf])
          rw [htf] at this
          exact this
        subst hh1
        have heq2 : (match ((h₁, none) : Heap × Option Nat) with
            | (h₁, some a) => (h₁, some (a + METADATA_SIZE))
            | (h₁, none) =>
              match newAllocation h₁ size with
              | (h₂, some a) => (h₂, some (a + METADATA_SIZE))
              | (h₂, none) => (h₂, none))
            = (match newAllocation h₁ size with
              | (h₂, some a) => (h₂, some (a + METADATA_SIZE))
              | (h₂, none) => (h₂, none)) := rfl
        rw [heq2]
        obtain ⟨hnaWF, hnaRet, hnaKeep⟩ := newAllocation_spec hw hspos
        cases hna : newAllocation h₁ size with
        | mk h₂ res₂ =>
          rw [hna] at hnaWF hnaRet hnaKeep
          cases res₂ with
          | some a =>
            refine ⟨hnaWF, ?_, ?_⟩
            · intro p hp
              have h2 : some (a + METADATA_SIZE) = some p := hp
              injection h2 with hh
              subst hh
              have hal : a % ALIGNMENT = 0 := hnaRet a rfl
              simp only [METADATA_SIZE, ALLOC_UNIT, ALIGNMENT] at hal ⊢
              omega
            · intro b rb hfb hbused
              exact hnaKeep b rb hfb hbused
          | none =>
            refine ⟨hnaWF, ?_, ?_⟩
            · intro p hp
              exact Option.noConfusion (show (none : Option Nat) = some p from hp)
            · intro b rb hfb hbused
              exact hnaKeep b rb hfb hbused

/-- `free` on NULL or a valid payload pointer preserves the invariant. -/
theorem emmalloc_free_WF {h : Heap} {ptr : Nat} (hw : WF h)
    (hvalid : ptr = 0 ∨ ∃ a r, h.find a = some r ∧ r.usedPayload ≠ 0 ∧
      ptr = a + METADATA_SIZE) :
    WF (emmalloc_free h ptr) := by
  rcases hvalid with rfl | ⟨a, r, hf, hu, rfl⟩
  · have heq : emmalloc_free h 0 = h := by
      unfold emmalloc_free
      rw [if_pos rfl]
    rw [heq]
    exact hw
  · have hne : a + METADATA_SIZE ≠ 0 := by
      simp only [METADATA_SIZE, ALLOC_UNIT, ALIGNMENT]
      omega
    have heq : emmalloc_free h (a + METADATA_SIZE) = stopUsing h a := by
      unfold emmalloc_free
      rw [if_neg hne, Nat.add_sub_cancel, hf]
    rw [heq]
    exact stopUsing_used_WF hw hf hu

/-- `calloc` preserves the invariant and returns 16-aligned payloads. -/
theorem emmalloc_calloc_spec {h : Heap} {nmemb size : Nat} (hw : WF h) :
    WF (emmalloc_calloc h nmemb size).1 ∧
    ∀ p, (emmalloc_calloc h nmemb size).2 = some p → p % ALIGNMENT = 0 := by
  have heq : emmalloc_calloc h nmemb size =
      match emmalloc_malloc h (nmemb * size % ADDRESS_SPACE) with
      | (h₁, none) => (h₁, none)
      | (h₁, some p) => (memsetBytes h₁ p 0 (nmemb * size % ADDRESS_SPACE), some p) := by
    unfold emmalloc_calloc
    rfl
  rw [heq]
  obtain ⟨hmWF, hmRet, _⟩ := @emmalloc_malloc_spec h (nmemb * size % ADDRESS_SPACE) hw
  cases hm : emmalloc_malloc h (nmemb * size % ADDRESS_SPACE) with
  | mk h₁ res =>
    rw [hm] at hmWF hmRet
    cases res with
    | none => exact ⟨hmWF, fun p hp => Option.noConfusion hp⟩
    | some q =>
      constructor
      · show WF (memsetBytes h₁ q 0 (nmemb * size % ADDRESS_SPACE))
        exact WF_congr (h := h₁) rfl rfl rfl hmWF
      · intro p hp
        have h2 : some q = some p := hp
        injection h2 with hh
        subst hh
        exact hmRet _ rfl


/-! ### The forward-merge step of `realloc` -/

/-- Absorbing a free successor into a used region preserves the invariant;
the region keeps its used payload, and all other used regions survive. -/
theorem absorbNext_spec {h : Heap} {a n : Nat} {r nr : Reg}
    (hw : WF h) (hfind : h.find a = some r) (hused : r.usedPayload ≠ 0)
    (hnext : nextEntry a h.regions = some (n, nr)) (hnru : nr.usedPayload = 0) :
    WF { (removeFromFreeList h n) with
      regions := absorbNextIn a (removeFromFreeList h n).regions }
    ∧ Heap.find { (removeFromFreeList h n) with
        regions := absorbNextIn a (removeFromFreeList h n).regions } a
      = some (⟨r.totalSize + nr.totalSize, r.usedPayload⟩ : Reg)
    ∧ ∀ b rb, h.find b = some rb → rb.usedPayload ≠ 0 → b ≠ a →
        Heap.find { (removeFromFreeList h n) with
          regions := absorbNextIn a (removeFromFreeList h n).regions } b = some rb := by
  obtain ⟨pre, post0, hdec, hapre⟩ := findReg_split hfind
  have hnextD : nextEntry a h.regions = post0.head? := by
    rw [hdec]
    exact nextEntry_decomp hapre
  rw [hnextD] at hnext
  cases hpost0 : post0 with
  | nil =>
    rw [hpost0] at hnext
    cases hnext
  | cons e post =>
    rw [hpost0, List.head?_cons] at hnext
    injection hnext with he
    subst he
    rw [hpost0] at hdec
    have hnd : (h.regions.map Prod.fst).Nodup := contiguous_nodup hw.contig hw.sizesPos
    rw [hdec] at hnd
    simp only [List.map_append, List.map_cons, List.nodup_append, List.nodup_cons] at hnd
    obtain ⟨hndpre, ⟨hapost, ⟨hnpost, hndpost⟩⟩, hdisj⟩ := hnd
    simp only [List.map_cons, List.mem_cons] at hapost
    push_neg at hapost
    have hfindn : h.find n = some nr := by
      show findReg n h.regions = some nr
      rw [hdec, show pre ++ (a, r) :: (n, nr) :: post = (pre ++ [(a, r)]) ++ (n, nr) :: post
        from by simp]
      refine findReg_decomp ?_
      simp only [List.map_append, List.map_cons, List.map_nil, List.mem_append,
        List.mem_cons, List.not_mem_nil]
      push_neg
      refine ⟨?_, Ne.symm hapost.1, fun x => x.elim⟩
      intro hin
      exact hdisj hin (by simp)
    have hregsR : (removeFromFreeList h n).regions = h.regions := removeFromFreeList_regions
    have habs : absorbNextIn a (removeFromFreeList h n).regions
        = pre ++ (a, (⟨r.totalSize + nr.totalSize, r.usedPayload⟩ : Reg)) :: post := by
      rw [hregsR, hdec]
      exact absorbNextIn_decomp hapre
    have hcontigD : contiguous (pre ++ (a, r) :: (n, nr) :: post) := hdec ▸ hw.contig
    have hn_eq : n = a + r.totalSize := by
      rw [contiguous, List.chain'_append] at hcontigD
      have h2 := hcontigD.2.1
      rw [List.chain'_cons] at h2
      exact h2.1
    have hnotinN := removeFromFreeList_notin hw hfindn
    obtain ⟨hsza1, hsza2, hsza3⟩ := hw.sizes (a, r) (by rw [hdec]; simp)
    obtain ⟨hszn1, hszn2, hszn3⟩ := hw.sizes (n, nr) (by rw [hdec]; simp)
    have hflq : ∀ i, flGet { (removeFromFreeList h n) with
        regions := absorbNextIn a (removeFromFreeList h n).regions } i
        = flGet (removeFromFreeList h n) i := fun i => rfl
    have hstab : ∀ b, b ≠ a → b ≠ n →
        findReg b (pre ++ (a, (⟨r.totalSize + nr.totalSize, r.usedPayload⟩ : Reg)) :: post)
        = findReg b h.regions := by
      intro b hba hbn
      rw [hdec]
      refine findReg_congr_suffix ?_
      rw [findReg_cons_ne (Ne.symm hba), findReg_cons_ne (Ne.symm hba),
        findReg_cons_ne (Ne.symm hbn)]
    refine ⟨?_, ?_, ?_⟩
    · refine ⟨?_, ?_, ?_, ?_, ?_, ?_, ?_, ?_, ?_⟩
      · show (removeFromFreeList h n).freeLists.length = MAX_FREELIST_INDEX
        rw [removeFromFreeList_flLen]
        exact hw.flLen
      · show contiguous (absorbNextIn a (removeFromFreeList h n).regions)
        rw [habs]
        exact contiguous_absorb (n := n) (x := r) (y := nr) hcontigD
      · show ∀ e ∈ (absorbNextIn a (removeFromFreeList h n).regions).head?,
          e.1 % ALIGNMENT = 0
        rw [habs]
        exact head_absorb_congr (x := r) (q := (n, nr) :: post) (hdec ▸ hw.headAligned)
      · intro hne
        show listEnd 0 (absorbNextIn a (removeFromFreeList h n).regions)
          = (removeFromFreeList h n).brk
        rw [habs, removeFromFreeList_brk,
          listEnd_absorb (y := nr) (q := post) hn_eq, ← hdec]
        exact hw.endOK (by rw [hdec]; simp)
      · intro hne
        show (removeFromFreeList h n).brk ≤ ADDRESS_SPACE
        rw [removeFromFreeList_brk]
        exact hw.brkOK (by rw [hdec]; simp)
      · show ∀ e ∈ absorbNextIn a (removeFromFreeList h n).regions, sizeOK e.2
        rw [habs]
        intro e he
        rcases List.mem_append.mp he with hp | hm
        · exact hw.sizes e (by rw [hdec]; exact List.mem_append_left _ hp)
        · rcases List.mem_cons.mp hm with rfl | hm2
          · refine ⟨?_, ?_, ?_⟩ <;>
              simp only [getMaxPayload, MIN_REGION_SIZE, METADATA_SIZE, ALLOC_UNIT, ALIGNMENT] at hsza1 hsza2 hsza3 hszn1 hszn2 ⊢ <;>
              omega
          · exact hw.sizes e
              (by rw [hdec]; exact List.mem_append_right _ (List.mem_cons_of_mem _ (List.mem_cons_of_mem _ hm2)))
      · show noAdjFree (absorbNextIn a (removeFromFreeList h n).regions)
        rw [habs]
        have hnoadjD : noAdjFree (pre ++ (a, r) :: (n, nr) :: post) := hdec ▸ hw.noAdj
        rw [noAdjFree, List.chain'_append] at hnoadjD ⊢
        refine ⟨hnoadjD.1, ?_, ?_⟩
        · rw [List.chain'_cons']
          have h2 := hnoadjD.2.1
          rw [List.chain'_cons] at h2
          have h3 := h2.2
          rw [List.chain'_cons'] at h3
          refine ⟨?_, h3.2⟩
          intro y hy hcon
          exact hused hcon.1
        · intro e he e₂ he₂
          simp only [List.head?_cons, Option.mem_def, Option.some.injEq] at he₂
          subst he₂
          have hb := hnoadjD.2.2 e he (a, r) (by simp)
          simpa using hb
      · intro i hi b hb
        rw [hflq] at hb
        rw [removeFromFreeList_flGet hfindn i] at hb
        have hb2 : b ∈ flGet h i := by
          rcases eq_or_ne (getFreeListIndex (getMaxPayload nr)) i with heq2 | hne2
          · rw [if_pos heq2] at hb
            exact List.mem_of_mem_erase hb
          · rw [if_neg hne2] at hb
            exact hb
        have hba : b ≠ a := by
          intro hbe
          exact hw.used_not_member hfind hused i hi (hbe ▸ hb2)
        have hbn : b ≠ n := by
          intro hbe
          subst hbe
          rcases eq_or_ne (getFreeListIndex (getMaxPayload nr)) i with heq2 | hne2
          · rw [if_pos heq2] at hb
            exact ((hw.nodup i hi).mem_erase_iff.mp hb).1 rfl
          · rw [if_neg hne2] at hb
            obtain ⟨r₃, hf₃, _, hcls⟩ := hw.member_spec hi hb
            rw [hfindn] at hf₃
            injection hf₃ with hh
            subst hh
            exact hne2 hcls
        show freeSlotB (absorbNextIn a (removeFromFreeList h n).regions) i b = true
        rw [freeSlotB, habs, hstab b hba hbn]
        have hs := hw.sound i hi b hb2
        rw [freeSlotB] at hs
        exact hs
      · intro i hi
        rw [hflq, removeFromFreeList_flGet hfindn i]
        rcases eq_or_ne (getFreeListIndex (getMaxPayload nr)) i with heq2 | hne2
        · rw [if_pos heq2]
          exact (hw.nodup i hi).erase n
        · rw [if_neg hne2]
          exact hw.nodup i hi
    · show findReg a (absorbNextIn a (removeFromFreeList h n).regions) = _
      rw [habs]
      exact findReg_decomp hapre
    · intro b rb hfb hbused hba
      have hbn : b ≠ n := by
        intro hbe
        rw [hbe, hfindn] at hfb
        injection hfb with hh
        exact hbused (hh ▸ hnru)
      show findReg b (absorbNextIn a (removeFromFreeList h n).regions) = some rb
      rw [habs, hstab b hba hbn]
      exact hfb

/-- The move path of `realloc`: copy, release the old used region, return
the new payload. -/
theorem reallocCopyFinish_spec {h₃ : Heap} {a na size : Nat} {ra : Reg}
    (hw3 : WF h₃) (hfa : h₃.find a = some ra) (hused : ra.usedPayload ≠ 0) :
    WF (reallocCopyFinish h₃ a na size).1 ∧
    (reallocCopyFinish h₃ a na size).2 = some (na + METADATA_SIZE) := by
  have heq : reallocCopyFinish h₃ a na size =
      (stopUsing (memcpyBytes h₃ (na + METADATA_SIZE) (a + METADATA_SIZE)
        (min size (((h₃.find a).map Reg.usedPayload).getD 0))) a,
        some (na + METADATA_SIZE)) := by
    unfold reallocCopyFinish
    rfl
  rw [heq]
  have hw4 : WF (memcpyBytes h₃ (na + METADATA_SIZE) (a + METADATA_SIZE)
      (min size (((h₃.find a).map Reg.usedPayload).getD 0))) :=
    WF_congr (h := h₃) rfl rfl rfl hw3
  have hfa4 : Heap.find (memcpyBytes h₃ (na + METADATA_SIZE) (a + METADATA_SIZE)
      (min size (((h₃.find a).map Reg.usedPayload).getD 0))) a = some ra := hfa
  exact ⟨stopUsing_used_WF hw4 hfa4 hused, rfl⟩


/-- The common tail of `realloc` once the merge step has produced heap `g`:
re-test the fit, else move through the free lists, the break, or a brand
new region. -/
theorem realloc_tail_spec {g : Heap} {a0 size : Nat} {res : Heap × Option Nat}
    (hwg : WF g) (hspos : 0 < size)
    (hpal : (a0 + METADATA_SIZE) % ALIGNMENT = 0)
    (hgood : ∀ r₂, g.find a0 = some r₂ → r₂.usedPayload ≠ 0)
    (hres : res = match g.find a0 with
      | none => (g, none)
      | some r₂ =>
        if size ≤ getMaxPayload r₂ then
          (possiblySplitRemainder { g with regions := updateReg a0 (fun r₀ => { r₀ with usedPayload := size }) g.regions } a0 size, some (a0 + METADATA_SIZE))
        else
          match tryFromFreeList g size with
          | (h₃, some na) => reallocCopyFinish h₃ a0 na size
          | (h₃, none) =>
            if h₃.regions.getLast?.map Prod.fst = some a0 then
              match extendLastRegion h₃ size with
              | (h₄, true) => (h₄, some (a0 + METADATA_SIZE))
              | (h₄, false) =>
                match newAllocation h₄ size with
                | (h₅, some na) => reallocCopyFinish h₅ a0 na size
                | (h₅, none) => (h₅, none)
            else
              match newAllocation h₃ size with
              | (h₅, some na) => reallocCopyFinish h₅ a0 na size
              | (h₅, none) => (h₅, none)) :
    WF res.1 ∧ ∀ p, res.2 = some p → p % ALIGNMENT = 0 := by
  cases hfa : g.find a0 with
  | none =>
    rw [hfa] at hres
    have hres2 : res = (g, none) := hres
    rw [hres2]
    exact ⟨hwg, fun p hp => Option.noConfusion hp⟩
  | some r₂ =>
    have hu₂ : r₂.usedPayload ≠ 0 := hgood r₂ hfa
    rw [hfa] at hres
    have hres2 : res = (if size ≤ getMaxPayload r₂ then
        (possiblySplitRemainder { g with regions := updateReg a0 (fun r₀ => { r₀ with usedPayload := size }) g.regions } a0 size, some (a0 + METADATA_SIZE))
      else
        match tryFromFreeList g size with
        | (h₃, some na) => reallocCopyFinish h₃ a0 na size
        | (h₃, none) =>
          if h₃.regions.getLast?.map Prod.fst = some a0 then
            match extendLastRegion h₃ size with
            | (h₄, true) => (h₄, some (a0 + METADATA_SIZE))
            | (h₄, false) =>
              match newAllocation h₄ size with
              | (h₅, some na) => reallocCopyFinish h₅ a0 na size
              | (h₅, none) => (h₅, none)
          else
            match newAllocation h₃ size with
            | (h₅, some na) => reallocCopyFinish h₅ a0 na size
            | (h₅, none) => (h₅, none)) := hres
    have hmove : ∀ (h₄ : Heap) (res₄ : Heap × Option Nat), WF h₄ →
        h₄.find a0 = some r₂ →
        (res₄ = match newAllocation h₄ size with
          | (h₅, some na) => reallocCopyFinish h₅ a0 na size
          | (h₅, none) => (h₅, none)) →
        WF res₄.1 ∧ ∀ p, res₄.2 = some p → p % ALIGNMENT = 0 := by
      intro h₄ res₄ hw₄ hfa₄ hres₄
      obtain ⟨hnaWF, hnaRet, hnaKeep⟩ := newAllocation_spec hw₄ hspos
      cases hna : newAllocation h₄ size with
      | mk h₅ r₅ =>
        rw [hna] at hnaWF hnaRet hnaKeep hres₄
        cases r₅ with
        | some na =>
          have hres5 : res₄ = reallocCopyFinish h₅ a0 na size := hres₄
          obtain ⟨r₃, hf₅, hueq⟩ := hnaKeep a0 r₂ hfa₄ hu₂
          have hu₅ : r₃.usedPayload ≠ 0 := by
            rw [hueq]
            exact hu₂
          obtain ⟨hWF6, hret6⟩ := reallocCopyFinish_spec hnaWF hf₅ hu₅
          rw [hres5]
          refine ⟨hWF6, ?_⟩
          intro p hp
          rw [hret6] at hp
          injection hp with hh
          subst hh
          have hnal := hnaRet na rfl
          simp only [METADATA_SIZE, ALLOC_UNIT, ALIGNMENT] at hnal ⊢
          omega
        | none =>
          have hres5 : res₄ = (h₅, none) := hres₄
          rw [hres5]
          exact ⟨hnaWF, fun p hp => Option.noConfusion hp⟩
    by_cases hfit₂ : size ≤ getMaxPayload r₂
    · rw [if_pos hfit₂] at hres2
      rw [hres2]
      obtain ⟨hw1, hfind1, _⟩ := update_use_spec hwg hfa
        (hwg.used_not_member hfa hu₂) hfit₂ hspos
      refine ⟨(possiblySplitRemainder_spec hw1 hfind1 rfl hspos).1, ?_⟩
      intro p hp
      have h2 : some (a0 + METADATA_SIZE) = some p := hp
      injection h2 with hh
      subst hh
      exact hpal
    · rw [if_neg hfit₂] at hres2
      obtain ⟨htfWF, htfKeep, htfRet⟩ := tryFromFreeList_spec hwg hspos
      cases htf : tryFromFreeList g size with
      | mk h₃ r₃ =>
        rw [htf] at hres2 htfWF htfKeep htfRet
        cases r₃ with
        | some na =>
          have hres3 : res = reallocCopyFinish h₃ a0 na size := hres2
          obtain ⟨rna, hfna, hfreena, hfitna, hheap⟩ := htfRet na rfl
          have hfa₃ : h₃.find a0 = some r₂ := htfKeep a0 r₂ hfa hu₂
          have hnal : na % ALIGNMENT = 0 := contiguous_aligned hwg.contig
            hwg.headAligned (fun e he => (hwg.sizes e he).2.1) (na, rna)
            (findReg_mem hfna)
          obtain ⟨hWF6, hret6⟩ := reallocCopyFinish_spec htfWF hfa₃ hu₂
          rw [hres3]
          refine ⟨hWF6, ?_⟩
          intro p hp
          rw [hret6] at hp
          injection hp with hh
          subst hh
          simp only [METADATA_SIZE, ALLOC_UNIT, ALIGNMENT] at hnal ⊢
          omega
        | none =>
          have hh3 : h₃ = g := by
            have h9 := @tryFromFreeList_none g size (by rw [htf])
            rw [htf] at h9
            exact h9
          subst hh3
          have hres3 : res = (if h₃.regions.getLast?.map Prod.fst = some a0 then
              match extendLastRegion h₃ size with
              | (h₄, true) => (h₄, some (a0 + METADATA_SIZE))
              | (h₄, false) =>
                match newAllocation h₄ size with
                | (h₅, some na) => reallocCopyFinish h₅ a0 na size
                | (h₅, none) => (h₅, none)
            else
              match newAllocation h₃ size with
              | (h₅, some na) => reallocCopyFinish h₅ a0 na size
              | (h₅, none) => (h₅, none)) := hres2
          by_cases hlasta : h₃.regions.getLast?.map Prod.fst = some a0
          · rw [if_pos hlasta] at hres3
            have hlast₂ : h₃.regions.getLast? = some (a0, r₂) := by
              cases hgl : h₃.regions.getLast? with
              | none =>
                rw [hgl] at hlasta
                cases hlasta
              | some e =>
                obtain ⟨ea, er⟩ := e
                rw [hgl] at hlasta
                simp only [Option.map_some'] at hlasta
                injection hlasta with hh
                subst hh
                have hmem := List.mem_of_mem_getLast? hgl
                have hfe := hwg.findReg_of_mem hmem
                rw [hfa] at hfe
                injection hfe with hh₂
                rw [hh₂]
            cases hext : extendLastRegion h₃ size with
            | mk h₄ ok =>
              rw [hext] at hres3
              cases ok with
              | true =>
                have hres4 : res = (h₄, some (a0 + METADATA_SIZE)) := hres3
                rw [hres4]
                refine ⟨(extendLastRegion_success hwg hlast₂
                  (hwg.used_not_member hfa hu₂) hspos hext).1, ?_⟩
                intro p hp
                injection hp with hh
                subst hh
                exact hpal
              | false =>
                obtain ⟨hr4, hf4, hb4, hby4⟩ := extendLastRegion_fail hext
                have hw₄ : WF h₄ := WF_congr hr4 hf4 hb4 hwg
                have hfa₄ : h₄.find a0 = some r₂ := by
                  show findReg a0 h₄.regions = some r₂
                  rw [hr4]
                  exact hfa
                exact hmove h₄ res hw₄ hfa₄ hres3
          · rw [if_neg hlasta] at hres3
            exact hmove h₃ res hwg hfa hres3

/-- `realloc` on NULL or a valid payload pointer preserves the invariant
and returns 16-aligned payloads. -/
theorem emmalloc_realloc_spec {h : Heap} {ptr size : Nat} (hw : WF h)
    (hvalid : ptr = 0 ∨ ∃ a r, h.find a = some r ∧ r.usedPayload ≠ 0 ∧
      ptr = a + METADATA_SIZE) :
    WF (emmalloc_realloc h ptr size).1 ∧
    ∀ p, (emmalloc_realloc h ptr size).2 = some p → p % ALIGNMENT = 0 := by
  by_cases hptr : ptr = 0
  · subst hptr
    have heq : emmalloc_realloc h 0 size = emmalloc_malloc h size := by
      unfold emmalloc_realloc
      rw [if_pos rfl]
    rw [heq]
    obtain ⟨h1, h2, _⟩ := @emmalloc_malloc_spec h size hw
    exact ⟨h1, h2⟩
  by_cases hsz : size = 0
  · subst hsz
    have heq : emmalloc_realloc h ptr 0 = (emmalloc_free h ptr, none) := by
      unfold emmalloc_realloc
      rw [if_neg hptr, if_pos rfl]
    rw [heq]
    exact ⟨emmalloc_free_WF hw hvalid, fun p hp => Option.noConfusion hp⟩
  rcases hvalid with rfl | ⟨a0, r0, hf0, hu0, hptreq⟩
  · exact absurd rfl hptr
  subst hptreq
  have hspos : 0 < size := Nat.pos_of_ne_zero hsz
  have ha0al : a0 % ALIGNMENT = 0 := contiguous_aligned hw.contig hw.headAligned
    (fun e he => (hw.sizes e he).2.1) (a0, r0) (findReg_mem hf0)
  have hpal : (a0 + METADATA_SIZE) % ALIGNMENT = 0 := by
    simp only [METADATA_SIZE, ALLOC_UNIT, ALIGNMENT] at ha0al ⊢
    omega
  by_cases hfit : size ≤ getMaxPayload r0
  · have heq : emmalloc_realloc h (a0 + METADATA_SIZE) size =
        (possiblySplitRemainder { h with regions := updateReg a0 (fun r₀ => { r₀ with usedPayload := size }) h.regions } a0 size, some (a0 + METADATA_SIZE)) := by
      simp only [emmalloc_realloc, if_neg hptr, if_neg hsz, Nat.add_sub_cancel, hf0]
      exact if_pos hfit
    rw [heq]
    obtain ⟨hw1, hfind1, _⟩ := update_use_spec hw hf0
      (hw.used_not_member hf0 hu0) hfit hspos
    refine ⟨(possiblySplitRemainder_spec hw1 hfind1 rfl hspos).1, ?_⟩
    intro p hp
    injection hp with hh
    subst hh
    exact hpal
  · have heq : emmalloc_realloc h (a0 + METADATA_SIZE) size =
        (match Heap.find (match nextEntry a0 h.regions with
          | some (n, nr) =>
            if nr.usedPayload = 0 then
              { (removeFromFreeList h n) with regions := absorbNextIn a0 (removeFromFreeList h n).regions }
            else h
          | none => h) a0 with
        | none => ((match nextEntry a0 h.regions with
          | some (n, nr) =>
            if nr.usedPayload = 0 then
              { (removeFromFreeList h n) with regions := absorbNextIn a0 (removeFromFreeList h n).regions }
            else h
          | none => h), none)
        | some r₂ =>
          if size ≤ getMaxPayload r₂ then
            (possiblySplitRemainder { (match nextEntry a0 h.regions with
          | some (n, nr) =>
            if nr.usedPayload = 0 then
              { (removeFromFreeList h n) with regions := absorbNextIn a0 (removeFromFreeList h n).regions }
            else h
          | none => h) with regions := updateReg a0 (fun r₀ => { r₀ with usedPayload := size }) ((match nextEntry a0 h.regions with
          | some (n, nr) =>
            if nr.usedPayload = 0 then
              { (removeFromFreeList h n) with regions := absorbNextIn a0 (removeFromFreeList h n).regions }
            else h
          | none => h)).regions } a0 size, some (a0 + METADATA_SIZE))
          else
            match tryFromFreeList (match nextEntry a0 h.regions with
          | some (n, nr) =>
            if nr.usedPayload = 0 then
              { (removeFromFreeList h n) with regions := absorbNextIn a0 (removeFromFreeList h n).regions }
            else h
          | none => h) size with
            | (h₃, some na) => reallocCopyFinish h₃ a0 na size
            | (h₃, none) =>
              if h₃.regions.getLast?.map Prod.fst = some a0 then
                match extendLastRegion h₃ size with
                | (h₄, true) => (h₄, some (a0 + METADATA_SIZE))
                | (h₄, false) =>
                  match newAllocation h₄ size with
                  | (h₅, some na) => reallocCopyFinish h₅ a0 na size
                  | (h₅, none) => (h₅, none)
              else
                match newAllocation h₃ size with
                | (h₅, some na) => reallocCopyFinish h₅ a0 na size
                | (h₅, none) => (h₅, none)) := by
      simp only [emmalloc_realloc, if_neg hptr, if_neg hsz, Nat.add_sub_cancel, hf0]
      exact if_neg hfit
    rw [heq]
    cases hne : nextEntry a0 h.regions with
    | none =>
      refine realloc_tail_spec (g := h) hw hspos hpal ?_ rfl
      intro r₂ hr
      rw [hf0] at hr
      injection hr with hh
      subst hh
      exact hu0
    | some e =>
      obtain ⟨n, nr⟩ := e
      have hM : (match (some (n, nr) : Option (Nat × Reg)) with
          | some (n, nr) =>
            if nr.usedPayload = 0 then
              { (removeFromFreeList h n) with regions := absorbNextIn a0 (removeFromFreeList h n).regions }
            else h
          | none => h)
          = if nr.usedPayload = 0 then
              { (removeFromFreeList h n) with regions := absorbNextIn a0 (removeFromFreeList h n).regions }
            else h := rfl
      rw [hM]
      by_cases hnru : nr.usedPayload = 0
      · rw [if_pos hnru]
        obtain ⟨hwA, hfA, hkeepA⟩ := absorbNext_spec hw hf0 hu0 hne hnru
        refine realloc_tail_spec
          (g := { (removeFromFreeList h n) with regions := absorbNextIn a0 (removeFromFreeList h n).regions })
          hwA hspos hpal ?_ rfl
        intro r₂ hr
        rw [hfA] at hr
        injection hr with hh
        subst hh
        exact hu0
      · rw [if_neg hnru]
        refine realloc_tail_spec (g := h) hw hspos hpal ?_ rfl
        intro r₂ hr
        rw [hf0] at hr
        injection hr with hh
        subst hh
        exact hu0

/-! ## The invariant holds at every reachable heap -/

/-- The empty initial heap satisfies the invariant. -/
theorem initHeap_WF (brk0 : Nat) (orc : Nat → Bool) (mem0 : Nat → Nat) :
    WF (initHeap brk0 orc mem0) := by
  refine WF_of_empty rfl (List.length_replicate _ _) ?_
  intro i hi
  show (List.replicate MAX_FREELIST_INDEX ([] : List Nat)).getD i [] = []
  rw [List.getD_eq_getElem?_getD, List.getElem?_replicate]
  rw [if_pos hi]
  rfl

/-- Every valid public operation preserves the invariant, and any pointer it
returns is 16-aligned. -/
theorem applyOp_WF {h : Heap} {op : Op} (hw : WF h) (hv : ValidOp h op) :
    WF (applyOp h op).1 ∧
    ∀ p, (applyOp h op).2 = some p → p % ALIGNMENT = 0 := by
  cases op with
  | alloc size =>
    obtain ⟨h1, h2, _⟩ := @emmalloc_malloc_spec h size hw
    exact ⟨h1, h2⟩
  | release ptr =>
    refine ⟨emmalloc_free_WF hw hv, ?_⟩
    intro p hp
    exact Option.noConfusion hp
  | zeroAllocate nmemb size =>
    exact emmalloc_calloc_spec hw
  | reallocate ptr size =>
    exact emmalloc_realloc_spec hw hv

/-- Every heap reachable by valid public operations satisfies the
invariant. -/
theorem reachable_WF {h : Heap} (hr : Reachable h) : WF h := by
  induction hr with
  | init brk0 orc mem0 => exact initHeap_WF brk0 orc mem0
  | step _ hv ih => exact (applyOp_WF ih hv).1


/-! ## Shared concrete scenarios and auxiliary facts for the claims -/

/-- A heap whose break primitive always succeeds and whose memory reads 0. -/
def heapOk : Heap := initHeap 0 (fun _ => true) (fun _ => 0)

/-- A heap whose break primitive succeeds on the first two calls only. -/
def heapTwo : Heap := initHeap 0 (fun i => decide (i < 2)) (fun _ => 0)

/-- `getFreeListIndex` is exact on powers of two at or above `ALLOC_UNIT`. -/
theorem getFreeListIndex_two_pow {i : Nat} (hi : 4 ≤ i) :
    getFreeListIndex (2 ^ i) = i := by
  have h16 : ALLOC_UNIT ≤ 2 ^ i := by
    calc ALLOC_UNIT = 2 ^ 4 := by decide
      _ ≤ 2 ^ i := Nat.pow_le_pow_right (by omega) hi
  rw [getFreeListIndex_eq_log2 h16, Nat.log2_eq_log_two, Nat.log_pow (by omega)]

/-- When the oracle refuses the current call, `sbrk` of a positive request
fails, only bumping the call counter. -/
theorem sbrk_fail_of_oracle {h : Heap} (horc : h.sbrkOk h.sbrkCalls = false)
    {n : Nat} (hn : n ≠ 0) :
    sbrk h n = ({ h with sbrkCalls := h.sbrkCalls + 1 }, none) := by
  have hokf : ((decide (n = 0) || h.sbrkOk h.sbrkCalls) &&
      decide (h.brk + n ≤ ADDRESS_SPACE)) = false := by
    rw [horc, decide_eq_false hn]
    rfl
  simp only [sbrk, hokf, Bool.false_eq_true, if_false]

/-- The last region ends at or below the top of the 32-bit space. -/
theorem last_region_bound {h : Heap} {la : Nat} {lr : Reg} (hw : WF h)
    (hl : h.regions.getLast? = some (la, lr)) :
    la + lr.totalSize ≤ ADDRESS_SPACE := by
  obtain ⟨pre, hdec⟩ : ∃ pre, h.regions = pre ++ [(la, lr)] := by
    rcases List.eq_nil_or_concat h.regions with h0 | ⟨pre, e, hC⟩
    · rw [h0] at hl
      cases hl
    · rw [List.concat_eq_append] at hC
      rw [hC, List.getLast?_concat] at hl
      injection hl with he
      exact ⟨pre, by rw [hC, he]⟩
  have hend := hw.endOK (by rw [hdec]; simp)
  rw [hdec, listEnd_append] at hend
  have hend2 : la + lr.totalSize = h.brk := by simpa [listEnd] using hend
  rw [hend2]
  exact hw.brkOK (by rw [hdec]; simp)

/-- A request of at least the whole address space classifies at or above
`MAX_FREELIST_INDEX`. -/
theorem big_index_ge_max {size : Nat} (hhuge : ADDRESS_SPACE ≤ size) :
    MAX_FREELIST_INDEX ≤ getBigEnoughFreeListIndex size := by
  have h16 : ALLOC_UNIT ≤ size := by
    simp only [ALLOC_UNIT, ALIGNMENT, ADDRESS_SPACE] at *
    omega
  have hfl : ¬ getFreeListIndex size < 32 := by
    rw [getFreeListIndex_le_iff h16]
    simp only [ADDRESS_SPACE] at hhuge
    omega
  have : getFreeListIndex size ≤ getBigEnoughFreeListIndex size := by
    rw [getBigEnoughFreeListIndex]
    cases isPowerOf2 size <;> simp
  simp only [MAX_FREELIST_INDEX]
  omega

/-- A request of at least the whole address space cannot be served from the
free lists: both the near-fit probe and the sweep come back empty. -/
theorem tryFromFreeList_huge {h : Heap} {size : Nat} (hhuge : ADDRESS_SPACE ≤ size) :
    tryFromFreeList h size = (h, none) := by
  have hidx := big_index_ge_max hhuge
  have hcond : ¬(MIN_FREELIST_INDEX < getBigEnoughFreeListIndex size ∧
      size < getMinSizeForFreeListIndex (getBigEnoughFreeListIndex size)) := by
    rintro ⟨-, hlt⟩
    have e1 : getBigEnoughFreeListIndex size % 32 ≤ 31 :=
      Nat.le_of_lt_succ (Nat.mod_lt _ (by omega))
    have e2 : getMinSizeForFreeListIndex (getBigEnoughFreeListIndex size) ≤ 2 ^ 31 := by
      rw [getMinSizeForFreeListIndex]
      exact Nat.pow_le_pow_right (by omega) e1
    have e3 : (2 : Nat) ^ 31 < ADDRESS_SPACE := by
      rw [ADDRESS_SPACE]
      norm_num
    omega
  have h0 : MAX_FREELIST_INDEX - getBigEnoughFreeListIndex size = 0 := by omega
  simp only [tryFromFreeList, if_neg hcond, h0]
  rfl

/-- With an always-failing break oracle, `newAllocation` of a request at
least the whole address space returns no region: every strategy ends in a
positive `sbrk` request, which the oracle refuses. -/
theorem newAllocation_fail_none {h : Heap} {size : Nat} (hw : WF h)
    (horc : ∀ i, h.sbrkOk i = false) (hhuge : ADDRESS_SPACE ≤ size) :
    (newAllocation h size).2 = none := by
  have hau : size ≤ alignUp size := le_alignUp size
  have hfreshfail : ∀ h₁ : Heap, h₁.sbrkOk = h.sbrkOk →
      (newAllocationFresh h₁ size).2 = none := by
    intro h₁ hok
    have hsb := sbrk_fail_of_oracle (h := h₁) (by rw [hok]; exact horc _)
      (n := METADATA_SIZE + alignUp size) (by simp only [METADATA_SIZE, ALLOC_UNIT, ALIGNMENT]; omega)
    simp only [newAllocationFresh, hsb]
  cases hl : h.regions.getLast? with
  | none =>
    have heqN : newAllocation h size = newAllocationFresh h size := by
      unfold newAllocation
      rw [hl]
    rw [heqN]
    exact hfreshfail h rfl
  | some e =>
    obtain ⟨la, lr⟩ := e
    have hmem : (la, lr) ∈ h.regions := List.mem_of_mem_getLast? (by rw [hl]; rfl)
    obtain ⟨hs1, hs2, hs3⟩ := hw.sizes (la, lr) hmem
    have hcap := last_region_bound hw hl
    have hmp : getMaxPayload lr < ADDRESS_SPACE := by
      simp only [getMaxPayload, MIN_REGION_SIZE, METADATA_SIZE, ALLOC_UNIT,
        ALIGNMENT, ADDRESS_SPACE] at hs1 hcap ⊢
      omega
    by_cases hfree : lr.usedPayload = 0
    · have heqN : newAllocation h size =
          (match extendLastRegion (removeFromFreeList h la) size with
          | (h₂, true) => (h₂, some la)
          | (h₂, false) => (h₂, none)) := by
        unfold newAllocation
        rw [hl]
        exact if_pos hfree
      have hRfields : (removeFromFreeList h la).regions = h.regions ∧
          (removeFromFreeList h la).sbrkOk = h.sbrkOk ∧
          (removeFromFreeList h la).sbrkCalls = h.sbrkCalls := by
        unfold removeFromFreeList
        cases h.find la with
        | none => exact ⟨rfl, rfl, rfl⟩
        | some r => exact ⟨rfl, rfl, rfl⟩
      have hlR : (removeFromFreeList h la).regions.getLast? = some (la, lr) := by
        rw [hRfields.1, hl]
      have heqE : extendLastRegion (removeFromFreeList h la) size =
          match sbrk (removeFromFreeList h la) (subWrap (alignUp size) (getMaxPayload lr)) with
          | (h₁, none) => (h₁, false)
          | (h₁, some _) =>
            ({ h₁ with
              regions := updateReg la (fun r => { r with totalSize := r.totalSize + subWrap (alignUp size) (getMaxPayload lr), usedPayload := size }) h₁.regions }, true) := by
        unfold extendLastRegion
        rw [hlR]
      have hsw : subWrap (alignUp size) (getMaxPayload lr) ≠ 0 := by
        have hle : getMaxPayload lr ≤ alignUp size :=
          le_trans (le_of_lt hmp) (le_trans hhuge hau)
        rw [subWrap_of_le hle]
        have hlt : getMaxPayload lr < alignUp size :=
          lt_of_lt_of_le hmp (le_trans hhuge hau)
        omega
      have hsb := sbrk_fail_of_oracle (h := removeFromFreeList h la)
        (by rw [hRfields.2.1]; exact horc _) hsw
      rw [heqN, heqE, hsb]
    · have hmpal : getMaxPayload lr % ALIGNMENT = 0 := by
        simp only [getMaxPayload, MIN_REGION_SIZE, METADATA_SIZE, ALLOC_UNIT,
          ALIGNMENT] at hs1 hs2 ⊢
        omega
      have hnw : alignUp lr.usedPayload ≤ getMaxPayload lr := alignUp_le hs3 hmpal
      have heqElse : newAllocation h size =
          (if 0 < subWrap (getMaxPayload lr) (alignUp lr.usedPayload) then
            match sbrk h (subWrap (METADATA_SIZE + alignUp size)
                (subWrap (getMaxPayload lr) (alignUp lr.usedPayload))) with
            | (h₁, none) => (h₁, none)
            | (h₁, some ptr) =>
              ({ h₁ with regions := updateReg la (fun r => { r with totalSize := r.totalSize - subWrap (getMaxPayload lr) (alignUp lr.usedPayload) }) h₁.regions ++ [(ptr - subWrap (getMaxPayload lr) (alignUp lr.usedPayload), { totalSize := subWrap (METADATA_SIZE + alignUp size) (subWrap (getMaxPayload lr) (alignUp lr.usedPayload)) + subWrap (getMaxPayload lr) (alignUp lr.usedPayload), usedPayload := size })] },
                some (ptr - subWrap (getMaxPayload lr) (alignUp lr.usedPayload)))
          else newAllocationFresh h size) := by
        unfold newAllocation
        rw [hl]
        exact if_neg hfree
      by_cases husable : 0 < subWrap (getMaxPayload lr) (alignUp lr.usedPayload)
      · have hus : subWrap (getMaxPayload lr) (alignUp lr.usedPayload)
            = getMaxPayload lr - alignUp lr.usedPayload := subWrap_of_le hnw
        have husb : subWrap (getMaxPayload lr) (alignUp lr.usedPayload) ≤ getMaxPayload lr := by
          rw [subWrap_of_le hnw]
          omega
        have hbig2 : getMaxPayload lr < METADATA_SIZE + alignUp size :=
          lt_of_lt_of_le hmp (le_trans hhuge (le_trans hau (Nat.le_add_left _ _)))
        have hsw2 : subWrap (METADATA_SIZE + alignUp size)
            (subWrap (getMaxPayload lr) (alignUp lr.usedPayload)) ≠ 0 := by
          rw [subWrap_of_le (le_trans husb (le_of_lt hbig2))]
          omega
        have hsb := sbrk_fail_of_oracle (h := h) (horc _) hsw2
        rw [heqElse, if_pos husable, hsb]
      · rw [heqElse, if_neg husable]
        exact hfreshfail h rfl


/-! ## The claims -/

/-- C1: For every sequence of valid public operations starting from the
empty heap, at every public return no two address-adjacent regions are both
free (`usedPayload = 0`): releasing next to a free neighbour always merges,
so the coalescing invariant holds at every reachable heap. -/
theorem c1_no_adjacent_free_regions {h : Heap} (hr : Reachable h) :
    noAdjFree h.regions :=
  (reachable_WF hr).noAdj

/-- C1 witness: a concrete run — two allocations, then releasing the second
and the first region (the second release merges with its free successor) —
ends with no two adjacent free regions. -/
theorem c1_no_adjacent_free_regions_witness :
    noAdjFree (applyOp (applyOp (applyOp (applyOp heapOk (Op.alloc 100)).1
      (Op.alloc 100)).1 (Op.release 144)).1 (Op.release 16)).1.regions :=
  c1_no_adjacent_free_regions
    (Reachable.step
      (Reachable.step
        (Reachable.step
          (Reachable.step (Reachable.init 0 (fun _ => true) (fun _ => 0)) trivial)
          trivial)
        (Or.inr ⟨128, ⟨128, 100⟩, by decide, by decide, by decide⟩))
      (Or.inr ⟨0, ⟨128, 100⟩, by decide, by decide, by decide⟩))

/-- C2 (amended): with a break oracle that refuses every growth request,
`allocate(size)` of an unsatisfiable (address-space-sized) request returns
`none` and the structural heap invariant `WF` — contiguity, sizing,
coalescing, free-list soundness — still holds at the public return.  The
original claim is refuted by `c2_break_failure_counterexample`: invariant 7
(a region is on a free list iff it is free) does NOT survive, because
`newAllocation` pulls the free last region off its free list and leaks it
when `sbrk` fails, after which a small allocation that fits that region
fails. -/
theorem c2_break_failure_amended {h : Heap} {size : Nat} (hw : WF h)
    (horc : ∀ i, h.sbrkOk i = false) (hhuge : ADDRESS_SPACE ≤ size) :
    (emmalloc_malloc h size).2 = none ∧ WF (emmalloc_malloc h size).1 := by
  have hsz : size ≠ 0 := by
    simp only [ADDRESS_SPACE] at hhuge
    omega
  have heqm : emmalloc_malloc h size =
      match newAllocation h size with
      | (h₂, some a) => (h₂, some (a + METADATA_SIZE))
      | (h₂, none) => (h₂, none) := by
    unfold emmalloc_malloc
    rw [if_neg hsz, tryFromFreeList_huge hhuge]
  refine ⟨?_, (emmalloc_malloc_spec hw).1⟩
  rw [heqm]
  have hnone := newAllocation_fail_none hw horc hhuge
  cases hna : newAllocation h size with
  | mk h₂ o =>
    rw [hna] at hnone
    cases o with
    | none => rfl
    | some a => exact Option.noConfusion hnone

/-- C2 witness: on the empty heap with an always-failing break oracle, an
address-space-sized allocation returns `none` and preserves the invariant. -/
theorem c2_break_failure_amended_witness :
    (emmalloc_malloc (initHeap 0 (fun _ => false) (fun _ => 0)) ADDRESS_SPACE).2 = none ∧
    WF (emmalloc_malloc (initHeap 0 (fun _ => false) (fun _ => 0)) ADDRESS_SPACE).1 :=
  c2_break_failure_amended (initHeap_WF 0 (fun _ => false) (fun _ => 0))
    (fun _ => rfl) (le_refl ADDRESS_SPACE)

/-- C2 counterexample: after `alloc 100; alloc 100; release 144` on a heap
whose break fails from the third call on, the failing `alloc 1000` leaves
the free region at 128 off every free list — invariant 7 (`flComplete`)
is violated — and the subsequent `alloc 50`, though the free region at 128
offers 112 payload bytes, fails. -/
theorem c2_break_failure_counterexample :
    (applyOps heapTwo [Op.alloc 100, Op.alloc 100, Op.release 144, Op.alloc 1000]).find 128 =
      some ⟨128, 0⟩ ∧
    ¬ flComplete (applyOps heapTwo [Op.alloc 100, Op.alloc 100, Op.release 144, Op.alloc 1000]) ∧
    (emmalloc_malloc (applyOps heapTwo [Op.alloc 100, Op.alloc 100, Op.release 144, Op.alloc 1000]) 50).2 = none ∧
    50 ≤ getMaxPayload ⟨128, 0⟩ := by
  refine ⟨by decide, ?_, by decide, by decide⟩
  intro hc
  have hc2 : ∀ e ∈ (applyOps heapTwo [Op.alloc 100, Op.alloc 100, Op.release 144, Op.alloc 1000]).regions,
      e.2.usedPayload = 0 →
      e.1 ∈ flGet (applyOps heapTwo [Op.alloc 100, Op.alloc 100, Op.release 144, Op.alloc 1000])
        (getFreeListIndex (getMaxPayload e.2)) := hc
  exact absurd (hc2 (128, ⟨128, 0⟩) (by decide) rfl) (by decide)

/-- C3: on the heap after `alloc 100; alloc 100; release 144` (one used
region of payload 100, one free region of max payload 112), `mallinfo`
reports `uordblks`, `ordblks` and `arena` as specified, but `fordblks` is
the free-payload sum PLUS the indeterminate initial value of the
uninitialized stack field `info.fordblks` (the code assigns
`info.ordblks = 0` twice and never initializes `fordblks`), so two runs
differing only in that stack garbage report different `fordblks`. -/
theorem c3_mallinfo_fordblks_uninitialized :
    (emmalloc_mallinfo (applyOps heapOk [Op.alloc 100, Op.alloc 100, Op.release 144]) 0).uordblks = 100 ∧
    (emmalloc_mallinfo (applyOps heapOk [Op.alloc 100, Op.alloc 100, Op.release 144]) 0).ordblks = 1 ∧
    (emmalloc_mallinfo (applyOps heapOk [Op.alloc 100, Op.alloc 100, Op.release 144]) 0).arena = 256 ∧
    (emmalloc_mallinfo (applyOps heapOk [Op.alloc 100, Op.alloc 100, Op.release 144]) 0).smblks = 0 ∧
    (emmalloc_mallinfo (applyOps heapOk [Op.alloc 100, Op.alloc 100, Op.release 144]) 0).fordblks = 112 ∧
    (emmalloc_mallinfo (applyOps heapOk [Op.alloc 100, Op.alloc 100, Op.release 144]) 1).fordblks = 113 := by
  decide

/-- C7: from the empty heap, `allocate 0` returns `none`; `allocate 100`
returns payload 16; after releasing it, the next `allocate 100` returns the
same payload 16. -/
theorem c7_tiny_round_trip :
    (emmalloc_malloc heapOk 0).2 = none ∧
    (emmalloc_malloc heapOk 100).2 = some 16 ∧
    (emmalloc_malloc (emmalloc_free (emmalloc_malloc heapOk 100).1 16) 100).2 = some 16 := by
  decide

/-- C8: every payload pointer returned by a valid public operation
(allocate, zeroAllocate, reallocate; release returns none) on a reachable
heap is a multiple of `ALIGNMENT = 16`. -/
theorem c8_returned_pointers_aligned {h : Heap} {op : Op} {p : Nat}
    (hr : Reachable h) (hv : ValidOp h op)
    (hp : (applyOp h op).2 = some p) : p % ALIGNMENT = 0 :=
  (applyOp_WF (reachable_WF hr) hv).2 p hp

/-- C8 witness: the first allocation on the empty heap returns payload 16,
a multiple of 16. -/
theorem c8_returned_pointers_aligned_witness : 16 % ALIGNMENT = 0 :=
  @c8_returned_pointers_aligned heapOk (Op.alloc 100) 16
    (Reachable.init 0 (fun _ => true) (fun _ => 0)) trivial (by decide)

/-- C9 (amended): `zeroAllocate(k, s)` computes its request as the 32-bit
product `k * s mod 2^32` with no overflow check, and when it returns a
pointer, exactly that many payload bytes — not the unbounded product
`k * s` — read as zero.  The original unbounded-product claim is refuted by
`c9_calloc_wrap_counterexample`. -/
theorem c9_calloc_zeroes_wrapped_product {h : Heap} {nmemb size p : Nat}
    (hp : (emmalloc_calloc h nmemb size).2 = some p) :
    ∀ x, p ≤ x → x < p + nmemb * size % ADDRESS_SPACE →
      (emmalloc_calloc h nmemb size).1.bytes x = 0 := by
  intro x hx1 hx2
  have heq : emmalloc_calloc h nmemb size =
      match emmalloc_malloc h (nmemb * size % ADDRESS_SPACE) with
      | (h₁, none) => (h₁, none)
      | (h₁, some q) => (memsetBytes h₁ q 0 (nmemb * size % ADDRESS_SPACE), some q) := rfl
  rw [heq] at hp ⊢
  cases hm : emmalloc_malloc h (nmemb * size % ADDRESS_SPACE) with
  | mk h₁ o =>
    rw [hm] at hp
    cases o with
    | none => exact Option.noConfusion hp
    | some q =>
      have hq : q = p := by
        have h2 : some q = some p := hp
        injection h2
      subst hq
      show (if q ≤ x ∧ x < q + nmemb * size % ADDRESS_SPACE then 0 else h₁.bytes x) = 0
      rw [if_pos ⟨hx1, hx2⟩]

/-- C9 witness: `zeroAllocate 2 8` on a heap whose memory reads 1
everywhere returns payload 16, and byte 20 of it reads 0. -/
theorem c9_calloc_zeroes_wrapped_product_witness :
    (emmalloc_calloc (initHeap 0 (fun _ => true) (fun _ => 1)) 2 8).1.bytes 20 = 0 :=
  c9_calloc_zeroes_wrapped_product (p := 16) (by decide) 20 (by decide) (by decide)

/-- C9 counterexample: `zeroAllocate 65536 65537` wraps: the 32-bit product
is 65536, so the call succeeds with payload 16, but byte `16 + 65536` —
well inside the first `65536 * 65537` bytes — reads the untouched memory
value 1, not 0. -/
theorem c9_calloc_wrap_counterexample :
    (emmalloc_calloc (initHeap 0 (fun _ => true) (fun _ => 1)) 65536 65537).2 = some 16 ∧
    (emmalloc_calloc (initHeap 0 (fun _ => true) (fun _ => 1)) 65536 65537).1.bytes (16 + 65536) = 1 ∧
    16 + 65536 < 16 + 65536 * 65537 := by
  refine ⟨by decide, by decide, by norm_num⟩

/-- C10: for every region satisfying the structural size invariant
(`MIN_REGION_SIZE ≤ totalSize ≤ 2^32`), the free-list index of its max
payload lies in `[MIN_FREELIST_INDEX, MAX_FREELIST_INDEX) = [4, 32)`, so
the free-list array accesses of `addToFreeList` and `removeFromFreeList`
stay within the 32-entry array of any well-formed heap. -/
theorem c10_freelist_index_in_bounds {r : Reg}
    (h1 : MIN_REGION_SIZE ≤ r.totalSize) (h2 : r.totalSize ≤ ADDRESS_SPACE) :
    MIN_FREELIST_INDEX ≤ getFreeListIndex (getMaxPayload r) ∧
    getFreeListIndex (getMaxPayload r) < MAX_FREELIST_INDEX ∧
    ∀ g : Heap, WF g → getFreeListIndex (getMaxPayload r) < g.freeLists.length := by
  have hlt : getMaxPayload r < ADDRESS_SPACE := by
    simp only [getMaxPayload, MIN_REGION_SIZE, METADATA_SIZE, ALLOC_UNIT, ALIGNMENT,
      ADDRESS_SPACE] at h1 h2 ⊢
    omega
  refine ⟨getFreeListIndex_ge_min, getFreeListIndex_lt_max hlt, ?_⟩
  intro g hg
  rw [hg.flLen]
  exact getFreeListIndex_lt_max hlt

/-- C10 witness: the minimal region (total size 32, max payload 16) files
at index 4, within bounds. -/
theorem c10_freelist_index_in_bounds_witness :
    MIN_FREELIST_INDEX ≤ getFreeListIndex (getMaxPayload ⟨32, 0⟩) ∧
    getFreeListIndex (getMaxPayload ⟨32, 0⟩) < MAX_FREELIST_INDEX ∧
    ∀ g : Heap, WF g → getFreeListIndex (getMaxPayload ⟨32, 0⟩) < g.freeLists.length :=
  c10_freelist_index_in_bounds (r := ⟨32, 0⟩) (by decide) (by decide)


/-- C5: for a region at an aligned base with 16-multiple total size, when
at least `MIN_REGION_SIZE` payload bytes beyond `size` remain, the split at
`alignUp(payload + size)` is taken and carves a tail of total size at least
`MIN_REGION_SIZE` (the assertion `totalSplitSize >= MIN_REGION_SIZE` never
fires) while the parent keeps a max payload of at least `size`. -/
theorem c5_split_remainder_safe {h : Heap} {a size : Nat} {r : Reg}
    (hfind : h.find a = some r) (hal : a % ALIGNMENT = 0)
    (htot : r.totalSize % ALIGNMENT = 0)
    (hfit : size ≤ getMaxPayload r)
    (hmin : MIN_REGION_SIZE ≤ getMaxPayload r - size) :
    MIN_REGION_SIZE ≤ a + r.totalSize - alignUp (a + METADATA_SIZE + size) ∧
    size ≤ getMaxPayload { r with totalSize := alignUp (a + METADATA_SIZE + size) - a } ∧
    possiblySplitRemainder h a size =
      stopUsing { h with regions := splitIn a { r with totalSize := alignUp (a + METADATA_SIZE + size) - a } (alignUp (a + METADATA_SIZE + size)) { totalSize := a + r.totalSize - alignUp (a + METADATA_SIZE + size), usedPayload := 0 } h.regions } (alignUp (a + METADATA_SIZE + size)) := by
  have h16 : METADATA_SIZE ≤ r.totalSize := by
    simp only [getMaxPayload, MIN_REGION_SIZE, METADATA_SIZE, ALLOC_UNIT, ALIGNMENT] at hmin ⊢
    omega
  have hlow : a + METADATA_SIZE + size ≤ alignUp (a + METADATA_SIZE + size) :=
    le_alignUp _
  have hhigh : alignUp (a + METADATA_SIZE + size) ≤ a + r.totalSize - MIN_REGION_SIZE := by
    refine alignUp_le ?_ ?_
    · simp only [getMaxPayload, MIN_REGION_SIZE, METADATA_SIZE, ALLOC_UNIT, ALIGNMENT] at hmin h16 ⊢
      omega
    · simp only [MIN_REGION_SIZE, METADATA_SIZE, ALLOC_UNIT, ALIGNMENT] at hal htot h16 ⊢
      omega
  refine ⟨?_, ?_, ?_⟩
  · simp only [MIN_REGION_SIZE, METADATA_SIZE, ALLOC_UNIT, ALIGNMENT] at hlow hhigh h16 ⊢
    omega
  · simp only [getMaxPayload, MIN_REGION_SIZE, METADATA_SIZE, ALLOC_UNIT, ALIGNMENT] at hlow hhigh ⊢
    omega
  · have hsw : subWrap (getMaxPayload r) size = getMaxPayload r - size :=
      subWrap_of_le hfit
    simp only [possiblySplitRemainder, hfind, hsw, if_pos hmin]

/-- C5 witness: splitting the 128-byte region at 0 with used payload 100
down to 50 used bytes carves a 48-byte tail at 80 and keeps 64 payload
bytes in the parent. -/
theorem c5_split_remainder_safe_witness :
    MIN_REGION_SIZE ≤ 0 + (128 : Nat) - alignUp (0 + METADATA_SIZE + 50) ∧
    (50 : Nat) ≤ getMaxPayload { totalSize := alignUp (0 + METADATA_SIZE + 50) - 0, usedPayload := 100 } ∧
    possiblySplitRemainder (applyOp heapOk (Op.alloc 100)).1 0 50 =
      stopUsing { (applyOp heapOk (Op.alloc 100)).1 with regions := splitIn 0 { totalSize := alignUp (0 + METADATA_SIZE + 50) - 0, usedPayload := 100 } (alignUp (0 + METADATA_SIZE + 50)) { totalSize := 0 + 128 - alignUp (0 + METADATA_SIZE + 50), usedPayload := 0 } (applyOp heapOk (Op.alloc 100)).1.regions } (alignUp (0 + METADATA_SIZE + 50)) :=
  c5_split_remainder_safe (r := ⟨128, 100⟩) (by decide) (by decide) (by decide)
    (by decide) (by decide)

/-- C6 (amended): for requests of at least `ALLOC_UNIT` (the clamp floor of
the index function), `bigEnoughIndex(size)` is `freeListIndex(size)` plus
one exactly when `size` is not a power of two; every payload classified at
or above it is at least `size`; and it is minimal: every smaller index down
to `MIN_FREELIST_INDEX` legally files some payload smaller than `size`.
For sizes below `ALLOC_UNIT` the minimality sentence of the original claim
fails (`c6_big_enough_index_counterexample`). -/
theorem c6_big_enough_index_amended {size : Nat} (hsz : ALLOC_UNIT ≤ size) :
    getBigEnoughFreeListIndex size =
      (if isPowerOf2 size then getFreeListIndex size else getFreeListIndex size + 1) ∧
    (∀ p, ALLOC_UNIT ≤ p → getBigEnoughFreeListIndex size ≤ getFreeListIndex p →
      size ≤ p) ∧
    ∀ i, MIN_FREELIST_INDEX ≤ i → i < getBigEnoughFreeListIndex size →
      ∃ p, getFreeListIndex p = i ∧ p < size := by
  refine ⟨?_, ?_, ?_⟩
  · rw [getBigEnoughFreeListIndex]
    cases isPowerOf2 size <;> simp
  · intro p hp hip
    calc size ≤ 2 ^ getBigEnoughFreeListIndex size := le_two_pow_getBigEnoughFreeListIndex
      _ ≤ 2 ^ getFreeListIndex p := Nat.pow_le_pow_right (by omega) hip
      _ ≤ p := two_pow_getFreeListIndex_le hp
  · intro i hi hlt
    have hmin4 : (4 : Nat) ≤ i := by
      simp only [MIN_FREELIST_INDEX] at hi
      omega
    refine ⟨2 ^ i, getFreeListIndex_two_pow hmin4, ?_⟩
    cases hpw : isPowerOf2 size with
    | true =>
      obtain ⟨k, rfl⟩ := isPowerOf2_iff.mp hpw
      have hbig : getBigEnoughFreeListIndex (2 ^ k) = k := by
        rw [getBigEnoughFreeListIndex, hpw]
        simp only [Bool.not_true, Bool.false_eq_true, if_false]
        have hk4 : 4 ≤ k := by
          by_contra hk
          push_neg at hk
          have : (2 : Nat) ^ k < ALLOC_UNIT := by
            calc (2 : Nat) ^ k ≤ 2 ^ 3 := Nat.pow_le_pow_right (by omega) (by omega)
              _ < ALLOC_UNIT := by decide
          omega
        exact getFreeListIndex_two_pow hk4
      rw [hbig] at hlt
      exact Nat.pow_lt_pow_right (by omega) hlt
    | false =>
      have hle : i ≤ getFreeListIndex size := by
        rw [getBigEnoughFreeListIndex, hpw] at hlt
        simp only [Bool.not_false, if_pos] at hlt
        omega
      have h2le : (2 : Nat) ^ i ≤ size := by
        calc (2 : Nat) ^ i ≤ 2 ^ getFreeListIndex size := Nat.pow_le_pow_right (by omega) hle
          _ ≤ size := two_pow_getFreeListIndex_le hsz
      rcases Nat.lt_or_ge (2 ^ i) size with h | h
      · exact h
      · exfalso
        have heq : size = 2 ^ i := by omega
        have : isPowerOf2 size = true := isPowerOf2_iff.mpr ⟨i, heq⟩
        rw [hpw] at this
        exact Bool.noConfusion this

/-- C6 witness: at size 48 (not a power of two), the big-enough index is
`freeListIndex(48) + 1 = 6`, every payload filed at or above 6 is at least
48, and indexes 4 and 5 each file a payload smaller than 48. -/
theorem c6_big_enough_index_amended_witness :
    getBigEnoughFreeListIndex 48 =
      (if isPowerOf2 48 then getFreeListIndex 48 else getFreeListIndex 48 + 1) ∧
    (∀ p, ALLOC_UNIT ≤ p → getBigEnoughFreeListIndex 48 ≤ getFreeListIndex p →
      48 ≤ p) ∧
    ∀ i, MIN_FREELIST_INDEX ≤ i → i < getBigEnoughFreeListIndex 48 →
      ∃ p, getFreeListIndex p = i ∧ p < 48 :=
  c6_big_enough_index_amended (by decide)

/-- C6 counterexample: `bigEnoughIndex(3) = 5`, but index 4 already
guarantees the bound: every payload legally filed at any index of at least
`MIN_FREELIST_INDEX = 4` (satisfying `2^j ≤ p < 2^(j+1)`) is at least 16,
hence at least 3 — so 5 is not the smallest such index. -/
theorem c6_big_enough_index_counterexample :
    getBigEnoughFreeListIndex 3 = 5 ∧ MIN_FREELIST_INDEX < 5 ∧
    ∀ j p, MIN_FREELIST_INDEX ≤ j → 2 ^ j ≤ p → p < 2 ^ (j + 1) → 3 ≤ p := by
  refine ⟨by decide, by decide, ?_⟩
  intro j p hj h1 _
  have h2 : (2 : Nat) ^ MIN_FREELIST_INDEX ≤ 2 ^ j := Nat.pow_le_pow_right (by omega) hj
  have h3 : (2 : Nat) ^ MIN_FREELIST_INDEX = 16 := by decide
  omega


/-- C4 (amended): when the region no longer fits even after the
forward-merge attempt found no free successor, `reallocate` tries the free
lists FIRST; only when that search comes back empty and the region is the
last one does it attempt `extendLastRegion`, returning `ptr` itself when
the break growth succeeds.  The original claim — extension attempted and
`ptr` returned whenever the region is last and the growth would succeed —
is refuted by `c4_realloc_moves_counterexample`, where a free-list fit
wins and the payload moves. -/
theorem c4_realloc_extends_last_amended {h h₂ : Heap} {a size : Nat} {r : Reg}
    (hfind : h.find a = some r)
    (hbig : getMaxPayload r < size)
    (hnext : nextEntry a h.regions = none)
    (htry : tryFromFreeList h size = (h, none))
    (hlast : h.regions.getLast?.map Prod.fst = some a)
    (hext : extendLastRegion h size = (h₂, true))
    (hsz : size ≠ 0) :
    emmalloc_realloc h (a + METADATA_SIZE) size = (h₂, some (a + METADATA_SIZE)) := by
  have hne : a + METADATA_SIZE ≠ 0 := by
    simp only [METADATA_SIZE, ALLOC_UNIT, ALIGNMENT]
    omega
  have hnofit : ¬ size ≤ getMaxPayload r := not_le.mpr hbig
  simp only [emmalloc_realloc, if_neg hne, if_neg hsz, Nat.add_sub_cancel, hfind,
    if_neg hnofit, hnext, htry, hlast, hext]
  rw [if_pos trivial]


/-- C4 witness: after one 400-byte allocation the single region (payload
16) is last; growing it to 432 bytes finds no free-list fit, succeeds via
`extendLastRegion`, and returns the same payload pointer 16. -/
theorem c4_realloc_extends_last_amended_witness :
    emmalloc_realloc (applyOp heapOk (Op.alloc 400)).1 (0 + METADATA_SIZE) 432 =
      ((extendLastRegion (applyOp heapOk (Op.alloc 400)).1 432).1, some (0 + METADATA_SIZE)) :=
  c4_realloc_extends_last_amended (r := ⟨416, 400⟩) (by decide) (by decide) (by decide)
    (by rfl) (by decide) (by rfl) (by decide)

/-- C4 counterexample: after `alloc 400; alloc 16; release 16` the used
region at 416 (payload pointer 432) is the last region, 100 bytes exceed
its max payload, no free successor exists, and `extendLastRegion 100`
would succeed — yet `reallocate(432, 100)` returns pointer 16: the free
region at 0 found on the free lists wins over the in-place extension. -/
theorem c4_realloc_moves_counterexample :
    (applyOps heapOk [Op.alloc 400, Op.alloc 16, Op.release 16]).find 416 = some ⟨32, 16⟩ ∧
    getMaxPayload ⟨32, 16⟩ < 100 ∧
    nextEntry 416 (applyOps heapOk [Op.alloc 400, Op.alloc 16, Op.release 16]).regions = none ∧
    (applyOps heapOk [Op.alloc 400, Op.alloc 16, Op.release 16]).regions.getLast?.map Prod.fst = some 416 ∧
    (extendLastRegion (applyOps heapOk [Op.alloc 400, Op.alloc 16, Op.release 16]) 100).2 = true ∧
    (emmalloc_realloc (applyOps heapOk [Op.alloc 400, Op.alloc 16, Op.release 16]) (416 + METADATA_SIZE) 100).2 = some 16 ∧
    (16 : Nat) ≠ 416 + METADATA_SIZE := by
  decide

end Emmalloc
